import Mathlib

/-!
# OmniTrackr poster-fetch deduplication layer: a verified shallow embedding

This file embeds the poster/metadata fetch-coalescing code of
`app/static/app.js` (functions `fetchMoviePoster`, `fetchTVPoster`,
`fetchAnimePoster`, `fetchVideoGameMetadata`, their `save*` helpers and the
module-level tables `posterFetchInProgress` / `posterFetchQueue`) as an
interleaving small-step semantics, and proves the concurrency claims of the
specification against it.

Modelling decisions, each justified by the source:

* The calling environment is single-threaded and cooperative (browser JS),
  so each run of an `async` function between two `await`s is one atomic
  step.  A suspension point exists exactly at each `await` of the source.
  Consecutive `await`s with no shared-state access between them
  (`await fetch(url)` directly followed by `await res.json()`) are collapsed
  into one suspension, since no interleaved step can observe the difference.
* The network and the backend are external collaborators: a provider
  response, or the settling of a `save*` PUT, is delivered by an explicit
  scheduler action carrying the response value, so every theorem quantifies
  over all response contents and all interleavings.
* `setTimeout(cb, 1000)` registrations are modelled as pending timers
  `(1000, key)`; a timer may fire at any later step (firing is a scheduler
  action), which over-approximates real time and keeps all claims about
  ordering valid.
* The `save*PosterUrl` / `saveVideoGameMetadata` helpers wrap their PUT in
  `try/catch` and swallow the error, so the save settling action carries a
  Bool (success/failure) and the continuation is the same for both — this is
  itself one of the verified claims.
* DOM updates (`display*Poster`, `updateVideoGameRowMetadata`) and the
  classification of the provider response are recorded as ghost events in a
  log; they have no effect on the shared tables, mirroring the source where
  they only touch the DOM.
-/

set_option autoImplicit false

namespace OmniTrackr

/-- The four media kinds handled by the fetch layer. -/
inductive MKind
  | movie
  | tv
  | anime
  | game
deriving DecidableEq, Repr

/-- Cache keys exactly as built by the source template literals:
`movie-${title}-${year}`, `tv-${title}-${year}`, `anime-${title}-${year}`
and `video-game-${title}` (the game fetcher takes no year argument).
The `year` argument is the string the template literal interpolates
(JS `String(year)`). -/
def cacheKey : MKind → String → String → String
  | .movie, t, y => "movie-" ++ t ++ "-" ++ y
  | .tv, t, y => "tv-" ++ t ++ "-" ++ y
  | .anime, t, y => "anime-" ++ t ++ "-" ++ y
  | .game, t, _ => "video-game-" ++ t

/-- JS truthiness filter for an optional string: `x || null` followed by
`if (x)` — `null`, `undefined` and `""` are falsy. -/
def strTruthy : Option String → Option String
  | none => none
  | some s => if s = "" then none else some s

/-- The poster value accepted by the OMDB fetchers' success branch:
`data && data.Poster && data.Poster !== 'N/A'`. -/
def omdbFoundUrl (poster : Option String) : Option String :=
  match strTruthy poster with
  | some p => if p = "N/A" then none else some p
  | none => none

/-- Outcome of one OMDB proxy round trip, as the source distinguishes it:
`!res.ok` with a status (429 and 503 get dedicated warnings, everything
else a bare return), a parsed JSON body `{ Error?, Poster? }`, or a thrown
transport/parse exception. -/
inductive OmdbResp
  | notOk (status : Nat)
  | okData (err : Option String) (poster : Option String)
  | netThrow
deriving DecidableEq, Repr

/-- One entry of `data.results` from the RAWG proxy. -/
structure RawgGame where
  background_image : Option String
  genreNames : Option (List String)
  slug : Option String
  released : Option String
deriving DecidableEq, Repr

/-- Outcome of one RAWG proxy round trip. -/
inductive RawgResp
  | notOk (status : Nat)
  | okData (err : Option String) (results : List RawgGame)
  | netThrow
deriving DecidableEq, Repr

/-- The object the game fetch promise resolves with on success:
`{ cover_art_url, genres, rawg_link, release_date }`. -/
structure GameRes where
  cover_art_url : String
  genres : Option String
  rawg_link : Option String
  release_date : Option String
deriving DecidableEq, Repr

/-- Building the resolved metadata object from the first RAWG result,
exactly as the source does: `genres.map(g => g.name).join(', ')`,
`https://rawg.io/games/${slug}`, `released || null`. -/
def mkGameRes (g : RawgGame) (cover : String) : GameRes :=
  { cover_art_url := cover
    genres := g.genreNames.map (String.intercalate ", ")
    rawg_link := (strTruthy g.slug).map (fun s => "https://rawg.io/games/" ++ s)
    release_date := strTruthy g.released }

/-- Ghost classification of a provider response, following the spec's
taxonomy as realised by the source branches: a well-formed no-data answer
(explicit error field, missing/`N/A` poster, empty result list) is a miss,
every HTTP error status and transport exception is a failure. -/
inductive ROut
  | found (url : String)
  | miss
  | fail
deriving DecidableEq, Repr

/-- Classification of an OMDB response along the source's branches. -/
def omdbClass : OmdbResp → ROut
  | .notOk _ => .fail
  | .netThrow => .fail
  | .okData err poster =>
    if (strTruthy err).isSome then .miss
    else
      match omdbFoundUrl poster with
      | some u => .found u
      | none => .miss

/-- Classification of a RAWG response along the source's branches. -/
def rawgClass : RawgResp → ROut
  | .notOk _ => .fail
  | .netThrow => .fail
  | .okData err results =>
    if (strTruthy err).isSome then .miss
    else
      match results.head? with
      | none => .miss
      | some g =>
        match strTruthy g.background_image with
        | some u => .found u
        | none => .miss

/-- A promise cell of the model.  OMDB fetchers only ever store
`Promise.resolve(url)` / `Promise.resolve(null)` (an already-resolved
string promise); the game fetcher stores its shared in-flight promise,
created pending and resolved with `GameRes` or `null`. -/
inductive PVal
  | pending
  | sres (v : Option String)
  | gres (v : Option GameRes)
deriving DecidableEq, Repr

/-- Per-invocation control state: one constructor per maximal synchronous
segment boundary (each `await` of the source).

* `oStart`: an OMDB-style fetcher (`movie`/`tv`/`anime`) not yet run.
* `oJoin pid`: suspended at `await existingPromise` in the in-progress
  branch.
* `oFetch`: suspended at `await fetch(...)` / `await res.json()`.
* `oSave`: suspended at `await saveXxxPosterUrl(id, url)` in the success
  branch.
* `gStart`: `fetchVideoGameMetadata` not yet run.
* `gJoin pid`: a game caller suspended at `await existingPromise`.
* `gJoinSave r`: a game joiner suspended at its own
  `await saveVideoGameMetadata(...)` after displaying; resumes to
  `updateVideoGameRowMetadata`.
* `gOwn pid`: the originating game caller suspended at
  `await fetchPromise`; on resume its `finally` schedules the eviction
  timer.
* `jFetch pid`: the immediately-invoked async arrow (the shared fetch job)
  suspended at `await fetch(proxyUrl)`.
* `jSave pid r`: the fetch job suspended at `await saveVideoGameMetadata`;
  resumes to display, update the row and resolve the shared promise.
* `done`: the invocation returned. -/
inductive TState
  | oStart (k : MKind) (title yearS : String)
  | oJoin (pid : Nat)
  | oFetch (k : MKind) (title yearS : String)
  | oSave (k : MKind) (title yearS url : String)
  | gStart (title : String)
  | gJoin (title : String) (pid : Nat)
  | gJoinSave (title : String) (r : GameRes)
  | gOwn (title : String) (pid : Nat)
  | jFetch (title : String) (pid : Nat)
  | jSave (title : String) (pid : Nat) (r : GameRes)
  | done
deriving DecidableEq, Repr

/-- A task: the entity/row id the invocation was made for, plus its
control state. -/
structure Task where
  row : Nat
  st : TState
deriving DecidableEq, Repr

/-- Observable (and ghost) events, recorded in order.

* `call k`: an outbound provider network call for key `k` was initiated.
* `resp k out`: the provider response for key `k` was delivered, with its
  classification.
* `persist k row url`: a backend PUT (`save*`) was initiated.
* `display row url`: the row's poster/cover was rendered.
* `updateRow row`: `updateVideoGameRowMetadata` ran.
* `evict k`: the `setTimeout` callback deleted `k` from both tables.
* `joinSucc k`: ghost marker — a game joiner observed a successful shared
  result (the joiner's re-persist branch). -/
inductive Ev
  | call (key : String)
  | resp (key : String) (out : ROut)
  | persist (key : String) (row : Nat) (url : String)
  | display (row : Nat) (url : String)
  | updateRow (row : Nat)
  | evict (key : String)
  | joinSucc (key : String)
deriving DecidableEq, Repr

/-- Association-list lookup (first match), standing for `Map.get`. -/
def alook {κ β : Type} [DecidableEq κ] : List (κ × β) → κ → Option β
  | [], _ => none
  | (a, b) :: xs, k => if a = k then some b else alook xs k

/-- `Map.set`: replace any entry for the key. -/
def aset {κ β : Type} [DecidableEq κ] (q : List (κ × β)) (k : κ) (v : β) :
    List (κ × β) :=
  (k, v) :: q.filter (fun e => e.1 ≠ k)

/-- `Map.delete`. -/
def adel {κ β : Type} [DecidableEq κ] (q : List (κ × β)) (k : κ) :
    List (κ × β) :=
  q.filter (fun e => e.1 ≠ k)

/-- `Set.add`. -/
def sAdd (s : List String) (k : String) : List String :=
  if k ∈ s then s else k :: s

/-- `Set.delete`. -/
def sDel (s : List String) (k : String) : List String :=
  s.filter (fun x => x ≠ k)

/-- List read by position (the scheduler addresses tasks by index). -/
def tget {α : Type} : List α → Nat → Option α
  | [], _ => none
  | x :: _, 0 => some x
  | _ :: xs, n + 1 => tget xs n

/-- List write by position. -/
def upd {α : Type} : List α → Nat → α → List α
  | [], _, _ => []
  | _ :: xs, 0, y => y :: xs
  | x :: xs, n + 1, y => x :: upd xs n y

/-- The shared state: the two module-level tables, the promise heap, the
live invocations, the pending `setTimeout` registrations, the ghost event
log and a fresh-promise counter. -/
structure Config where
  inProg : List String
  queue : List (String × Nat)
  promises : List (Nat × PVal)
  tasks : List Task
  timers : List (Nat × String)
  log : List Ev
  nextP : Nat
deriving DecidableEq, Repr

/-- Scheduler actions: run the next synchronous segment of task `i`,
deliver a provider response to the fetch task `i` is suspended on, settle
the PUT task `i` is suspended on (with success flag), or fire the pending
eviction timer of key `k`. -/
inductive Act
  | run (i : Nat)
  | respO (i : Nat) (r : OmdbResp)
  | respG (i : Nat) (r : RawgResp)
  | saveDone (i : Nat) (ok : Bool)
  | fire (k : String)
deriving DecidableEq, Repr

/-- One atomic step of the system; `none` when the action is not enabled
(no such task, task not suspended at that kind of boundary, promise still
pending, no such timer). -/
def step (c : Config) : Act → Option Config
  | .run i =>
    match tget c.tasks i with
    | some ⟨row, .oStart k t y⟩ =>
      if cacheKey k t y ∈ c.inProg then
        -- already fetching: grab the queued promise if there is one
        match alook c.queue (cacheKey k t y) with
        | some pid => some { c with tasks := upd c.tasks i ⟨row, .oJoin pid⟩ }
        | none => some { c with tasks := upd c.tasks i ⟨row, .done⟩ }
      else
        -- mark in progress, build the url and call fetch — one segment
        some { c with
          inProg := sAdd c.inProg (cacheKey k t y)
          tasks := upd c.tasks i ⟨row, .oFetch k t y⟩
          log := c.log ++ [.call (cacheKey k t y)] }
    | some ⟨row, .oJoin pid⟩ =>
      match alook c.promises pid with
      | some (.sres v) =>
        match strTruthy v with
        | some url =>
          some { c with
            tasks := upd c.tasks i ⟨row, .done⟩
            log := c.log ++ [.display row url] }
        | none => some { c with tasks := upd c.tasks i ⟨row, .done⟩ }
      | _ => none
    | some ⟨row, .gStart t⟩ =>
      if cacheKey .game t "" ∈ c.inProg then
        match alook c.queue (cacheKey .game t "") with
        | some pid => some { c with tasks := upd c.tasks i ⟨row, .gJoin t pid⟩ }
        | none => some { c with tasks := upd c.tasks i ⟨row, .done⟩ }
      else
        -- create the fetch promise (the arrow body runs to its first await,
        -- so fetch() is invoked here), then the double-check read of the
        -- queue, then queue.set / inProgress.add — all one segment
        match alook c.queue (cacheKey .game t "") with
        | some pid' =>
          -- "another request beat us to it": join theirs; the freshly
          -- created fetch job keeps running unobserved
          some { c with
            tasks := upd c.tasks i ⟨row, .gJoin t pid'⟩ ++
              [⟨row, .jFetch t c.nextP⟩]
            promises := (c.nextP, .pending) :: c.promises
            nextP := c.nextP + 1
            log := c.log ++ [.call (cacheKey .game t "")] }
        | none =>
          some { c with
            tasks := upd c.tasks i ⟨row, .gOwn t c.nextP⟩ ++
              [⟨row, .jFetch t c.nextP⟩]
            promises := (c.nextP, .pending) :: c.promises
            queue := aset c.queue (cacheKey .game t "") c.nextP
            inProg := sAdd c.inProg (cacheKey .game t "")
            nextP := c.nextP + 1
            log := c.log ++ [.call (cacheKey .game t "")] }
    | some ⟨row, .gJoin t pid⟩ =>
      match alook c.promises pid with
      | some (.gres v) =>
        match v with
        | some r =>
          if r.cover_art_url = "" then
            some { c with tasks := upd c.tasks i ⟨row, .done⟩ }
          else
            -- display, then await the joiner's own save PUT
            some { c with
              tasks := upd c.tasks i ⟨row, .gJoinSave t r⟩
              log := c.log ++
                [.display row r.cover_art_url,
                 .persist (cacheKey .game t "") row r.cover_art_url,
                 .joinSucc (cacheKey .game t "")] }
        | none => some { c with tasks := upd c.tasks i ⟨row, .done⟩ }
      | _ => none
    | some ⟨row, .gOwn t pid⟩ =>
      match alook c.promises pid with
      | some (.gres _) =>
        -- `finally`: schedule removal from both tables after 1000 ms
        some { c with
          tasks := upd c.tasks i ⟨row, .done⟩
          timers := c.timers ++ [(1000, cacheKey .game t "")] }
      | _ => none
    | _ => none
  | .respO i r =>
    match tget c.tasks i with
    | some ⟨row, .oFetch k t y⟩ =>
      match r with
      | .notOk _ =>
        -- 429 / 503 / other: warn and return; finally schedules eviction
        some { c with
          tasks := upd c.tasks i ⟨row, .done⟩
          timers := c.timers ++ [(1000, cacheKey k t y)]
          log := c.log ++ [.resp (cacheKey k t y) .fail] }
      | .okData err poster =>
        if (strTruthy err).isSome then
          some { c with
            tasks := upd c.tasks i ⟨row, .done⟩
            timers := c.timers ++ [(1000, cacheKey k t y)]
            log := c.log ++ [.resp (cacheKey k t y) .miss] }
        else
          match omdbFoundUrl poster with
          | some url =>
            -- success: initiate the PUT and suspend on it
            some { c with
              tasks := upd c.tasks i ⟨row, .oSave k t y url⟩
              log := c.log ++ [.resp (cacheKey k t y) (.found url),
                .persist (cacheKey k t y) row url] }
          | none =>
            some { c with
              tasks := upd c.tasks i ⟨row, .done⟩
              timers := c.timers ++ [(1000, cacheKey k t y)]
              log := c.log ++ [.resp (cacheKey k t y) .miss] }
      | .netThrow =>
        -- catch: store Promise.resolve(null); finally: schedule eviction
        some { c with
          tasks := upd c.tasks i ⟨row, .done⟩
          promises := (c.nextP, .sres none) :: c.promises
          queue := aset c.queue (cacheKey k t y) c.nextP
          timers := c.timers ++ [(1000, cacheKey k t y)]
          nextP := c.nextP + 1
          log := c.log ++ [.resp (cacheKey k t y) .fail] }
    | _ => none
  | .respG i r =>
    match tget c.tasks i with
    | some ⟨row, .jFetch t pid⟩ =>
      match r with
      | .notOk _ =>
        some { c with
          tasks := upd c.tasks i ⟨row, .done⟩
          promises := aset c.promises pid (.gres none)
          log := c.log ++ [.resp (cacheKey .game t "") .fail] }
      | .okData err results =>
        if (strTruthy err).isSome then
          some { c with
            tasks := upd c.tasks i ⟨row, .done⟩
            promises := aset c.promises pid (.gres none)
            log := c.log ++ [.resp (cacheKey .game t "") .miss] }
        else
          match results.head? with
          | none =>
            some { c with
              tasks := upd c.tasks i ⟨row, .done⟩
              promises := aset c.promises pid (.gres none)
              log := c.log ++ [.resp (cacheKey .game t "") .miss] }
          | some g =>
            match strTruthy g.background_image with
            | some cover =>
              some { c with
                tasks := upd c.tasks i ⟨row, .jSave t pid (mkGameRes g cover)⟩
                log := c.log ++
                  [.resp (cacheKey .game t "") (.found cover),
                   .persist (cacheKey .game t "") row cover] }
            | none =>
              some { c with
                tasks := upd c.tasks i ⟨row, .done⟩
                promises := aset c.promises pid (.gres none)
                log := c.log ++ [.resp (cacheKey .game t "") .miss] }
      | .netThrow =>
        some { c with
          tasks := upd c.tasks i ⟨row, .done⟩
          promises := aset c.promises pid (.gres none)
          log := c.log ++ [.resp (cacheKey .game t "") .fail] }
    | _ => none
  | .saveDone i _ok =>
    match tget c.tasks i with
    | some ⟨row, .oSave k t y url⟩ =>
      -- saveXxxPosterUrl swallowed any error; resume: display, store the
      -- resolved promise in the queue, return; finally: schedule eviction
      some { c with
        tasks := upd c.tasks i ⟨row, .done⟩
        promises := (c.nextP, .sres (some url)) :: c.promises
        queue := aset c.queue (cacheKey k t y) c.nextP
        timers := c.timers ++ [(1000, cacheKey k t y)]
        nextP := c.nextP + 1
        log := c.log ++ [.display row url] }
    | some ⟨row, .jSave _t pid r⟩ =>
      -- fetch job resume: display, update the row, resolve the shared
      -- promise with the result object
      some { c with
        tasks := upd c.tasks i ⟨row, .done⟩
        promises := aset c.promises pid (.gres (some r))
        log := c.log ++ [.display row r.cover_art_url, .updateRow row] }
    | some ⟨row, .gJoinSave _t _r⟩ =>
      some { c with
        tasks := upd c.tasks i ⟨row, .done⟩
        log := c.log ++ [.updateRow row] }
    | _ => none
  | .fire k =>
    if c.timers.any (fun e => e.2 = k) then
      some { c with
        timers := c.timers.filter (fun e => e.2 ≠ k)
        inProg := sDel c.inProg k
        queue := adel c.queue k
        log := c.log ++ [.evict k] }
    else none

/-- Run a list of scheduler actions; fails if any action is disabled. -/
def exec : Config → List Act → Option Config
  | c, [] => some c
  | c, a :: as =>
    match step c a with
    | some c' => exec c' as
    | none => none

/-- One request to the fetch layer: entity id, kind, title and the
stringified year (ignored for games, whose fetcher takes no year). -/
structure Req where
  row : Nat
  kind : MKind
  title : String
  yearS : String
deriving DecidableEq, Repr

/-- The initial control state of a request's invocation. -/
def initTask (r : Req) : Task :=
  match r.kind with
  | .game => ⟨r.row, .gStart r.title⟩
  | k => ⟨r.row, .oStart k r.title r.yearS⟩

/-- Fresh page state: both tables empty, the given invocations pending. -/
def init (reqs : List Req) : Config :=
  { inProg := []
    queue := []
    promises := []
    tasks := reqs.map initTask
    timers := []
    log := []
    nextP := 0 }

/-! ### Event counters and task classifiers -/

/-- Event is an outbound provider call for key `k`. -/
def isCall (k : String) : Ev → Bool
  | .call k' => k' == k
  | _ => false

/-- Event is a provider response delivery for key `k` (any outcome). -/
def isResp (k : String) : Ev → Bool
  | .resp k' _ => k' == k
  | _ => false

/-- Event is a provider response delivery for key `k` with a found
artifact. -/
def isRespFound (k : String) : Ev → Bool
  | .resp k' (.found _) => k' == k
  | _ => false

/-- Event is a backend persistence PUT for key `k`. -/
def isPersist (k : String) : Ev → Bool
  | .persist k' _ _ => k' == k
  | _ => false

/-- Event is the grace-period eviction of key `k`. -/
def isEvict (k : String) : Ev → Bool
  | .evict k' => k' == k
  | _ => false

/-- Event is a game joiner observing a successful shared result for `k`. -/
def isJoinSucc (k : String) : Ev → Bool
  | .joinSucc k' => k' == k
  | _ => false

/-- Event is a row display for row `r`. -/
def isDisplay (r : Nat) : Ev → Bool
  | .display r' _ => r' == r
  | _ => false

def countCall (l : List Ev) (k : String) : Nat := l.countP (isCall k)
def countResp (l : List Ev) (k : String) : Nat := l.countP (isResp k)
def countRespFound (l : List Ev) (k : String) : Nat := l.countP (isRespFound k)
def countPersist (l : List Ev) (k : String) : Nat := l.countP (isPersist k)
def countEvict (l : List Ev) (k : String) : Nat := l.countP (isEvict k)
def countJoinSucc (l : List Ev) (k : String) : Nat := l.countP (isJoinSucc k)

/-- The key a task state owns (it registered it in `posterFetchInProgress`
and its completion path schedules the eviction), if any. -/
def ownerKey : TState → Option String
  | .oFetch k t y => some (cacheKey k t y)
  | .oSave k t y _ => some (cacheKey k t y)
  | .gOwn t _ => some (cacheKey .game t "")
  | _ => none

/-- The key of the provider network round trip a task state is suspended
on, if any. -/
def netKey : TState → Option String
  | .oFetch k t y => some (cacheKey k t y)
  | .jFetch t _ => some (cacheKey .game t "")
  | _ => none

/-- The promise id of a game fetch job, if the state is one. -/
def jobPid : TState → Option Nat
  | .jFetch _ p => some p
  | .jSave _ p _ => some p
  | _ => none

/-- The media kind of an OMDB-style fetcher invocation, if the state is
one.  Only `fetchMoviePoster` / `fetchTVPoster` / `fetchAnimePoster` create
these states, so the kind is never `game` (an invariant). -/
def oKind : TState → Option MKind
  | .oStart k _ _ => some k
  | .oFetch k _ _ => some k
  | .oSave k _ _ _ => some k
  | _ => none

/-- Promise ids referenced by a task state. -/
def statePids : TState → List Nat
  | .oJoin p => [p]
  | .gJoin _ p => [p]
  | .gOwn _ p => [p]
  | .jFetch _ p => [p]
  | .jSave _ p _ => [p]
  | _ => []

/-- Number of tasks owning key `k`. -/
def cntOwner (c : Config) (k : String) : Nat :=
  c.tasks.countP (fun tk => decide (ownerKey tk.st = some k))

/-- Number of provider network calls in flight for key `k`. -/
def cntNet (c : Config) (k : String) : Nat :=
  c.tasks.countP (fun tk => decide (netKey tk.st = some k))

/-- Number of pending eviction timers for key `k`. -/
def cntTimer (c : Config) (k : String) : Nat :=
  c.timers.countP (fun e => decide (e.2 = k))

/-- Number of game fetch jobs for promise id `p`. -/
def cntJob (c : Config) (p : Nat) : Nat :=
  c.tasks.countP (fun tk => decide (jobPid tk.st = some p))

/-- A task state is a game fetch job for title `t` and promise `p`. -/
def isJob (t : String) (p : Nat) (st : TState) : Prop :=
  st = .jFetch t p ∨ ∃ r, st = .jSave t p r

/-! ### The reachable-state invariant -/

/-- Well-formedness of a configuration: the inductive invariant that holds
in every state reachable from `init` and carries every structural fact the
claims need. -/
structure WF (c : Config) : Prop where
  /-- Every pending `setTimeout` was registered with delay 1000 ms. -/
  timers1000 : ∀ e ∈ c.timers, e.1 = 1000
  /-- A key is in `posterFetchInProgress` iff its window is open: exactly
  one owner task or exactly one pending eviction timer. -/
  ownerTimer : ∀ k, cntOwner c k + cntTimer c k =
    (if k ∈ c.inProg then 1 else 0)
  /-- At most one provider call in flight per key. -/
  netLe : ∀ k, cntNet c k ≤ 1
  /-- A queued promise implies the key is marked in progress. -/
  queueInProg : ∀ k pid, alook c.queue k = some pid → k ∈ c.inProg
  /-- The queue holds at most one entry per key. -/
  queueOnce : ∀ k, c.queue.countP (fun e => decide (e.1 = k)) ≤ 1
  /-- A waiting game originator's promise is the queued one for its key. -/
  gOwnQueue : ∀ tk ∈ c.tasks, ∀ t pid, tk.st = .gOwn t pid →
    alook c.queue (cacheKey .game t "") = some pid
  /-- Every live game fetch job's promise is still pending and its
  originator is still waiting on it. -/
  jobLink : ∀ tk ∈ c.tasks, ∀ t p, isJob t p tk.st →
    alook c.promises p = some .pending ∧
      ∃ tj ∈ c.tasks, tj.st = .gOwn t p
  /-- At most one live fetch job per promise id. -/
  jobOnce : ∀ p, cntJob c p ≤ 1
  /-- A waiting game originator's promise is either already resolved or
  still being produced by a live fetch job. -/
  gOwnJob : ∀ tk ∈ c.tasks, ∀ t p, tk.st = .gOwn t p →
    (∃ v, alook c.promises p = some (.gres v)) ∨
      (alook c.promises p = some .pending ∧
        ∃ tj ∈ c.tasks, isJob t p tj.st)
  /-- All promise ids in the heap are below the fresh counter. -/
  promFresh : ∀ e ∈ c.promises, e.1 < c.nextP
  /-- All promise ids in the queue are below the fresh counter. -/
  queueFresh : ∀ e ∈ c.queue, e.2 < c.nextP
  /-- All promise ids referenced by tasks are below the fresh counter. -/
  taskFresh : ∀ tk ∈ c.tasks, ∀ p ∈ statePids tk.st, p < c.nextP
  /-- Provider calls and evictions for a key alternate: the counts differ
  by exactly the open-window bit. -/
  callCount : ∀ k, countCall c.log k =
    countEvict c.log k + (if k ∈ c.inProg then 1 else 0)
  /-- Every response was delivered to a call; the difference is the calls
  still in flight. -/
  respCount : ∀ k, countCall c.log k = countResp c.log k + cntNet c k
  /-- Persistence PUTs happen exactly at found responses plus successful
  game joins. -/
  persistCount : ∀ k, countPersist c.log k =
    countRespFound c.log k + countJoinSucc c.log k
  /-- Successful-join markers only exist for game keys. -/
  joinSuccGame : ∀ k, countJoinSucc c.log k ≠ 0 → ∃ t, k = cacheKey .game t ""
  /-- OMDB-style fetcher states never carry the `game` kind. -/
  omdbKind : ∀ tk ∈ c.tasks, oKind tk.st ≠ some .game

/-- First character of a key, discriminating the four kinds. -/
def kindHead : MKind → Char
  | .movie => 'm'
  | .tv => 't'
  | .anime => 'a'
  | .game => 'v'

/-! ### Concrete scenarios -/

/-- The movie key of the concrete scenarios. -/
def mvKey : String := cacheKey .movie "Inception" "2010"

/-- The game key of the concrete scenarios. -/
def gmKey : String := cacheKey .game "Halo" ""

/-- Two concurrent identical movie requests. -/
def twinReqs : List Req :=
  [⟨1, .movie, "Inception", "2010"⟩, ⟨2, .movie, "Inception", "2010"⟩]

/-- Both twin requests run their first segment. -/
def cfgTwin : Config :=
  (exec (init twinReqs) [.run 0, .run 1]).getD (init twinReqs)

/-- The full twin-request window: the second request joins while the first
is in flight, then the provider answers with a poster and the PUT
succeeds. -/
def cfgLost : Config :=
  (exec (init twinReqs)
    [.run 0, .run 1, .respO 0 (.okData none (some "u.jpg")),
     .saveDone 0 true]).getD (init twinReqs)

/-- Scenario E: concurrent `tv` and `movie` requests for the same title
and year. -/
def duneReqs : List Req :=
  [⟨1, .tv, "Dune", "2021"⟩, ⟨2, .movie, "Dune", "2021"⟩]

/-- Scenario E run to completion: both fetches succeed and persist. -/
def cfgDune : Config :=
  (exec (init duneReqs)
    [.run 0, .run 1, .respO 0 (.okData none (some "d1.jpg")),
     .respO 1 (.okData none (some "d2.jpg")), .saveDone 0 true,
     .saveDone 1 true]).getD (init duneReqs)

/-- The tv-side key of Scenario E. -/
def tvDuneKey : String := cacheKey .tv "Dune" "2021"

/-- The movie-side key of Scenario E. -/
def mvDuneKey : String := cacheKey .movie "Dune" "2021"

/-- Two requests whose (kind, title, year) tuples differ but whose cache
keys collide: a trailing hyphen in the title against a leading hyphen in
the year. -/
def hyphReqs : List Req := [⟨1, .movie, "A-", "5"⟩, ⟨2, .movie, "A", "-5"⟩]

/-- The colliding-tuple scenario after both first segments. -/
def cfgHyph : Config :=
  (exec (init hyphReqs) [.run 0, .run 1]).getD (init hyphReqs)

/-- Two concurrent identical game requests. -/
def haloReqs : List Req := [⟨1, .game, "Halo", ""⟩, ⟨2, .game, "Halo", ""⟩]

/-- The RAWG result entry of the concrete game scenario. -/
def haloGame : RawgGame :=
  ⟨some "c.jpg", some ["Shooter"], some "halo", some "2001-11-15"⟩

/-- The game window run to completion: the second caller joins the shared
promise, the fetch job succeeds and persists, then the joiner re-displays
and re-persists the shared result. -/
def haloActs : List Act :=
  [.run 0, .run 1, .respG 2 (.okData none [haloGame]), .saveDone 2 true,
   .run 1, .saveDone 1 true]

/-- The completed concrete game window. -/
def cfgHalo : Config := (exec (init haloReqs) haloActs).getD (init haloReqs)

/-- One movie and one game request, both run to their first suspension. -/
def mixReqs : List Req :=
  [⟨1, .movie, "Inception", "2010"⟩, ⟨2, .game, "Halo", ""⟩]

/-- The mixed scenario with both fetches in flight. -/
def cfgMix : Config :=
  (exec (init mixReqs) [.run 0, .run 1]).getD (init mixReqs)

/-- The twin-request window after the provider answers 429. -/
def cfgFail : Config :=
  (exec (init twinReqs)
    [.run 0, .run 1, .respO 0 (.notOk 429)]).getD (init twinReqs)

/-- The twin-request window suspended on its persistence PUT. -/
def cfgSave : Config :=
  (exec (init twinReqs)
    [.run 0, .run 1, .respO 0 (.okData none (some "u.jpg"))]).getD
    (init twinReqs)

/-- A single game request, for the C10 witness. -/
def soloGame : List Req := [⟨1, .game, "Halo", ""⟩]

/-! ### The per-key window state machine -/

/-- The per-key window phases of the spec's state machine: absent from
both tables, in flight (key marked, fetch not yet settled), or resolved
(key marked, eviction timer pending). -/
inductive KPhase
  | absent
  | inFlight
  | resolvedP
deriving DecidableEq, Repr

/-- The phase of key `k` in a configuration. -/
def phase (c : Config) (k : String) : KPhase :=
  if k ∈ c.inProg then
    (if 0 < cntTimer c k then .resolvedP else .inFlight)
  else .absent

/-- The allowed transitions of the spec's per-key state machine: stay,
Absent to InFlight, InFlight to Resolved, Resolved to Absent. -/
def phaseOk : KPhase → KPhase → Bool
  | p, q =>
    p == q || (p == .absent && q == .inFlight) ||
      (p == .inFlight && q == .resolvedP) ||
      (p == .resolvedP && q == .absent)

/-- The twin-request window after a 503 failure settles. -/
def cfgSettled : Config :=
  (exec (init twinReqs) [.run 0, .respO 0 (.notOk 503)]).getD
    (init twinReqs)

/-- The settled twin-request window after its eviction timer fires. -/
def cfgEvicted : Config := (step cfgSettled (.fire mvKey)).getD cfgSettled

/-- The twin-request window fully recycled: failure, eviction, then the
second request opens a brand-new window with a second provider call. -/
def cfgRefetch : Config :=
  (exec (init twinReqs)
    [.run 0, .respO 0 (.notOk 503), .fire mvKey, .run 1]).getD
    (init twinReqs)

/-- The twin-request window after the in-flight fetch settles with a 503
failure, reached from `cfgTwin` by one step. -/
def cfgTwinSettled : Config :=
  (step cfgTwin (.respO 0 (.notOk 503))).getD cfgTwin

/-! ### List-machinery lemmas -/

theorem tget_mem {α : Type} {l : List α} {i : Nat} {x : α}
    (h : tget l i = some x) : x ∈ l := by
  induction l generalizing i with
  | nil => simp [tget] at h
  | cons a as ih =>
    cases i with
    | zero =>
      simp only [tget, Option.some.injEq] at h
      exact h ▸ List.mem_cons_self a as
    | succ n =>
      exact List.mem_cons_of_mem _ (ih h)

theorem tget_upd_self {α : Type} {l : List α} {i : Nat} {old : α} (y : α)
    (h : tget l i = some old) : tget (upd l i y) i = some y := by
  induction l generalizing i with
  | nil => simp [tget] at h
  | cons a as ih =>
    cases i with
    | zero => simp [tget, upd]
    | succ n => simpa [tget, upd] using ih h

theorem tget_upd_ne {α : Type} (l : List α) {i j : Nat} (y : α)
    (h : i ≠ j) : tget (upd l i y) j = tget l j := by
  induction l generalizing i j with
  | nil => simp [upd]
  | cons a as ih =>
    cases i with
    | zero =>
      cases j with
      | zero => exact absurd rfl h
      | succ m => simp [tget, upd]
    | succ n =>
      cases j with
      | zero => simp [tget, upd]
      | succ m =>
        simp only [tget, upd]
        exact ih (fun hh => h (by simp [hh]))

theorem mem_upd {α : Type} {l : List α} {i : Nat} {y x : α}
    (h : x ∈ upd l i y) : x = y ∨ x ∈ l := by
  induction l generalizing i with
  | nil => simp [upd] at h
  | cons a as ih =>
    cases i with
    | zero =>
      rcases List.mem_cons.mp h with h | h
      · exact .inl h
      · exact .inr (List.mem_cons_of_mem _ h)
    | succ n =>
      rcases List.mem_cons.mp h with h | h
      · exact .inr (h ▸ List.mem_cons_self a as)
      · rcases ih h with h | h
        · exact .inl h
        · exact .inr (List.mem_cons_of_mem _ h)

theorem mem_upd_self {α : Type} {l : List α} {i : Nat} {old : α} (y : α)
    (h : tget l i = some old) : y ∈ upd l i y := by
  induction l generalizing i with
  | nil => simp [tget] at h
  | cons a as ih =>
    cases i with
    | zero => simp [upd]
    | succ n => simpa [upd] using .inr (ih h)

theorem mem_upd_of_ne {α : Type} {l : List α} {i : Nat} {old y x : α}
    (hx : x ∈ l) (ho : tget l i = some old) (hne : x ≠ old) :
    x ∈ upd l i y := by
  induction l generalizing i with
  | nil => simp at hx
  | cons a as ih =>
    cases i with
    | zero =>
      simp only [tget, Option.some.injEq] at ho
      subst ho
      rcases List.mem_cons.mp hx with h | h
      · exact absurd h hne
      · exact List.mem_cons_of_mem _ h
    | succ n =>
      rcases List.mem_cons.mp hx with h | h
      · exact h ▸ List.mem_cons_self a _
      · exact List.mem_cons_of_mem _ (ih h ho)

theorem countP_upd {α : Type} (p : α → Bool) {l : List α} {i : Nat}
    {old : α} (y : α) (h : tget l i = some old) :
    (upd l i y).countP p + (if p old then 1 else 0) =
      l.countP p + (if p y then 1 else 0) := by
  induction l generalizing i with
  | nil => simp [tget] at h
  | cons a as ih =>
    cases i with
    | zero =>
      simp only [tget, Option.some.injEq] at h
      subst h
      simp only [upd, List.countP_cons]
      omega
    | succ n =>
      simp only [upd, List.countP_cons]
      have := ih h
      omega

theorem alook_filter_ne {κ β : Type} [DecidableEq κ]
    (q : List (κ × β)) {k k' : κ} (h : k' ≠ k) :
    alook (q.filter (fun e => e.1 ≠ k)) k' = alook q k' := by
  simp only [decide_not]
  induction q with
  | nil => simp [alook]
  | cons e q ih =>
    obtain ⟨a, b⟩ := e
    by_cases ha : a = k
    · have hkk : ¬ k = k' := fun hh => h hh.symm
      simp [List.filter_cons, alook, ha, hkk, ih]
    · simp [List.filter_cons, alook, ha, ih]

theorem alook_aset_self {κ β : Type} [DecidableEq κ]
    (q : List (κ × β)) (k : κ) (v : β) : alook (aset q k v) k = some v := by
  simp [aset, alook]

theorem alook_aset_ne {κ β : Type} [DecidableEq κ]
    (q : List (κ × β)) {k k' : κ} (v : β) (h : k' ≠ k) :
    alook (aset q k v) k' = alook q k' := by
  simp only [aset, alook]
  rw [if_neg (fun hh => h hh.symm)]
  exact alook_filter_ne q h

theorem alook_adel_self {κ β : Type} [DecidableEq κ]
    (q : List (κ × β)) (k : κ) : alook (adel q k) k = none := by
  simp only [adel, decide_not]
  induction q with
  | nil => simp [alook]
  | cons e q ih =>
    obtain ⟨a, b⟩ := e
    by_cases ha : a = k
    · simp [List.filter_cons, ha, ih]
    · simp [List.filter_cons, alook, ha, ih]

theorem alook_adel_ne {κ β : Type} [DecidableEq κ]
    (q : List (κ × β)) {k k' : κ} (h : k' ≠ k) :
    alook (adel q k) k' = alook q k' :=
  alook_filter_ne q h

theorem mem_aset {κ β : Type} [DecidableEq κ]
    {q : List (κ × β)} {k : κ} {v : β} {e : κ × β} (h : e ∈ aset q k v) :
    e = (k, v) ∨ e ∈ q := by
  rcases List.mem_cons.mp h with h | h
  · exact .inl h
  · exact .inr (List.mem_filter.mp h).1

theorem mem_adel {κ β : Type} [DecidableEq κ]
    {q : List (κ × β)} {k : κ} {e : κ × β} (h : e ∈ adel q k) : e ∈ q :=
  (List.mem_filter.mp h).1

theorem alook_mem {κ β : Type} [DecidableEq κ] {q : List (κ × β)} {k : κ}
    {v : β} (h : alook q k = some v) : (k, v) ∈ q := by
  induction q with
  | nil => simp [alook] at h
  | cons e q ih =>
    obtain ⟨a, b⟩ := e
    simp only [alook] at h
    by_cases ha : a = k
    · rw [if_pos ha] at h
      subst ha
      rw [Option.some.injEq] at h
      subst h
      exact List.mem_cons_self _ _
    · rw [if_neg ha] at h
      exact List.mem_cons_of_mem _ (ih h)

theorem countP_key_filter_self {κ β : Type} [DecidableEq κ]
    (q : List (κ × β)) (k : κ) :
    (q.filter (fun e => e.1 ≠ k)).countP (fun e => decide (e.1 = k)) = 0 := by
  rw [List.countP_eq_zero]
  intro e he
  have := (List.mem_filter.mp he).2
  simpa using this

theorem countP_key_filter_ne {κ β : Type} [DecidableEq κ]
    (q : List (κ × β)) {k k' : κ} (h : k' ≠ k) :
    (q.filter (fun e => e.1 ≠ k)).countP (fun e => decide (e.1 = k')) =
      q.countP (fun e => decide (e.1 = k')) := by
  simp only [decide_not]
  induction q with
  | nil => simp
  | cons e q ih =>
    by_cases he : e.1 = k
    · have hek : ¬ e.1 = k' := fun hh => h (hh.symm.trans he)
      have hkk : ¬ k = k' := fun hh => h hh.symm
      simp [List.filter_cons, List.countP_cons, he, hek, hkk, ih]
    · simp [List.filter_cons, List.countP_cons, he, ih]

theorem mem_sAdd {s : List String} {k x : String} :
    x ∈ sAdd s k ↔ x = k ∨ x ∈ s := by
  unfold sAdd
  by_cases h : k ∈ s
  · simp only [if_pos h]
    constructor
    · exact .inr
    · rintro (rfl | hx)
      · exact h
      · exact hx
  · simp [if_neg h]

theorem mem_sDel {s : List String} {k x : String} :
    x ∈ sDel s k ↔ x ∈ s ∧ x ≠ k := by
  simp [sDel, List.mem_filter]

/-! ### Cache-key shape lemmas -/

theorem str_ext {s1 s2 : String} (h : s1.data = s2.data) : s1 = s2 := by
  cases s1; cases s2; exact congrArg String.mk h

theorem takeWhile_append_not {α : Type} (p : α → Bool) (l m : List α) (a : α)
    (hl : ∀ x ∈ l, p x = true) (ha : p a = false) :
    (l ++ a :: m).takeWhile p = l := by
  induction l with
  | nil => simp [List.takeWhile_cons, ha]
  | cons x xs ih =>
    have hx := hl x (List.mem_cons_self _ _)
    simp [List.takeWhile_cons, hx,
      ih (fun z hz => hl z (List.mem_cons_of_mem _ hz))]

/-- A string of the shape `t ++ "-" ++ y` with `y` free of hyphens
determines `t` and `y` uniquely (the split at the last hyphen). -/
theorem sep_split_inj (t1 t2 y1 y2 : List Char)
    (h1 : '-' ∉ y1) (h2 : '-' ∉ y2)
    (he : t1 ++ '-' :: y1 = t2 ++ '-' :: y2) : t1 = t2 ∧ y1 = y2 := by
  have hrev : y1.reverse ++ '-' :: t1.reverse =
      y2.reverse ++ '-' :: t2.reverse := by
    have := congrArg List.reverse he
    simpa [List.reverse_append] using this
  have hp : ∀ (y : List Char), '-' ∉ y →
      ∀ x ∈ y.reverse, (decide (x ≠ '-')) = true := by
    intro y hy x hx
    simp only [decide_eq_true_eq]
    intro hxe
    exact hy (by simpa [hxe] using List.mem_reverse.mp hx)
  have e1 : (y1.reverse ++ '-' :: t1.reverse).takeWhile
      (fun x => x ≠ '-') = y1.reverse :=
    takeWhile_append_not _ _ _ _ (hp y1 h1) (by simp)
  have e2 : (y2.reverse ++ '-' :: t2.reverse).takeWhile
      (fun x => x ≠ '-') = y2.reverse :=
    takeWhile_append_not _ _ _ _ (hp y2 h2) (by simp)
  have hy : y1.reverse = y2.reverse := by rw [← e1, ← e2, hrev]
  have hy' : y1 = y2 := by
    have := congrArg List.reverse hy
    simpa using this
  subst hy'
  refine ⟨?_, rfl⟩
  have hc : ('-' :: t1.reverse) = ('-' :: t2.reverse) :=
    List.append_cancel_left hrev
  have ht : t1.reverse = t2.reverse := by simpa using hc
  have := congrArg List.reverse ht
  simpa using this

theorem cacheKey_head (k : MKind) (t y : String) :
    (cacheKey k t y).data.head? = some (kindHead k) := by
  cases k <;> simp [cacheKey, kindHead, String.data_append]

/-- Keys of different kinds never collide (the literal prefixes start with
four distinct characters). -/
theorem cacheKey_kind {k1 k2 : MKind} {t1 t2 y1 y2 : String}
    (h : cacheKey k1 t1 y1 = cacheKey k2 t2 y2) : k1 = k2 := by
  have h1 := cacheKey_head k1 t1 y1
  have h2 := cacheKey_head k2 t2 y2
  rw [h] at h1
  rw [h1] at h2
  cases k1 <;> cases k2 <;> first | rfl | simp [kindHead] at h2

theorem cacheKey_ne_game {k : MKind} (hk : k ≠ .game) (t y t' y' : String) :
    cacheKey k t y ≠ cacheKey .game t' y' :=
  fun h => hk (cacheKey_kind h)

/-- Full injectivity of key construction when the year strings carry no
hyphen (in the application they are `String(number)` for a non-negative
integer, or `"null"`/`"undefined"`/`"NaN"`, none of which contain one).
The game key ignores its year argument. -/
theorem cacheKey_inj {k1 k2 : MKind} {t1 t2 y1 y2 : String}
    (hy1 : '-' ∉ y1.data) (hy2 : '-' ∉ y2.data)
    (h : cacheKey k1 t1 y1 = cacheKey k2 t2 y2) :
    k1 = k2 ∧ t1 = t2 ∧ (k1 = .game ∨ y1 = y2) := by
  have hk := cacheKey_kind h
  subst hk
  refine ⟨rfl, ?_⟩
  have hd := congrArg String.data h
  cases k1 with
  | game =>
    simp only [cacheKey, String.data_append] at hd
    exact ⟨str_ext (List.append_cancel_left hd), .inl rfl⟩
  | movie =>
    have hd' : "movie-".data ++ (t1.data ++ '-' :: y1.data) =
        "movie-".data ++ (t2.data ++ '-' :: y2.data) := by
      simpa only [cacheKey, String.data_append, List.append_assoc,
        List.singleton_append, show "-".data = ['-'] from rfl] using hd
    obtain ⟨ht, hy⟩ :=
      sep_split_inj _ _ _ _ hy1 hy2 (List.append_cancel_left hd')
    exact ⟨str_ext ht, .inr (str_ext hy)⟩
  | tv =>
    have hd' : "tv-".data ++ (t1.data ++ '-' :: y1.data) =
        "tv-".data ++ (t2.data ++ '-' :: y2.data) := by
      simpa only [cacheKey, String.data_append, List.append_assoc,
        List.singleton_append, show "-".data = ['-'] from rfl] using hd
    obtain ⟨ht, hy⟩ :=
      sep_split_inj _ _ _ _ hy1 hy2 (List.append_cancel_left hd')
    exact ⟨str_ext ht, .inr (str_ext hy)⟩
  | anime =>
    have hd' : "anime-".data ++ (t1.data ++ '-' :: y1.data) =
        "anime-".data ++ (t2.data ++ '-' :: y2.data) := by
      simpa only [cacheKey, String.data_append, List.append_assoc,
        List.singleton_append, show "-".data = ['-'] from rfl] using hd
    obtain ⟨ht, hy⟩ :=
      sep_split_inj _ _ _ _ hy1 hy2 (List.append_cancel_left hd')
    exact ⟨str_ext ht, .inr (str_ext hy)⟩

/-! ### The invariant holds initially -/

theorem initTask_flat (r : Req) :
    ownerKey (initTask r).st = none ∧ netKey (initTask r).st = none ∧
      jobPid (initTask r).st = none ∧ statePids (initTask r).st = [] := by
  cases hk : r.kind <;> simp [initTask, hk, ownerKey, netKey, jobPid, statePids]

theorem wf_init (reqs : List Req) : WF (init reqs) := by
  have htk : ∀ tk ∈ (init reqs).tasks,
      ownerKey tk.st = none ∧ netKey tk.st = none ∧
        jobPid tk.st = none ∧ statePids tk.st = [] := by
    intro tk hm
    simp only [init, List.mem_map] at hm
    obtain ⟨r, _, rfl⟩ := hm
    exact initTask_flat r
  constructor
  case timers1000 => simp [init]
  case ownerTimer =>
    intro k
    have h1 : cntOwner (init reqs) k = 0 := by
      rw [cntOwner, List.countP_eq_zero]
      intro tk hm
      simp [(htk tk hm).1]
    have h2 : cntTimer (init reqs) k = 0 := by simp [cntTimer, init]
    rw [h1, h2]
    simp [init]
  case netLe =>
    intro k
    have h1 : cntNet (init reqs) k = 0 := by
      rw [cntNet, List.countP_eq_zero]
      intro tk hm
      simp [(htk tk hm).2.1]
    simp [h1]
  case queueInProg => simp [init, alook]
  case queueOnce => simp [init]
  case gOwnQueue =>
    intro tk hm t pid hst
    have := (htk tk hm).1
    simp [hst, ownerKey] at this
  case jobLink =>
    intro tk hm t p hj
    have := (htk tk hm).2.2.1
    rcases hj with h | ⟨r, h⟩ <;> simp [h, jobPid] at this
  case jobOnce =>
    intro p
    have h1 : cntJob (init reqs) p = 0 := by
      rw [cntJob, List.countP_eq_zero]
      intro tk hm
      simp [(htk tk hm).2.2.1]
    simp [h1]
  case gOwnJob =>
    intro tk hm t p hst
    have := (htk tk hm).1
    simp [hst, ownerKey] at this
  case promFresh => simp [init]
  case queueFresh => simp [init]
  case taskFresh =>
    intro tk hm p hp
    rw [(htk tk hm).2.2.2] at hp
    simp at hp
  case callCount => intro k; simp [init, countCall, countEvict]
  case respCount =>
    intro k
    have h1 : cntNet (init reqs) k = 0 := by
      rw [cntNet, List.countP_eq_zero]
      intro tk hm
      simp [(htk tk hm).2.1]
    rw [h1]
    simp [init, countCall, countResp]
  case persistCount => intro k; simp [init, countPersist, countRespFound, countJoinSucc]
  case joinSuccGame => intro k hk; simp [init, countJoinSucc] at hk
  case omdbKind =>
    intro tk hm
    simp only [init, List.mem_map] at hm
    obtain ⟨r, _, rfl⟩ := hm
    cases hk : r.kind <;> simp [initTask, hk, oKind]

/-! ### Preservation of the invariant, step by step -/

theorem isJob_jobPid {t : String} {p : Nat} {st : TState} (h : isJob t p st) :
    jobPid st = some p := by
  rcases h with h | ⟨r, h⟩ <;> simp [h, jobPid]

/-- Workhorse: a step that rewrites one task from a passive state (no
ownership, no network call, no fetch job) to another passive state, and
appends only events that are not calls, responses or evictions, whose
persistence events are matched one-for-one by successful-join markers on
game keys. -/
theorem wf_taskswap {c : Config} (hw : WF c) {i row : Nat}
    {old : TState} (st' : TState) (ext : List Ev)
    (hold : tget c.tasks i = some ⟨row, old⟩)
    (hoo : ownerKey old = none) (hon : ownerKey st' = none)
    (hno : netKey old = none) (hnn : netKey st' = none)
    (hjo : jobPid old = none) (hjn : jobPid st' = none)
    (hkn : oKind st' = none)
    (hpw : ∀ p ∈ statePids st', p < c.nextP)
    (hc : ∀ k, ext.countP (isCall k) = 0)
    (hr : ∀ k, ext.countP (isResp k) = 0)
    (hrf : ∀ k, ext.countP (isRespFound k) = 0)
    (he : ∀ k, ext.countP (isEvict k) = 0)
    (hpj : ∀ k, ext.countP (isPersist k) = ext.countP (isJoinSucc k))
    (hjg : ∀ k, ext.countP (isJoinSucc k) ≠ 0 → ∃ t, k = cacheKey .game t "") :
    WF { c with tasks := upd c.tasks i ⟨row, st'⟩, log := c.log ++ ext } := by
  have cntO : ∀ k, cntOwner { c with
      tasks := upd c.tasks i ⟨row, st'⟩, log := c.log ++ ext } k =
      cntOwner c k := by
    intro k
    have h := countP_upd (fun tk => decide (ownerKey tk.st = some k))
      (⟨row, st'⟩ : Task) hold
    simp only [hoo, hon] at h
    simpa [cntOwner] using h
  have cntN : ∀ k, cntNet { c with
      tasks := upd c.tasks i ⟨row, st'⟩, log := c.log ++ ext } k =
      cntNet c k := by
    intro k
    have h := countP_upd (fun tk => decide (netKey tk.st = some k))
      (⟨row, st'⟩ : Task) hold
    simp only [hno, hnn] at h
    simpa [cntNet] using h
  have cntJ : ∀ p, cntJob { c with
      tasks := upd c.tasks i ⟨row, st'⟩, log := c.log ++ ext } p =
      cntJob c p := by
    intro p
    have h := countP_upd (fun tk => decide (jobPid tk.st = some p))
      (⟨row, st'⟩ : Task) hold
    simp only [hjo, hjn] at h
    simpa [cntJob] using h
  constructor
  case timers1000 => exact hw.timers1000
  case ownerTimer =>
    intro k
    rw [cntO k]
    exact hw.ownerTimer k
  case netLe =>
    intro k
    rw [cntN k]
    exact hw.netLe k
  case queueInProg => exact hw.queueInProg
  case queueOnce => exact hw.queueOnce
  case gOwnQueue =>
    intro tk hm t pid hst
    rcases mem_upd hm with rfl | hm'
    · have hst2 : st' = .gOwn t pid := hst
      rw [hst2] at hon
      simp [ownerKey] at hon
    · exact hw.gOwnQueue tk hm' t pid hst
  case jobLink =>
    intro tk hm t p hj
    rcases mem_upd hm with rfl | hm'
    · have hj2 : isJob t p st' := hj
      rw [isJob_jobPid hj2] at hjn
      simp at hjn
    · obtain ⟨hpend, tj, hmj, hstj⟩ := hw.jobLink tk hm' t p hj
      refine ⟨hpend, tj, ?_, hstj⟩
      refine mem_upd_of_ne hmj hold ?_
      intro hh
      rw [hh] at hstj
      have hstj2 : old = .gOwn t p := hstj
      rw [hstj2] at hoo
      simp [ownerKey] at hoo
  case jobOnce =>
    intro p
    rw [cntJ p]
    exact hw.jobOnce p
  case gOwnJob =>
    intro tk hm t p hst
    rcases mem_upd hm with rfl | hm'
    · have hst2 : st' = .gOwn t p := hst
      rw [hst2] at hon
      simp [ownerKey] at hon
    · rcases hw.gOwnJob tk hm' t p hst with h | ⟨hpend, tj, hmj, hstj⟩
      · exact .inl h
      · refine .inr ⟨hpend, tj, ?_, hstj⟩
        refine mem_upd_of_ne hmj hold ?_
        intro hh
        rw [hh] at hstj
        rw [isJob_jobPid hstj] at hjo
        exact absurd hjo (by simp)
  case promFresh => exact hw.promFresh
  case queueFresh => exact hw.queueFresh
  case taskFresh =>
    intro tk hm p hp
    rcases mem_upd hm with rfl | hm'
    · exact hpw p hp
    · exact hw.taskFresh tk hm' p hp
  case callCount =>
    intro k
    simp only [countCall, countEvict, List.countP_append]
    rw [show (List.countP (isCall k) ext) = 0 from hc k,
      show (List.countP (isEvict k) ext) = 0 from he k]
    simpa [countCall, countEvict] using hw.callCount k
  case respCount =>
    intro k
    rw [show cntNet _ k = cntNet c k from cntN k]
    simp only [countCall, countResp, List.countP_append]
    rw [show (List.countP (isCall k) ext) = 0 from hc k,
      show (List.countP (isResp k) ext) = 0 from hr k]
    simpa [countCall, countResp] using hw.respCount k
  case persistCount =>
    intro k
    simp only [countPersist, countRespFound, countJoinSucc, List.countP_append]
    rw [show (List.countP (isRespFound k) ext) = 0 from hrf k, hpj k]
    have := hw.persistCount k
    simp only [countPersist, countRespFound, countJoinSucc] at this
    omega
  case joinSuccGame =>
    intro k hk
    simp only [countJoinSucc, List.countP_append] at hk
    by_cases h0 : ext.countP (isJoinSucc k) = 0
    · rw [h0] at hk
      exact hw.joinSuccGame k (by simpa [countJoinSucc] using hk)
    · exact hjg k h0
  case omdbKind =>
    intro tk hm
    rcases mem_upd hm with rfl | hm'
    · show oKind st' ≠ some .game
      rw [hkn]
      simp
    · exact hw.omdbKind tk hm'

theorem countP_pos_of_mem {α : Type} {p : α → Bool} {l : List α} {x : α}
    (hm : x ∈ l) (hp : p x = true) : 0 < l.countP p :=
  List.countP_pos.mpr ⟨x, hm, hp⟩

theorem ite_true_nat {n m : Nat} : (if true = true then n else m) = n := rfl

theorem ite_false_nat {n m : Nat} : (if false = true then n else m) = m := rfl

theorem ite_True_nat {n m : Nat} : (if True then n else m) = n := if_pos trivial

theorem ite_False_nat {n m : Nat} : (if False then n else m) = m :=
  if_neg (fun h => h)

/-- With no owner for a key there is no network call in flight for it:
an OMDB fetch task is its own owner, a game fetch job is tied to a waiting
originator. -/
theorem cntNet_zero_of_noOwner {c : Config} (hw : WF c) (k : String)
    (h : cntOwner c k = 0) : cntNet c k = 0 := by
  rw [cntNet, List.countP_eq_zero]
  intro tk hm
  simp only [decide_eq_true_eq]
  intro hnet
  cases hst : tk.st with
  | oFetch mk t y =>
    have : 0 < cntOwner c k := by
      refine countP_pos_of_mem hm ?_
      rw [hst] at hnet ⊢
      simp only [netKey] at hnet
      simp [ownerKey, hnet]
    omega
  | jFetch t p =>
    obtain ⟨_, tj, hmj, hstj⟩ :=
      hw.jobLink tk hm t p (by rw [hst]; exact .inl rfl)
    have : 0 < cntOwner c k := by
      refine countP_pos_of_mem hmj ?_
      rw [hst] at hnet
      simp only [netKey] at hnet
      simp [ownerKey, hstj, hnet]
    omega
  | oStart mk t y => rw [hst] at hnet; simp [netKey] at hnet
  | oJoin p => rw [hst] at hnet; simp [netKey] at hnet
  | oSave mk t y u => rw [hst] at hnet; simp [netKey] at hnet
  | gStart t => rw [hst] at hnet; simp [netKey] at hnet
  | gJoin t p => rw [hst] at hnet; simp [netKey] at hnet
  | gJoinSave t r => rw [hst] at hnet; simp [netKey] at hnet
  | gOwn t p => rw [hst] at hnet; simp [netKey] at hnet
  | jSave t p r => rw [hst] at hnet; simp [netKey] at hnet
  | done => rw [hst] at hnet; simp [netKey] at hnet

/-- Counter delta for a single-task rewrite, for any state classifier. -/
theorem countTask_upd {beta : Type} [DecidableEq beta] (f : TState → Option beta)
    {tasks : List Task} {i row : Nat} {old : TState} (st' : TState)
    (hold : tget tasks i = some ⟨row, old⟩) (k : beta) :
    (upd tasks i ⟨row, st'⟩).countP (fun tk => decide (f tk.st = some k)) +
      (if f old = some k then 1 else 0) =
    tasks.countP (fun tk => decide (f tk.st = some k)) +
      (if f st' = some k then 1 else 0) := by
  have h := countP_upd (fun tk => decide (f tk.st = some k))
    (⟨row, st'⟩ : Task) hold
  simpa using h

/-- Preservation: an OMDB fetcher finds its key absent, marks it in
progress and initiates the provider call. -/
theorem wf_ostart_fresh {c : Config} (hw : WF c) {i row : Nat} {mk : MKind}
    {t y : String}
    (hold : tget c.tasks i = some ⟨row, .oStart mk t y⟩)
    (hnotin : cacheKey mk t y ∉ c.inProg) :
    WF { c with
      inProg := sAdd c.inProg (cacheKey mk t y)
      tasks := upd c.tasks i ⟨row, .oFetch mk t y⟩
      log := c.log ++ [.call (cacheKey mk t y)] } := by
  set key := cacheKey mk t y with hkey
  have hpre0 : cntOwner c key = 0 ∧ cntTimer c key = 0 := by
    have := hw.ownerTimer key
    rw [if_neg hnotin] at this
    omega
  have dOwn : ∀ k', cntOwner { c with
      inProg := sAdd c.inProg key
      tasks := upd c.tasks i ⟨row, .oFetch mk t y⟩
      log := c.log ++ [.call key] } k' =
      cntOwner c k' + (if key = k' then 1 else 0) := by
    intro k'
    have h := countTask_upd ownerKey (.oFetch mk t y) hold k'
    rw [show ownerKey (.oStart mk t y) = none from rfl,
      show ownerKey (.oFetch mk t y) = some key from rfl] at h
    simp only [show (none = some k') = False from by simp, if_false,
      Option.some.injEq] at h
    simpa [cntOwner] using h
  have dNet : ∀ k', cntNet { c with
      inProg := sAdd c.inProg key
      tasks := upd c.tasks i ⟨row, .oFetch mk t y⟩
      log := c.log ++ [.call key] } k' =
      cntNet c k' + (if key = k' then 1 else 0) := by
    intro k'
    have h := countTask_upd netKey (.oFetch mk t y) hold k'
    rw [show netKey (.oStart mk t y) = none from rfl,
      show netKey (.oFetch mk t y) = some key from rfl] at h
    simp only [show (none = some k') = False from by simp, if_false,
      Option.some.injEq] at h
    simpa [cntNet] using h
  constructor
  case timers1000 => exact hw.timers1000
  case ownerTimer =>
    intro k'
    rw [dOwn k']
    have hcnt : cntTimer { c with
        inProg := sAdd c.inProg key
        tasks := upd c.tasks i ⟨row, .oFetch mk t y⟩
        log := c.log ++ [.call key] } k' = cntTimer c k' := rfl
    rw [hcnt]
    have := hw.ownerTimer k'
    by_cases hk : key = k'
    · subst hk
      rw [if_pos (mem_sAdd.mpr (.inl rfl)), if_pos rfl]
      rw [if_neg hnotin] at this
      omega
    · rw [if_neg hk]
      by_cases hin : k' ∈ c.inProg
      · rw [if_pos (mem_sAdd.mpr (.inr hin))]
        rw [if_pos hin] at this
        omega
      · rw [if_neg (fun hx => by
          rcases mem_sAdd.mp hx with rfl | hx
          · exact hk rfl
          · exact hin hx)]
        rw [if_neg hin] at this
        omega
  case netLe =>
    intro k'
    rw [dNet k']
    by_cases hk : key = k'
    · subst hk
      have h0 := cntNet_zero_of_noOwner hw key hpre0.1
      rw [h0, if_pos rfl]
    · rw [if_neg hk]
      have := hw.netLe k'
      omega
  case queueInProg =>
    intro k' pid hl
    exact mem_sAdd.mpr (.inr (hw.queueInProg k' pid hl))
  case queueOnce => exact hw.queueOnce
  case gOwnQueue =>
    intro tk hm tt pid hst
    rcases mem_upd hm with rfl | hm'
    · exact absurd (show TState.oFetch mk t y = .gOwn tt pid from hst)
        (by simp)
    · exact hw.gOwnQueue tk hm' tt pid hst
  case jobLink =>
    intro tk hm tt p hj
    rcases mem_upd hm with rfl | hm'
    · rcases hj with hj | ⟨r, hj⟩ <;>
        exact absurd (show TState.oFetch mk t y = _ from hj) (by simp)
    · obtain ⟨hpend, tj, hmj, hstj⟩ := hw.jobLink tk hm' tt p hj
      refine ⟨hpend, tj, mem_upd_of_ne hmj hold ?_, hstj⟩
      intro hh
      rw [hh] at hstj
      exact absurd (show TState.oStart mk t y = .gOwn tt p from hstj) (by simp)
  case jobOnce =>
    intro p
    have h := countTask_upd jobPid (.oFetch mk t y) hold p
    rw [show jobPid (.oStart mk t y) = none from rfl,
      show jobPid (.oFetch mk t y) = none from rfl] at h
    simp only [show (none = some p) = False from by simp, if_false] at h
    have := hw.jobOnce p
    simp only [cntJob] at this ⊢
    omega
  case gOwnJob =>
    intro tk hm tt p hst
    rcases mem_upd hm with rfl | hm'
    · exact absurd (show TState.oFetch mk t y = .gOwn tt p from hst) (by simp)
    · rcases hw.gOwnJob tk hm' tt p hst with h | ⟨hpend, tj, hmj, hstj⟩
      · exact .inl h
      · refine .inr ⟨hpend, tj, mem_upd_of_ne hmj hold ?_, hstj⟩
        intro hh
        rw [hh] at hstj
        rcases hstj with hj | ⟨r, hj⟩ <;>
          exact absurd (show TState.oStart mk t y = _ from hj) (by simp)
  case promFresh => exact hw.promFresh
  case queueFresh => exact hw.queueFresh
  case taskFresh =>
    intro tk hm p hp
    rcases mem_upd hm with rfl | hm'
    · simp [statePids] at hp
    · exact hw.taskFresh tk hm' p hp
  case callCount =>
    intro k'
    have := hw.callCount k'
    simp only [countCall, countEvict, List.countP_append, List.countP_cons,
      List.countP_nil, isCall, isEvict, ite_true_nat, ite_false_nat] at this ⊢
    by_cases hk : k' = key
    · subst hk
      rw [if_pos (mem_sAdd.mpr (.inl rfl))]
      rw [if_neg hnotin] at this
      simp only [beq_self_eq_true, ite_true_nat, ite_True_nat]
      omega
    · have hb : (key == k') = false := by
        simp only [beq_eq_false_iff_ne, ne_eq]
        exact fun hh => hk hh.symm
      simp only [hb, ite_false_nat]
      by_cases hin : k' ∈ c.inProg
      · rw [if_pos (mem_sAdd.mpr (.inr hin))]
        rw [if_pos hin] at this
        omega
      · rw [if_neg (fun hx => by
          rcases mem_sAdd.mp hx with rfl | hx
          · exact hk rfl
          · exact hin hx)]
        rw [if_neg hin] at this
        omega
  case respCount =>
    intro k'
    rw [dNet k']
    have := hw.respCount k'
    simp only [countCall, countResp, List.countP_append, List.countP_cons,
      List.countP_nil, isCall, isResp, ite_true_nat, ite_false_nat] at this ⊢
    by_cases hk : key = k'
    · subst hk
      simp only [beq_self_eq_true, ite_true_nat, ite_True_nat, if_pos rfl]
      omega
    · have hb : (key == k') = false := by
        simp only [beq_eq_false_iff_ne, ne_eq]
        exact hk
      simp only [hb, ite_false_nat, if_neg hk]
      omega
  case persistCount =>
    intro k'
    have := hw.persistCount k'
    simp only [countPersist, countRespFound, countJoinSucc,
      List.countP_append, List.countP_cons, List.countP_nil,
      isPersist, isRespFound, isJoinSucc, ite_true_nat, ite_false_nat] at this ⊢
    omega
  case joinSuccGame =>
    intro k' hk
    refine hw.joinSuccGame k' ?_
    simpa [countJoinSucc, List.countP_append, List.countP_cons,
      isJoinSucc] using hk
  case omdbKind =>
    intro tk hm
    rcases mem_upd hm with rfl | hm'
    · show oKind (TState.oFetch mk t y) ≠ some .game
      have := hw.omdbKind ⟨row, .oStart mk t y⟩ (tget_mem hold)
      simpa [oKind] using this
    · exact hw.omdbKind tk hm'

theorem countP_task_single {β : Type} [DecidableEq β] (f : TState → Option β)
    (k : β) (tk : Task) :
    List.countP (fun x => decide (f x.st = some k)) [tk] =
      (if f tk.st = some k then 1 else 0) := by
  simp [List.countP_cons]

/-- Preservation: the game fetcher finds its key absent and, in one
synchronous segment, creates the shared fetch promise, initiates the
provider call, passes the double-check and publishes promise and
in-progress mark before suspending. -/
theorem wf_gstart_fresh {c : Config} (hw : WF c) {i row : Nat} {t : String}
    (hold : tget c.tasks i = some ⟨row, .gStart t⟩)
    (hnotin : cacheKey .game t "" ∉ c.inProg) :
    WF { c with
      tasks := upd c.tasks i ⟨row, .gOwn t c.nextP⟩ ++
        [⟨row, .jFetch t c.nextP⟩]
      promises := (c.nextP, .pending) :: c.promises
      queue := aset c.queue (cacheKey .game t "") c.nextP
      inProg := sAdd c.inProg (cacheKey .game t "")
      nextP := c.nextP + 1
      log := c.log ++ [.call (cacheKey .game t "")] } := by
  set key := cacheKey .game t "" with hkey
  have hpre0 : cntOwner c key = 0 ∧ cntTimer c key = 0 := by
    have := hw.ownerTimer key
    rw [if_neg hnotin] at this
    omega
  have memt : ∀ {tk : Task},
      tk ∈ upd c.tasks i ⟨row, .gOwn t c.nextP⟩ ++
        [⟨row, .jFetch t c.nextP⟩] →
      tk = ⟨row, .gOwn t c.nextP⟩ ∨ tk = ⟨row, .jFetch t c.nextP⟩ ∨
        tk ∈ c.tasks := by
    intro tk hm
    rcases List.mem_append.mp hm with hm | hm
    · rcases mem_upd hm with h | h
      · exact .inl h
      · exact .inr (.inr h)
    · exact .inr (.inl (List.mem_singleton.mp hm))
  have dOwn : ∀ k', cntOwner { c with
      tasks := upd c.tasks i ⟨row, .gOwn t c.nextP⟩ ++
        [⟨row, .jFetch t c.nextP⟩]
      promises := (c.nextP, .pending) :: c.promises
      queue := aset c.queue key c.nextP
      inProg := sAdd c.inProg key
      nextP := c.nextP + 1
      log := c.log ++ [.call key] } k' =
      cntOwner c k' + (if key = k' then 1 else 0) := by
    intro k'
    have h := countTask_upd ownerKey (TState.gOwn t c.nextP) hold k'
    rw [show ownerKey (TState.gStart t) = none from rfl,
      show ownerKey (TState.gOwn t c.nextP) = some key from rfl] at h
    simp only [show (none = some k') = False from by simp, ite_False_nat,
      Option.some.injEq] at h
    simp only [cntOwner, List.countP_append]
    rw [countP_task_single ownerKey k' ⟨row, .jFetch t c.nextP⟩]
    rw [show ownerKey (TState.jFetch t c.nextP) = none from rfl]
    simp only [show (none = some k') = False from by simp, ite_False_nat]
    omega
  have dNet : ∀ k', cntNet { c with
      tasks := upd c.tasks i ⟨row, .gOwn t c.nextP⟩ ++
        [⟨row, .jFetch t c.nextP⟩]
      promises := (c.nextP, .pending) :: c.promises
      queue := aset c.queue key c.nextP
      inProg := sAdd c.inProg key
      nextP := c.nextP + 1
      log := c.log ++ [.call key] } k' =
      cntNet c k' + (if key = k' then 1 else 0) := by
    intro k'
    have h := countTask_upd netKey (TState.gOwn t c.nextP) hold k'
    rw [show netKey (TState.gStart t) = none from rfl,
      show netKey (TState.gOwn t c.nextP) = none from rfl] at h
    simp only [show (none = some k') = False from by simp, ite_False_nat] at h
    simp only [cntNet, List.countP_append]
    rw [countP_task_single netKey k' ⟨row, .jFetch t c.nextP⟩]
    rw [show netKey (TState.jFetch t c.nextP) = some key from rfl]
    simp only [Option.some.injEq]
    omega
  have dJob : ∀ p, cntJob { c with
      tasks := upd c.tasks i ⟨row, .gOwn t c.nextP⟩ ++
        [⟨row, .jFetch t c.nextP⟩]
      promises := (c.nextP, .pending) :: c.promises
      queue := aset c.queue key c.nextP
      inProg := sAdd c.inProg key
      nextP := c.nextP + 1
      log := c.log ++ [.call key] } p =
      cntJob c p + (if c.nextP = p then 1 else 0) := by
    intro p
    have h := countTask_upd jobPid (TState.gOwn t c.nextP) hold p
    rw [show jobPid (TState.gStart t) = none from rfl,
      show jobPid (TState.gOwn t c.nextP) = none from rfl] at h
    simp only [show (none = some p) = False from by simp, ite_False_nat] at h
    simp only [cntJob, List.countP_append]
    rw [countP_task_single jobPid p ⟨row, .jFetch t c.nextP⟩]
    rw [show jobPid (TState.jFetch t c.nextP) = some c.nextP from rfl]
    simp only [Option.some.injEq]
    omega
  have hjobfresh : cntJob c c.nextP = 0 := by
    rw [cntJob, List.countP_eq_zero]
    intro tk hm
    simp only [decide_eq_true_eq]
    intro hj
    cases hst : tk.st <;> rw [hst] at hj <;>
      simp only [jobPid, Option.some.injEq] at hj
    all_goals try exact absurd hj (by simp)
    case jFetch t' p' =>
      have := hw.taskFresh tk hm p' (by rw [hst]; simp [statePids])
      omega
    case jSave t' p' r' =>
      have := hw.taskFresh tk hm p' (by rw [hst]; simp [statePids])
      omega
  constructor
  case timers1000 => exact hw.timers1000
  case ownerTimer =>
    intro k'
    rw [dOwn k']
    have hct : cntTimer { c with
        tasks := upd c.tasks i ⟨row, .gOwn t c.nextP⟩ ++
          [⟨row, .jFetch t c.nextP⟩]
        promises := (c.nextP, .pending) :: c.promises
        queue := aset c.queue key c.nextP
        inProg := sAdd c.inProg key
        nextP := c.nextP + 1
        log := c.log ++ [.call key] } k' = cntTimer c k' := rfl
    rw [hct]
    have := hw.ownerTimer k'
    by_cases hk : key = k'
    · subst hk
      rw [if_pos (mem_sAdd.mpr (.inl rfl)), if_pos rfl]
      rw [if_neg hnotin] at this
      omega
    · rw [if_neg hk]
      by_cases hin : k' ∈ c.inProg
      · rw [if_pos (mem_sAdd.mpr (.inr hin))]
        rw [if_pos hin] at this
        omega
      · rw [if_neg (fun hx => by
          rcases mem_sAdd.mp hx with rfl | hx
          · exact hk rfl
          · exact hin hx)]
        rw [if_neg hin] at this
        omega
  case netLe =>
    intro k'
    rw [dNet k']
    by_cases hk : key = k'
    · subst hk
      have h0 := cntNet_zero_of_noOwner hw key hpre0.1
      rw [h0, if_pos rfl]
    · rw [if_neg hk]
      have := hw.netLe k'
      omega
  case queueInProg =>
    intro k' p hl
    by_cases hk : k' = key
    · exact mem_sAdd.mpr (.inl hk)
    · rw [alook_aset_ne c.queue c.nextP hk] at hl
      exact mem_sAdd.mpr (.inr (hw.queueInProg k' p hl))
  case queueOnce =>
    intro k'
    by_cases hk : k' = key
    · subst hk
      simp only [aset, List.countP_cons]
      rw [countP_key_filter_self]
      simp
    · simp only [aset, List.countP_cons]
      rw [countP_key_filter_ne c.queue (fun hh => hk hh)]
      have hd : (decide (key = k')) = false := by
        simp only [decide_eq_false_iff_not]
        exact fun hh => hk hh.symm
      have := hw.queueOnce k'
      simp only [hd, ite_false_nat]
      omega
  case gOwnQueue =>
    intro tk hm tt p hst
    rcases memt hm with rfl | rfl | hm'
    · have h2 : TState.gOwn t c.nextP = .gOwn tt p := hst
      injection h2 with h2a h2b
      subst h2a
      subst h2b
      exact alook_aset_self c.queue key c.nextP
    · exact absurd (show TState.jFetch t c.nextP = .gOwn tt p from hst)
        (by simp)
    · have hq := hw.gOwnQueue tk hm' tt p hst
      have hne : cacheKey .game tt "" ≠ key := by
        intro hh
        exact hnotin (hh ▸ hw.queueInProg _ _ hq)
      rw [alook_aset_ne c.queue c.nextP hne]
      exact hq
  case jobLink =>
    intro tk hm tt p hj
    rcases memt hm with rfl | rfl | hm'
    · rcases hj with hj | ⟨r, hj⟩ <;>
        exact absurd (show TState.gOwn t c.nextP = _ from hj) (by simp)
    · rcases hj with hj | ⟨r, hj⟩
      · have h2 : TState.jFetch t c.nextP = .jFetch tt p := hj
        injection h2 with h2a h2b
        subst h2a
        subst h2b
        refine ⟨by simp [alook], ⟨row, .gOwn t c.nextP⟩, ?_, rfl⟩
        exact List.mem_append.mpr (.inl (mem_upd_self _ hold))
      · exact absurd (show TState.jFetch t c.nextP = _ from hj) (by simp)
    · obtain ⟨hpend, tj, hmj, hstj⟩ := hw.jobLink tk hm' tt p hj
      have hplt : p < c.nextP := by
        refine hw.taskFresh tk hm' p ?_
        rcases hj with hj | ⟨r, hj⟩ <;> rw [hj] <;> simp [statePids]
      refine ⟨?_, tj, ?_, hstj⟩
      · simp only [alook]
        rw [if_neg (by omega)]
        exact hpend
      · refine List.mem_append.mpr (.inl (mem_upd_of_ne hmj hold ?_))
        intro hh
        rw [hh] at hstj
        exact absurd (show TState.gStart t = .gOwn tt p from hstj) (by simp)
  case jobOnce =>
    intro p
    rw [dJob p]
    by_cases hk : c.nextP = p
    · subst hk
      rw [hjobfresh, if_pos rfl]
    · rw [if_neg hk]
      have := hw.jobOnce p
      omega
  case gOwnJob =>
    intro tk hm tt p hst
    rcases memt hm with rfl | rfl | hm'
    · have h2 : TState.gOwn t c.nextP = .gOwn tt p := hst
      injection h2 with h2a h2b
      subst h2a
      subst h2b
      refine .inr ⟨by simp [alook], ⟨row, .jFetch t c.nextP⟩, ?_, .inl rfl⟩
      exact List.mem_append.mpr (.inr (List.mem_singleton.mpr rfl))
    · exact absurd (show TState.jFetch t c.nextP = .gOwn tt p from hst)
        (by simp)
    · have hplt : p < c.nextP := by
        refine hw.taskFresh tk hm' p ?_
        rw [hst]
        simp [statePids]
      rcases hw.gOwnJob tk hm' tt p hst with ⟨v, hv⟩ | ⟨hpend, tj, hmj, hstj⟩
      · refine .inl ⟨v, ?_⟩
        simp only [alook]
        rw [if_neg (by omega)]
        exact hv
      · refine .inr ⟨?_, tj, ?_, hstj⟩
        · simp only [alook]
          rw [if_neg (by omega)]
          exact hpend
        · refine List.mem_append.mpr (.inl (mem_upd_of_ne hmj hold ?_))
          intro hh
          rw [hh] at hstj
          rcases hstj with hj | ⟨r, hj⟩ <;>
            exact absurd (show TState.gStart t = _ from hj) (by simp)
  case promFresh =>
    intro e he
    show e.1 < c.nextP + 1
    rcases List.mem_cons.mp he with rfl | he
    · simp
    · have := hw.promFresh e he
      omega
  case queueFresh =>
    intro e he
    show e.2 < c.nextP + 1
    rcases mem_aset he with rfl | he
    · simp
    · have := hw.queueFresh e he
      omega
  case taskFresh =>
    intro tk hm p hp
    show p < c.nextP + 1
    rcases memt hm with rfl | rfl | hm'
    · simp only [statePids, List.mem_singleton] at hp
      omega
    · simp only [statePids, List.mem_singleton] at hp
      omega
    · have := hw.taskFresh tk hm' p hp
      omega
  case callCount =>
    intro k'
    have := hw.callCount k'
    simp only [countCall, countEvict, List.countP_append, List.countP_cons,
      List.countP_nil, isCall, isEvict, ite_true_nat, ite_false_nat] at this ⊢
    by_cases hk : k' = key
    · subst hk
      rw [if_pos (mem_sAdd.mpr (.inl rfl))]
      rw [if_neg hnotin] at this
      simp only [beq_self_eq_true, ite_true_nat, ite_True_nat]
      omega
    · have hb : (key == k') = false := by
        simp only [beq_eq_false_iff_ne, ne_eq]
        exact fun hh => hk hh.symm
      simp only [hb, ite_false_nat]
      by_cases hin : k' ∈ c.inProg
      · rw [if_pos (mem_sAdd.mpr (.inr hin))]
        rw [if_pos hin] at this
        omega
      · rw [if_neg (fun hx => by
          rcases mem_sAdd.mp hx with rfl | hx
          · exact hk rfl
          · exact hin hx)]
        rw [if_neg hin] at this
        omega
  case respCount =>
    intro k'
    rw [dNet k']
    have := hw.respCount k'
    simp only [countCall, countResp, List.countP_append, List.countP_cons,
      List.countP_nil, isCall, isResp, ite_true_nat, ite_false_nat] at this ⊢
    by_cases hk : key = k'
    · subst hk
      simp only [beq_self_eq_true, ite_true_nat, ite_True_nat, if_pos rfl]
      omega
    · have hb : (key == k') = false := by
        simp only [beq_eq_false_iff_ne, ne_eq]
        exact hk
      simp only [hb, ite_false_nat, if_neg hk]
      omega
  case persistCount =>
    intro k'
    have := hw.persistCount k'
    simp only [countPersist, countRespFound, countJoinSucc,
      List.countP_append, List.countP_cons, List.countP_nil,
      isPersist, isRespFound, isJoinSucc, ite_true_nat, ite_false_nat]
      at this ⊢
    omega
  case joinSuccGame =>
    intro k' hk
    refine hw.joinSuccGame k' ?_
    simpa [countJoinSucc, List.countP_append, List.countP_cons,
      isJoinSucc] using hk
  case omdbKind =>
    intro tk hm
    rcases memt hm with rfl | rfl | hm'
    · show oKind (TState.gOwn t c.nextP) ≠ some .game
      simp [oKind]
    · show oKind (TState.jFetch t c.nextP) ≠ some .game
      simp [oKind]
    · exact hw.omdbKind tk hm'

theorem isRespFound_not_found {k key : String} {out : ROut}
    (h : ∀ u, out ≠ .found u) : isRespFound k (.resp key out) = false := by
  cases out with
  | found u => exact absurd rfl (h u)
  | miss => rfl
  | fail => rfl

/-- Pre-state facts available whenever an OMDB fetch for `key` is in
flight at task `i`. -/
theorem ofetch_pre {c : Config} (hw : WF c) {i row : Nat} {mk : MKind}
    {t y : String}
    (hold : tget c.tasks i = some ⟨row, .oFetch mk t y⟩) :
    cacheKey mk t y ∈ c.inProg ∧ cntOwner c (cacheKey mk t y) = 1 ∧
      cntTimer c (cacheKey mk t y) = 0 ∧ 0 < cntNet c (cacheKey mk t y) := by
  set key := cacheKey mk t y
  have hown : 0 < cntOwner c key :=
    countP_pos_of_mem (tget_mem hold) (by simp [ownerKey])
  have hnet : 0 < cntNet c key :=
    countP_pos_of_mem (tget_mem hold) (by simp [netKey])
  have hbit := hw.ownerTimer key
  by_cases hin : key ∈ c.inProg
  · rw [if_pos hin] at hbit
    exact ⟨hin, by omega, by omega, hnet⟩
  · rw [if_neg hin] at hbit
    omega

/-- Preservation: an OMDB fetch settles with any outcome other than a
found poster (HTTP error, API error field, missing or `N/A` poster): the
fetcher returns, `finally` schedules the eviction. -/
theorem wf_osettle {c : Config} (hw : WF c) {i row : Nat} {mk : MKind}
    {t y : String} {out : ROut}
    (hold : tget c.tasks i = some ⟨row, .oFetch mk t y⟩)
    (hout : ∀ u, out ≠ .found u) :
    WF { c with
      tasks := upd c.tasks i ⟨row, .done⟩
      timers := c.timers ++ [(1000, cacheKey mk t y)]
      log := c.log ++ [.resp (cacheKey mk t y) out] } := by
  set key := cacheKey mk t y with hkey
  obtain ⟨hin, hown1, htim0, hnet1⟩ := ofetch_pre hw hold
  rw [← hkey] at hin hown1 htim0 hnet1
  have dTim : ∀ k', cntTimer { c with
      tasks := upd c.tasks i ⟨row, .done⟩
      timers := c.timers ++ [(1000, key)]
      log := c.log ++ [.resp key out] } k' =
      cntTimer c k' + (if key = k' then 1 else 0) := by
    intro k'
    simp only [cntTimer, List.countP_append, List.countP_cons, List.countP_nil]
    by_cases hk : key = k'
    · simp [hk]
    · simp [hk]
  constructor
  case timers1000 =>
    intro e he
    rcases List.mem_append.mp he with he | he
    · exact hw.timers1000 e he
    · rw [List.mem_singleton.mp he]
  case ownerTimer =>
    intro k'
    have hdO := countTask_upd ownerKey (TState.done) hold k'
    rw [show ownerKey (TState.oFetch mk t y) = some key from rfl,
      show ownerKey TState.done = none from rfl] at hdO
    simp only [show (none = some k') = False from by simp, ite_False_nat,
      Option.some.injEq] at hdO
    rw [dTim k']
    have := hw.ownerTimer k'
    simp only [cntOwner] at hdO this ⊢
    omega
  case netLe =>
    intro k'
    have hdN := countTask_upd netKey (TState.done) hold k'
    rw [show netKey (TState.oFetch mk t y) = some key from rfl,
      show netKey TState.done = none from rfl] at hdN
    simp only [show (none = some k') = False from by simp, ite_False_nat,
      Option.some.injEq] at hdN
    have := hw.netLe k'
    simp only [cntNet] at hdN this ⊢
    omega
  case queueInProg => exact hw.queueInProg
  case queueOnce => exact hw.queueOnce
  case gOwnQueue =>
    intro tk hm tt p hst
    rcases mem_upd hm with rfl | hm'
    · exact absurd (show TState.done = .gOwn tt p from hst) (by simp)
    · exact hw.gOwnQueue tk hm' tt p hst
  case jobLink =>
    intro tk hm tt p hj
    rcases mem_upd hm with rfl | hm'
    · rcases hj with hj | ⟨r, hj⟩ <;>
        exact absurd (show TState.done = _ from hj) (by simp)
    · obtain ⟨hpend, tj, hmj, hstj⟩ := hw.jobLink tk hm' tt p hj
      refine ⟨hpend, tj, mem_upd_of_ne hmj hold ?_, hstj⟩
      intro hh
      rw [hh] at hstj
      exact absurd (show TState.oFetch mk t y = .gOwn tt p from hstj) (by simp)
  case jobOnce =>
    intro p
    have h := countTask_upd jobPid (TState.done) hold p
    rw [show jobPid (TState.oFetch mk t y) = none from rfl,
      show jobPid TState.done = none from rfl] at h
    simp only [show (none = some p) = False from by simp, ite_False_nat] at h
    have := hw.jobOnce p
    simp only [cntJob] at h this ⊢
    omega
  case gOwnJob =>
    intro tk hm tt p hst
    rcases mem_upd hm with rfl | hm'
    · exact absurd (show TState.done = .gOwn tt p from hst) (by simp)
    · rcases hw.gOwnJob tk hm' tt p hst with h | ⟨hpend, tj, hmj, hstj⟩
      · exact .inl h
      · refine .inr ⟨hpend, tj, mem_upd_of_ne hmj hold ?_, hstj⟩
        intro hh
        rw [hh] at hstj
        rcases hstj with hj | ⟨r, hj⟩ <;>
          exact absurd (show TState.oFetch mk t y = _ from hj) (by simp)
  case promFresh => exact hw.promFresh
  case queueFresh => exact hw.queueFresh
  case taskFresh =>
    intro tk hm p hp
    rcases mem_upd hm with rfl | hm'
    · simp [statePids] at hp
    · exact hw.taskFresh tk hm' p hp
  case callCount =>
    intro k'
    have := hw.callCount k'
    simp only [countCall, countEvict, List.countP_append, List.countP_cons,
      List.countP_nil, isCall, isEvict, ite_true_nat, ite_false_nat] at this ⊢
    omega
  case respCount =>
    intro k'
    have hdN := countTask_upd netKey (TState.done) hold k'
    rw [show netKey (TState.oFetch mk t y) = some key from rfl,
      show netKey TState.done = none from rfl] at hdN
    simp only [show (none = some k') = False from by simp, ite_False_nat,
      Option.some.injEq] at hdN
    have := hw.respCount k'
    have hn := hnet1
    simp only [countCall, countResp, cntNet, List.countP_append,
      List.countP_cons, List.countP_nil, isCall, isResp, ite_true_nat,
      ite_false_nat] at this hdN hn ⊢
    by_cases hk : key = k'
    · subst hk
      rw [if_pos rfl] at hdN
      simp only [beq_self_eq_true, ite_true_nat, ite_True_nat]
      omega
    · rw [if_neg hk] at hdN
      have hb : (key == k') = false := by
        simp only [beq_eq_false_iff_ne, ne_eq]
        exact hk
      simp only [hb, ite_false_nat]
      omega
  case persistCount =>
    intro k'
    have := hw.persistCount k'
    simp only [countPersist, countRespFound, countJoinSucc,
      List.countP_append, List.countP_cons, List.countP_nil,
      isPersist, isJoinSucc, isRespFound_not_found hout,
      ite_true_nat, ite_false_nat] at this ⊢
    omega
  case joinSuccGame =>
    intro k' hk
    refine hw.joinSuccGame k' ?_
    simpa [countJoinSucc, List.countP_append, List.countP_cons,
      isJoinSucc] using hk
  case omdbKind =>
    intro tk hm
    rcases mem_upd hm with rfl | hm'
    · show oKind TState.done ≠ some .game
      simp [oKind]
    · exact hw.omdbKind tk hm'

/-- Preservation: an OMDB fetch throws (transport error): the catch block
stores `Promise.resolve(null)` in the queue, the fetcher returns and
`finally` schedules the eviction. -/
theorem wf_onetthrow {c : Config} (hw : WF c) {i row : Nat} {mk : MKind}
    {t y : String}
    (hold : tget c.tasks i = some ⟨row, .oFetch mk t y⟩) :
    WF { c with
      tasks := upd c.tasks i ⟨row, .done⟩
      promises := (c.nextP, .sres none) :: c.promises
      queue := aset c.queue (cacheKey mk t y) c.nextP
      timers := c.timers ++ [(1000, cacheKey mk t y)]
      nextP := c.nextP + 1
      log := c.log ++ [.resp (cacheKey mk t y) .fail] } := by
  set key := cacheKey mk t y with hkey
  obtain ⟨hin, hown1, htim0, hnet1⟩ := ofetch_pre hw hold
  rw [← hkey] at hin hown1 htim0 hnet1
  have hmkg : mk ≠ .game := by
    have := hw.omdbKind ⟨row, .oFetch mk t y⟩ (tget_mem hold)
    simpa [oKind] using this
  have dTim : ∀ k', cntTimer { c with
      tasks := upd c.tasks i ⟨row, .done⟩
      promises := (c.nextP, .sres none) :: c.promises
      queue := aset c.queue key c.nextP
      timers := c.timers ++ [(1000, key)]
      nextP := c.nextP + 1
      log := c.log ++ [.resp key .fail] } k' =
      cntTimer c k' + (if key = k' then 1 else 0) := by
    intro k'
    simp only [cntTimer, List.countP_append, List.countP_cons, List.countP_nil]
    by_cases hk : key = k'
    · simp [hk]
    · simp [hk]
  constructor
  case timers1000 =>
    intro e he
    rcases List.mem_append.mp he with he | he
    · exact hw.timers1000 e he
    · rw [List.mem_singleton.mp he]
  case ownerTimer =>
    intro k'
    have hdO := countTask_upd ownerKey (TState.done) hold k'
    rw [show ownerKey (TState.oFetch mk t y) = some key from rfl,
      show ownerKey TState.done = none from rfl] at hdO
    simp only [show (none = some k') = False from by simp, ite_False_nat,
      Option.some.injEq] at hdO
    rw [dTim k']
    have := hw.ownerTimer k'
    simp only [cntOwner] at hdO this ⊢
    omega
  case netLe =>
    intro k'
    have hdN := countTask_upd netKey (TState.done) hold k'
    rw [show netKey (TState.oFetch mk t y) = some key from rfl,
      show netKey TState.done = none from rfl] at hdN
    simp only [show (none = some k') = False from by simp, ite_False_nat,
      Option.some.injEq] at hdN
    have := hw.netLe k'
    simp only [cntNet] at hdN this ⊢
    omega
  case queueInProg =>
    intro k' p hl
    by_cases hk : k' = key
    · exact hk ▸ hin
    · rw [alook_aset_ne c.queue c.nextP hk] at hl
      exact hw.queueInProg k' p hl
  case queueOnce =>
    intro k'
    by_cases hk : k' = key
    · subst hk
      simp only [aset, List.countP_cons]
      rw [countP_key_filter_self]
      simp
    · simp only [aset, List.countP_cons]
      rw [countP_key_filter_ne c.queue (fun hh => hk hh)]
      have hd : (decide (key = k')) = false := by
        simp only [decide_eq_false_iff_not]
        exact fun hh => hk hh.symm
      have := hw.queueOnce k'
      simp only [hd, ite_false_nat]
      omega
  case gOwnQueue =>
    intro tk hm tt p hst
    rcases mem_upd hm with rfl | hm'
    · exact absurd (show TState.done = .gOwn tt p from hst) (by simp)
    · have hq := hw.gOwnQueue tk hm' tt p hst
      have hne : cacheKey .game tt "" ≠ key := by
        rw [hkey]
        exact fun hh => cacheKey_ne_game hmkg t y tt "" hh.symm
      rw [alook_aset_ne c.queue c.nextP hne]
      exact hq
  case jobLink =>
    intro tk hm tt p hj
    rcases mem_upd hm with rfl | hm'
    · rcases hj with hj | ⟨r, hj⟩ <;>
        exact absurd (show TState.done = _ from hj) (by simp)
    · obtain ⟨hpend, tj, hmj, hstj⟩ := hw.jobLink tk hm' tt p hj
      have hplt : p < c.nextP := by
        refine hw.taskFresh tk hm' p ?_
        rcases hj with hj | ⟨r, hj⟩ <;> rw [hj] <;> simp [statePids]
      refine ⟨?_, tj, ?_, hstj⟩
      · simp only [alook]
        rw [if_neg (by omega)]
        exact hpend
      · refine mem_upd_of_ne hmj hold ?_
        intro hh
        rw [hh] at hstj
        exact absurd (show TState.oFetch mk t y = .gOwn tt p from hstj)
          (by simp)
  case jobOnce =>
    intro p
    have h := countTask_upd jobPid (TState.done) hold p
    rw [show jobPid (TState.oFetch mk t y) = none from rfl,
      show jobPid TState.done = none from rfl] at h
    simp only [show (none = some p) = False from by simp, ite_False_nat] at h
    have := hw.jobOnce p
    simp only [cntJob] at h this ⊢
    omega
  case gOwnJob =>
    intro tk hm tt p hst
    rcases mem_upd hm with rfl | hm'
    · exact absurd (show TState.done = .gOwn tt p from hst) (by simp)
    · have hplt : p < c.nextP := by
        refine hw.taskFresh tk hm' p ?_
        rw [hst]
        simp [statePids]
      rcases hw.gOwnJob tk hm' tt p hst with ⟨v, hv⟩ | ⟨hpend, tj, hmj, hstj⟩
      · refine .inl ⟨v, ?_⟩
        simp only [alook]
        rw [if_neg (by omega)]
        exact hv
      · refine .inr ⟨?_, tj, ?_, hstj⟩
        · simp only [alook]
          rw [if_neg (by omega)]
          exact hpend
        · refine mem_upd_of_ne hmj hold ?_
          intro hh
          rw [hh] at hstj
          rcases hstj with hj | ⟨r, hj⟩ <;>
            exact absurd (show TState.oFetch mk t y = _ from hj) (by simp)
  case promFresh =>
    intro e he
    show e.1 < c.nextP + 1
    rcases List.mem_cons.mp he with rfl | he
    · simp
    · have := hw.promFresh e he
      omega
  case queueFresh =>
    intro e he
    show e.2 < c.nextP + 1
    rcases mem_aset he with rfl | he
    · simp
    · have := hw.queueFresh e he
      omega
  case taskFresh =>
    intro tk hm p hp
    show p < c.nextP + 1
    rcases mem_upd hm with rfl | hm'
    · simp [statePids] at hp
    · have := hw.taskFresh tk hm' p hp
      omega
  case callCount =>
    intro k'
    have := hw.callCount k'
    simp only [countCall, countEvict, List.countP_append, List.countP_cons,
      List.countP_nil, isCall, isEvict, ite_true_nat, ite_false_nat] at this ⊢
    omega
  case respCount =>
    intro k'
    have hdN := countTask_upd netKey (TState.done) hold k'
    rw [show netKey (TState.oFetch mk t y) = some key from rfl,
      show netKey TState.done = none from rfl] at hdN
    simp only [show (none = some k') = False from by simp, ite_False_nat,
      Option.some.injEq] at hdN
    have := hw.respCount k'
    have hn := hnet1
    simp only [countCall, countResp, cntNet, List.countP_append,
      List.countP_cons, List.countP_nil, isCall, isResp, ite_true_nat,
      ite_false_nat] at this hdN hn ⊢
    by_cases hk : key = k'
    · subst hk
      rw [if_pos rfl] at hdN
      simp only [beq_self_eq_true, ite_true_nat, ite_True_nat]
      omega
    · rw [if_neg hk] at hdN
      have hb : (key == k') = false := by
        simp only [beq_eq_false_iff_ne, ne_eq]
        exact hk
      simp only [hb, ite_false_nat]
      omega
  case persistCount =>
    intro k'
    have := hw.persistCount k'
    simp only [countPersist, countRespFound, countJoinSucc,
      List.countP_append, List.countP_cons, List.countP_nil,
      isPersist, isJoinSucc, isRespFound,
      ite_true_nat, ite_false_nat] at this ⊢
    omega
  case joinSuccGame =>
    intro k' hk
    refine hw.joinSuccGame k' ?_
    simpa [countJoinSucc, List.countP_append, List.countP_cons,
      isJoinSucc] using hk
  case omdbKind =>
    intro tk hm
    rcases mem_upd hm with rfl | hm'
    · show oKind TState.done ≠ some .game
      simp [oKind]
    · exact hw.omdbKind tk hm'

/-- Preservation: an OMDB fetch resolves with a usable poster: the fetcher
initiates the save PUT and suspends on it (the timer is not yet
scheduled). -/
theorem wf_ofound {c : Config} (hw : WF c) {i row : Nat} {mk : MKind}
    {t y url : String}
    (hold : tget c.tasks i = some ⟨row, .oFetch mk t y⟩) :
    WF { c with
      tasks := upd c.tasks i ⟨row, .oSave mk t y url⟩
      log := c.log ++ [.resp (cacheKey mk t y) (.found url),
        .persist (cacheKey mk t y) row url] } := by
  set key := cacheKey mk t y with hkey
  obtain ⟨hin, hown1, htim0, hnet1⟩ := ofetch_pre hw hold
  rw [← hkey] at hin hown1 htim0 hnet1
  constructor
  case timers1000 => exact hw.timers1000
  case ownerTimer =>
    intro k'
    have hdO := countTask_upd ownerKey (TState.oSave mk t y url) hold k'
    rw [show ownerKey (TState.oFetch mk t y) = some key from rfl,
      show ownerKey (TState.oSave mk t y url) = some key from rfl] at hdO
    have hct : cntTimer { c with
        tasks := upd c.tasks i ⟨row, .oSave mk t y url⟩
        log := c.log ++ [.resp key (.found url), .persist key row url] } k' =
        cntTimer c k' := rfl
    rw [hct]
    have := hw.ownerTimer k'
    simp only [cntOwner] at hdO this ⊢
    omega
  case netLe =>
    intro k'
    have hdN := countTask_upd netKey (TState.oSave mk t y url) hold k'
    rw [show netKey (TState.oFetch mk t y) = some key from rfl,
      show netKey (TState.oSave mk t y url) = none from rfl] at hdN
    simp only [show (none = some k') = False from by simp, ite_False_nat,
      Option.some.injEq] at hdN
    have := hw.netLe k'
    simp only [cntNet] at hdN this ⊢
    omega
  case queueInProg => exact hw.queueInProg
  case queueOnce => exact hw.queueOnce
  case gOwnQueue =>
    intro tk hm tt p hst
    rcases mem_upd hm with rfl | hm'
    · exact absurd (show TState.oSave mk t y url = .gOwn tt p from hst)
        (by simp)
    · exact hw.gOwnQueue tk hm' tt p hst
  case jobLink =>
    intro tk hm tt p hj
    rcases mem_upd hm with rfl | hm'
    · rcases hj with hj | ⟨r, hj⟩ <;>
        exact absurd (show TState.oSave mk t y url = _ from hj) (by simp)
    · obtain ⟨hpend, tj, hmj, hstj⟩ := hw.jobLink tk hm' tt p hj
      refine ⟨hpend, tj, mem_upd_of_ne hmj hold ?_, hstj⟩
      intro hh
      rw [hh] at hstj
      exact absurd (show TState.oFetch mk t y = .gOwn tt p from hstj) (by simp)
  case jobOnce =>
    intro p
    have h := countTask_upd jobPid (TState.oSave mk t y url) hold p
    rw [show jobPid (TState.oFetch mk t y) = none from rfl,
      show jobPid (TState.oSave mk t y url) = none from rfl] at h
    simp only [show (none = some p) = False from by simp, ite_False_nat] at h
    have := hw.jobOnce p
    simp only [cntJob] at h this ⊢
    omega
  case gOwnJob =>
    intro tk hm tt p hst
    rcases mem_upd hm with rfl | hm'
    · exact absurd (show TState.oSave mk t y url = .gOwn tt p from hst)
        (by simp)
    · rcases hw.gOwnJob tk hm' tt p hst with h | ⟨hpend, tj, hmj, hstj⟩
      · exact .inl h
      · refine .inr ⟨hpend, tj, mem_upd_of_ne hmj hold ?_, hstj⟩
        intro hh
        rw [hh] at hstj
        rcases hstj with hj | ⟨r, hj⟩ <;>
          exact absurd (show TState.oFetch mk t y = _ from hj) (by simp)
  case promFresh => exact hw.promFresh
  case queueFresh => exact hw.queueFresh
  case taskFresh =>
    intro tk hm p hp
    rcases mem_upd hm with rfl | hm'
    · simp [statePids] at hp
    · exact hw.taskFresh tk hm' p hp
  case callCount =>
    intro k'
    have := hw.callCount k'
    simp only [countCall, countEvict, List.countP_append, List.countP_cons,
      List.countP_nil, isCall, isEvict, ite_true_nat, ite_false_nat] at this ⊢
    omega
  case respCount =>
    intro k'
    have hdN := countTask_upd netKey (TState.oSave mk t y url) hold k'
    rw [show netKey (TState.oFetch mk t y) = some key from rfl,
      show netKey (TState.oSave mk t y url) = none from rfl] at hdN
    simp only [show (none = some k') = False from by simp, ite_False_nat,
      Option.some.injEq] at hdN
    have := hw.respCount k'
    have hn := hnet1
    simp only [countCall, countResp, cntNet, List.countP_append,
      List.countP_cons, List.countP_nil, isCall, isResp, ite_true_nat,
      ite_false_nat] at this hdN hn ⊢
    by_cases hk : key = k'
    · subst hk
      rw [if_pos rfl] at hdN
      simp only [beq_self_eq_true, ite_true_nat, ite_True_nat]
      omega
    · rw [if_neg hk] at hdN
      have hb : (key == k') = false := by
        simp only [beq_eq_false_iff_ne, ne_eq]
        exact hk
      simp only [hb, ite_false_nat]
      omega
  case persistCount =>
    intro k'
    have := hw.persistCount k'
    simp only [countPersist, countRespFound, countJoinSucc,
      List.countP_append, List.countP_cons, List.countP_nil,
      isPersist, isJoinSucc, isRespFound,
      ite_true_nat, ite_false_nat] at this ⊢
    by_cases hk : key = k'
    · subst hk
      simp only [beq_self_eq_true, ite_true_nat, ite_True_nat]
      omega
    · have hb : (key == k') = false := by
        simp only [beq_eq_false_iff_ne, ne_eq]
        exact hk
      simp only [hb, ite_false_nat]
      omega
  case joinSuccGame =>
    intro k' hk
    refine hw.joinSuccGame k' ?_
    simpa [countJoinSucc, List.countP_append, List.countP_cons,
      isJoinSucc] using hk
  case omdbKind =>
    intro tk hm
    rcases mem_upd hm with rfl | hm'
    · show oKind (TState.oSave mk t y url) ≠ some .game
      have := hw.omdbKind ⟨row, .oFetch mk t y⟩ (tget_mem hold)
      simpa [oKind] using this
    · exact hw.omdbKind tk hm'

theorem countP_ge_two {α : Type} (p : α → Bool) {l : List α} {i : Nat}
    {old x : α} (y : α) (hold : tget l i = some old) (hm : x ∈ upd l i y)
    (hxy : x ≠ y) (hpo : p old = true) (hpx : p x = true) :
    2 ≤ l.countP p := by
  induction l generalizing i with
  | nil => simp [tget] at hold
  | cons a as ih =>
    cases i with
    | zero =>
      simp only [tget, Option.some.injEq] at hold
      subst hold
      rcases List.mem_cons.mp hm with rfl | hm
      · exact absurd rfl hxy
      · have h1 : 0 < as.countP p := countP_pos_of_mem hm hpx
        simp only [List.countP_cons, hpo, ite_True_nat]
        omega
    | succ n =>
      rcases List.mem_cons.mp hm with rfl | hm
      · have h1 : 0 < as.countP p :=
          countP_pos_of_mem (tget_mem hold) hpo
        simp only [List.countP_cons, hpx, ite_True_nat]
        omega
      · have := ih hold hm
        simp only [List.countP_cons]
        omega

/-- Pre-state facts available whenever a game fetch job for `pid` is alive
at task `i`. -/
theorem jfetch_pre {c : Config} (hw : WF c) {i row pid : Nat} {t : String}
    (hold : tget c.tasks i = some ⟨row, .jFetch t pid⟩) :
    cacheKey .game t "" ∈ c.inProg ∧
      alook c.promises pid = some .pending ∧
      (∃ tj ∈ c.tasks, tj.st = .gOwn t pid) ∧
      0 < cntNet c (cacheKey .game t "") ∧ pid < c.nextP := by
  obtain ⟨hpend, tj, hmj, hstj⟩ :=
    hw.jobLink _ (tget_mem hold) t pid (.inl rfl)
  have hown : 0 < cntOwner c (cacheKey .game t "") :=
    countP_pos_of_mem hmj (by simp [ownerKey, hstj])
  have hnet : 0 < cntNet c (cacheKey .game t "") :=
    countP_pos_of_mem (tget_mem hold) (by simp [netKey])
  have hbit := hw.ownerTimer (cacheKey .game t "")
  have hfr := hw.taskFresh _ (tget_mem hold) pid (by simp [statePids])
  by_cases hin : cacheKey .game t "" ∈ c.inProg
  · exact ⟨hin, hpend, ⟨tj, hmj, hstj⟩, hnet, hfr⟩
  · rw [if_neg hin] at hbit
    omega

/-- Preservation: the game fetch job settles with any outcome other than a
usable cover (HTTP error, API error field, empty results, missing cover):
the arrow returns `null`, resolving the shared promise with it. -/
theorem wf_jsettle {c : Config} (hw : WF c) {i row pid : Nat} {t : String}
    {out : ROut}
    (hold : tget c.tasks i = some ⟨row, .jFetch t pid⟩)
    (hout : ∀ u, out ≠ .found u) :
    WF { c with
      tasks := upd c.tasks i ⟨row, .done⟩
      promises := aset c.promises pid (.gres none)
      log := c.log ++ [.resp (cacheKey .game t "") out] } := by
  set key := cacheKey .game t "" with hkey
  obtain ⟨hin, hpend, ⟨tj0, hmj0, hstj0⟩, hnet1, hfr⟩ := jfetch_pre hw hold
  rw [← hkey] at hin hnet1
  constructor
  case timers1000 => exact hw.timers1000
  case ownerTimer =>
    intro k'
    have hdO := countTask_upd ownerKey (TState.done) hold k'
    rw [show ownerKey (TState.jFetch t pid) = none from rfl,
      show ownerKey TState.done = none from rfl] at hdO
    simp only [show (none = some k') = False from by simp, ite_False_nat]
      at hdO
    have hct : cntTimer { c with
        tasks := upd c.tasks i ⟨row, .done⟩
        promises := aset c.promises pid (.gres none)
        log := c.log ++ [.resp key out] } k' = cntTimer c k' := rfl
    rw [hct]
    have := hw.ownerTimer k'
    simp only [cntOwner] at hdO this ⊢
    omega
  case netLe =>
    intro k'
    have hdN := countTask_upd netKey (TState.done) hold k'
    rw [show netKey (TState.jFetch t pid) = some key from rfl,
      show netKey TState.done = none from rfl] at hdN
    simp only [show (none = some k') = False from by simp, ite_False_nat,
      Option.some.injEq] at hdN
    have := hw.netLe k'
    simp only [cntNet] at hdN this ⊢
    omega
  case queueInProg => exact hw.queueInProg
  case queueOnce => exact hw.queueOnce
  case gOwnQueue =>
    intro tk hm tt p hst
    rcases mem_upd hm with rfl | hm'
    · exact absurd (show TState.done = .gOwn tt p from hst) (by simp)
    · exact hw.gOwnQueue tk hm' tt p hst
  case jobLink =>
    intro tk hm tt p hj
    rcases mem_upd hm with rfl | hm'
    · rcases hj with hj | ⟨r, hj⟩ <;>
        exact absurd (show TState.done = _ from hj) (by simp)
    · have hpne : p ≠ pid := by
        intro hh
        subst hh
        have h2 : 2 ≤ cntJob c p := by
          refine countP_ge_two _ ⟨row, .done⟩ hold hm ?_ ?_ ?_
          · intro hx
            rw [hx] at hj
            rcases hj with hj | ⟨r, hj⟩ <;>
              exact absurd (show TState.done = _ from hj) (by simp)
          · simp [jobPid]
          · simp [isJob_jobPid hj]
        have := hw.jobOnce p
        omega
      obtain ⟨hpend2, tj, hmj, hstj⟩ := hw.jobLink tk hm' tt p hj
      refine ⟨?_, tj, mem_upd_of_ne hmj hold ?_, hstj⟩
      · rw [alook_aset_ne c.promises (.gres none) hpne]
        exact hpend2
      · intro hh
        rw [hh] at hstj
        exact absurd (show TState.jFetch t pid = .gOwn tt p from hstj)
          (by simp)
  case jobOnce =>
    intro p
    have h := countTask_upd jobPid (TState.done) hold p
    rw [show jobPid (TState.jFetch t pid) = some pid from rfl,
      show jobPid TState.done = none from rfl] at h
    simp only [show (none = some p) = False from by simp, ite_False_nat,
      Option.some.injEq] at h
    have := hw.jobOnce p
    simp only [cntJob] at h this ⊢
    omega
  case gOwnJob =>
    intro tk hm tt p hst
    rcases mem_upd hm with rfl | hm'
    · exact absurd (show TState.done = .gOwn tt p from hst) (by simp)
    · by_cases hpp : p = pid
      · subst hpp
        exact .inl ⟨none, alook_aset_self c.promises p (.gres none)⟩
      · rcases hw.gOwnJob tk hm' tt p hst with ⟨v, hv⟩ |
          ⟨hpend2, tj, hmj, hstj⟩
        · refine .inl ⟨v, ?_⟩
          rw [alook_aset_ne c.promises (.gres none) hpp]
          exact hv
        · refine .inr ⟨?_, tj, mem_upd_of_ne hmj hold ?_, hstj⟩
          · rw [alook_aset_ne c.promises (.gres none) hpp]
            exact hpend2
          · intro hh
            rw [hh] at hstj
            have := isJob_jobPid hstj
            simp only [jobPid, Option.some.injEq] at this
            exact hpp this.symm
  case promFresh =>
    intro e he
    rcases mem_aset he with rfl | he
    · simpa using hfr
    · exact hw.promFresh e he
  case queueFresh => exact hw.queueFresh
  case taskFresh =>
    intro tk hm p hp
    rcases mem_upd hm with rfl | hm'
    · simp [statePids] at hp
    · exact hw.taskFresh tk hm' p hp
  case callCount =>
    intro k'
    have := hw.callCount k'
    simp only [countCall, countEvict, List.countP_append, List.countP_cons,
      List.countP_nil, isCall, isEvict, ite_true_nat, ite_false_nat] at this ⊢
    omega
  case respCount =>
    intro k'
    have hdN := countTask_upd netKey (TState.done) hold k'
    rw [show netKey (TState.jFetch t pid) = some key from rfl,
      show netKey TState.done = none from rfl] at hdN
    simp only [show (none = some k') = False from by simp, ite_False_nat,
      Option.some.injEq] at hdN
    have := hw.respCount k'
    have hn := hnet1
    simp only [countCall, countResp, cntNet, List.countP_append,
      List.countP_cons, List.countP_nil, isCall, isResp, ite_true_nat,
      ite_false_nat] at this hdN hn ⊢
    by_cases hk : key = k'
    · subst hk
      rw [if_pos rfl] at hdN
      simp only [beq_self_eq_true, ite_true_nat, ite_True_nat]
      omega
    · rw [if_neg hk] at hdN
      have hb : (key == k') = false := by
        simp only [beq_eq_false_iff_ne, ne_eq]
        exact hk
      simp only [hb, ite_false_nat]
      omega
  case persistCount =>
    intro k'
    have := hw.persistCount k'
    simp only [countPersist, countRespFound, countJoinSucc,
      List.countP_append, List.countP_cons, List.countP_nil,
      isPersist, isJoinSucc, isRespFound_not_found hout,
      ite_true_nat, ite_false_nat] at this ⊢
    omega
  case joinSuccGame =>
    intro k' hk
    refine hw.joinSuccGame k' ?_
    simpa [countJoinSucc, List.countP_append, List.countP_cons,
      isJoinSucc] using hk
  case omdbKind =>
    intro tk hm
    rcases mem_upd hm with rfl | hm'
    · show oKind TState.done ≠ some .game
      simp [oKind]
    · exact hw.omdbKind tk hm'

/-- Preservation: the game fetch job obtains a usable cover: it initiates
the save PUT and suspends on it; the shared promise stays pending. -/
theorem wf_jfound {c : Config} (hw : WF c) {i row pid : Nat} {t : String}
    (r : GameRes)
    (hold : tget c.tasks i = some ⟨row, .jFetch t pid⟩) :
    WF { c with
      tasks := upd c.tasks i ⟨row, .jSave t pid r⟩
      log := c.log ++ [.resp (cacheKey .game t "") (.found r.cover_art_url),
        .persist (cacheKey .game t "") row r.cover_art_url] } := by
  set key := cacheKey .game t "" with hkey
  obtain ⟨hin, hpend, ⟨tj0, hmj0, hstj0⟩, hnet1, hfr⟩ := jfetch_pre hw hold
  rw [← hkey] at hin hnet1
  constructor
  case timers1000 => exact hw.timers1000
  case ownerTimer =>
    intro k'
    have hdO := countTask_upd ownerKey (TState.jSave t pid r) hold k'
    rw [show ownerKey (TState.jFetch t pid) = none from rfl,
      show ownerKey (TState.jSave t pid r) = none from rfl] at hdO
    simp only [show (none = some k') = False from by simp, ite_False_nat]
      at hdO
    have hct : cntTimer { c with
        tasks := upd c.tasks i ⟨row, .jSave t pid r⟩
        log := c.log ++ [.resp key (.found r.cover_art_url),
          .persist key row r.cover_art_url] } k' = cntTimer c k' := rfl
    rw [hct]
    have := hw.ownerTimer k'
    simp only [cntOwner] at hdO this ⊢
    omega
  case netLe =>
    intro k'
    have hdN := countTask_upd netKey (TState.jSave t pid r) hold k'
    rw [show netKey (TState.jFetch t pid) = some key from rfl,
      show netKey (TState.jSave t pid r) = none from rfl] at hdN
    simp only [show (none = some k') = False from by simp, ite_False_nat,
      Option.some.injEq] at hdN
    have := hw.netLe k'
    simp only [cntNet] at hdN this ⊢
    omega
  case queueInProg => exact hw.queueInProg
  case queueOnce => exact hw.queueOnce
  case gOwnQueue =>
    intro tk hm tt p hst
    rcases mem_upd hm with rfl | hm'
    · exact absurd (show TState.jSave t pid r = .gOwn tt p from hst) (by simp)
    · exact hw.gOwnQueue tk hm' tt p hst
  case jobLink =>
    intro tk hm tt p hj
    rcases mem_upd hm with rfl | hm'
    · have hj2 : isJob tt p (TState.jSave t pid r) := hj
      rcases hj2 with hj2 | ⟨r2, hj2⟩
      · exact absurd hj2 (by simp)
      · injection hj2 with h2a h2b h2c
        subst h2a
        subst h2b
        refine ⟨hpend, tj0, mem_upd_of_ne hmj0 hold ?_, hstj0⟩
        intro hh
        rw [hh] at hstj0
        exact absurd (show TState.jFetch t pid = .gOwn t pid from hstj0)
          (by simp)
    · obtain ⟨hpend2, tj, hmj, hstj⟩ := hw.jobLink tk hm' tt p hj
      refine ⟨hpend2, tj, mem_upd_of_ne hmj hold ?_, hstj⟩
      intro hh
      rw [hh] at hstj
      exact absurd (show TState.jFetch t pid = .gOwn tt p from hstj) (by simp)
  case jobOnce =>
    intro p
    have h := countTask_upd jobPid (TState.jSave t pid r) hold p
    rw [show jobPid (TState.jFetch t pid) = some pid from rfl,
      show jobPid (TState.jSave t pid r) = some pid from rfl] at h
    have := hw.jobOnce p
    simp only [cntJob] at h this ⊢
    omega
  case gOwnJob =>
    intro tk hm tt p hst
    rcases mem_upd hm with rfl | hm'
    · exact absurd (show TState.jSave t pid r = .gOwn tt p from hst) (by simp)
    · rcases hw.gOwnJob tk hm' tt p hst with h | ⟨hpend2, tj, hmj, hstj⟩
      · exact .inl h
      · refine .inr ⟨hpend2, ?_⟩
        by_cases hj : tj = ⟨row, .jFetch t pid⟩
        · rw [hj] at hstj
          rcases hstj with hj2 | ⟨r2, hj2⟩
          · have h3 : TState.jFetch t pid = TState.jFetch tt p := hj2
            injection h3 with h3a h3b
            subst h3a
            subst h3b
            refine ⟨⟨row, .jSave t pid r⟩, mem_upd_self _ hold, ?_⟩
            exact .inr ⟨r, rfl⟩
          · exact absurd (show TState.jFetch t pid = _ from hj2) (by simp)
        · exact ⟨tj, mem_upd_of_ne hmj hold hj, hstj⟩
  case promFresh => exact hw.promFresh
  case queueFresh => exact hw.queueFresh
  case taskFresh =>
    intro tk hm p hp
    rcases mem_upd hm with rfl | hm'
    · simp only [statePids, List.mem_singleton] at hp
      subst hp
      exact hfr
    · exact hw.taskFresh tk hm' p hp
  case callCount =>
    intro k'
    have := hw.callCount k'
    simp only [countCall, countEvict, List.countP_append, List.countP_cons,
      List.countP_nil, isCall, isEvict, ite_true_nat, ite_false_nat] at this ⊢
    omega
  case respCount =>
    intro k'
    have hdN := countTask_upd netKey (TState.jSave t pid r) hold k'
    rw [show netKey (TState.jFetch t pid) = some key from rfl,
      show netKey (TState.jSave t pid r) = none from rfl] at hdN
    simp only [show (none = some k') = False from by simp, ite_False_nat,
      Option.some.injEq] at hdN
    have := hw.respCount k'
    have hn := hnet1
    simp only [countCall, countResp, cntNet, List.countP_append,
      List.countP_cons, List.countP_nil, isCall, isResp, ite_true_nat,
      ite_false_nat] at this hdN hn ⊢
    by_cases hk : key = k'
    · subst hk
      rw [if_pos rfl] at hdN
      simp only [beq_self_eq_true, ite_true_nat, ite_True_nat]
      omega
    · rw [if_neg hk] at hdN
      have hb : (key == k') = false := by
        simp only [beq_eq_false_iff_ne, ne_eq]
        exact hk
      simp only [hb, ite_false_nat]
      omega
  case persistCount =>
    intro k'
    have := hw.persistCount k'
    simp only [countPersist, countRespFound, countJoinSucc,
      List.countP_append, List.countP_cons, List.countP_nil,
      isPersist, isJoinSucc, isRespFound,
      ite_true_nat, ite_false_nat] at this ⊢
    by_cases hk : key = k'
    · subst hk
      simp only [beq_self_eq_true, ite_true_nat, ite_True_nat]
      omega
    · have hb : (key == k') = false := by
        simp only [beq_eq_false_iff_ne, ne_eq]
        exact hk
      simp only [hb, ite_false_nat]
      omega
  case joinSuccGame =>
    intro k' hk
    refine hw.joinSuccGame k' ?_
    simpa [countJoinSucc, List.countP_append, List.countP_cons,
      isJoinSucc] using hk
  case omdbKind =>
    intro tk hm
    rcases mem_upd hm with rfl | hm'
    · show oKind (TState.jSave t pid r) ≠ some .game
      simp [oKind]
    · exact hw.omdbKind tk hm'

/-- Preservation: the game fetch job's save PUT settles (either way): it
displays the cover, updates the row and resolves the shared promise with
the result object. -/
theorem wf_jsave_done {c : Config} (hw : WF c) {i row pid : Nat}
    {t : String} {r : GameRes}
    (hold : tget c.tasks i = some ⟨row, .jSave t pid r⟩) :
    WF { c with
      tasks := upd c.tasks i ⟨row, .done⟩
      promises := aset c.promises pid (.gres (some r))
      log := c.log ++ [.display row r.cover_art_url, .updateRow row] } := by
  have hfr : pid < c.nextP :=
    hw.taskFresh _ (tget_mem hold) pid (by simp [statePids])
  constructor
  case timers1000 => exact hw.timers1000
  case ownerTimer =>
    intro k'
    have hdO := countTask_upd ownerKey (TState.done) hold k'
    rw [show ownerKey (TState.jSave t pid r) = none from rfl,
      show ownerKey TState.done = none from rfl] at hdO
    simp only [show (none = some k') = False from by simp, ite_False_nat]
      at hdO
    have hct : cntTimer { c with
        tasks := upd c.tasks i ⟨row, .done⟩
        promises := aset c.promises pid (.gres (some r))
        log := c.log ++ [.display row r.cover_art_url, .updateRow row] } k' =
        cntTimer c k' := rfl
    rw [hct]
    have := hw.ownerTimer k'
    simp only [cntOwner] at hdO this ⊢
    omega
  case netLe =>
    intro k'
    have hdN := countTask_upd netKey (TState.done) hold k'
    rw [show netKey (TState.jSave t pid r) = none from rfl,
      show netKey TState.done = none from rfl] at hdN
    simp only [show (none = some k') = False from by simp, ite_False_nat]
      at hdN
    have := hw.netLe k'
    simp only [cntNet] at hdN this ⊢
    omega
  case queueInProg => exact hw.queueInProg
  case queueOnce => exact hw.queueOnce
  case gOwnQueue =>
    intro tk hm tt p hst
    rcases mem_upd hm with rfl | hm'
    · exact absurd (show TState.done = .gOwn tt p from hst) (by simp)
    · exact hw.gOwnQueue tk hm' tt p hst
  case jobLink =>
    intro tk hm tt p hj
    rcases mem_upd hm with rfl | hm'
    · rcases hj with hj | ⟨r2, hj⟩ <;>
        exact absurd (show TState.done = _ from hj) (by simp)
    · have hpne : p ≠ pid := by
        intro hh
        subst hh
        have h2 : 2 ≤ cntJob c p := by
          refine countP_ge_two _ ⟨row, .done⟩ hold hm ?_ ?_ ?_
          · intro hx
            rw [hx] at hj
            rcases hj with hj | ⟨r2, hj⟩ <;>
              exact absurd (show TState.done = _ from hj) (by simp)
          · simp [jobPid]
          · simp [isJob_jobPid hj]
        have := hw.jobOnce p
        omega
      obtain ⟨hpend2, tj, hmj, hstj⟩ := hw.jobLink tk hm' tt p hj
      refine ⟨?_, tj, mem_upd_of_ne hmj hold ?_, hstj⟩
      · rw [alook_aset_ne c.promises (.gres (some r)) hpne]
        exact hpend2
      · intro hh
        rw [hh] at hstj
        exact absurd (show TState.jSave t pid r = .gOwn tt p from hstj)
          (by simp)
  case jobOnce =>
    intro p
    have h := countTask_upd jobPid (TState.done) hold p
    rw [show jobPid (TState.jSave t pid r) = some pid from rfl,
      show jobPid TState.done = none from rfl] at h
    simp only [show (none = some p) = False from by simp, ite_False_nat,
      Option.some.injEq] at h
    have := hw.jobOnce p
    simp only [cntJob] at h this ⊢
    omega
  case gOwnJob =>
    intro tk hm tt p hst
    rcases mem_upd hm with rfl | hm'
    · exact absurd (show TState.done = .gOwn tt p from hst) (by simp)
    · by_cases hpp : p = pid
      · subst hpp
        exact .inl ⟨some r, alook_aset_self c.promises p (.gres (some r))⟩
      · rcases hw.gOwnJob tk hm' tt p hst with ⟨v, hv⟩ |
          ⟨hpend2, tj, hmj, hstj⟩
        · refine .inl ⟨v, ?_⟩
          rw [alook_aset_ne c.promises (.gres (some r)) hpp]
          exact hv
        · refine .inr ⟨?_, tj, mem_upd_of_ne hmj hold ?_, hstj⟩
          · rw [alook_aset_ne c.promises (.gres (some r)) hpp]
            exact hpend2
          · intro hh
            rw [hh] at hstj
            have := isJob_jobPid hstj
            simp only [jobPid, Option.some.injEq] at this
            exact hpp this.symm
  case promFresh =>
    intro e he
    rcases mem_aset he with rfl | he
    · simpa using hfr
    · exact hw.promFresh e he
  case queueFresh => exact hw.queueFresh
  case taskFresh =>
    intro tk hm p hp
    rcases mem_upd hm with rfl | hm'
    · simp [statePids] at hp
    · exact hw.taskFresh tk hm' p hp
  case callCount =>
    intro k'
    have := hw.callCount k'
    simp only [countCall, countEvict, List.countP_append, List.countP_cons,
      List.countP_nil, isCall, isEvict, ite_true_nat, ite_false_nat] at this ⊢
    omega
  case respCount =>
    intro k'
    have hdN := countTask_upd netKey (TState.done) hold k'
    rw [show netKey (TState.jSave t pid r) = none from rfl,
      show netKey TState.done = none from rfl] at hdN
    simp only [show (none = some k') = False from by simp, ite_False_nat]
      at hdN
    have := hw.respCount k'
    simp only [countCall, countResp, cntNet, List.countP_append,
      List.countP_cons, List.countP_nil, isCall, isResp, ite_true_nat,
      ite_false_nat] at this hdN ⊢
    omega
  case persistCount =>
    intro k'
    have := hw.persistCount k'
    simp only [countPersist, countRespFound, countJoinSucc,
      List.countP_append, List.countP_cons, List.countP_nil,
      isPersist, isJoinSucc, isRespFound,
      ite_true_nat, ite_false_nat] at this ⊢
    omega
  case joinSuccGame =>
    intro k' hk
    refine hw.joinSuccGame k' ?_
    simpa [countJoinSucc, List.countP_append, List.countP_cons,
      isJoinSucc] using hk
  case omdbKind =>
    intro tk hm
    rcases mem_upd hm with rfl | hm'
    · show oKind TState.done ≠ some .game
      simp [oKind]
    · exact hw.omdbKind tk hm'

/-- Pre-state facts available whenever an OMDB save for `key` is pending
at task `i`. -/
theorem osave_pre {c : Config} (hw : WF c) {i row : Nat} {mk : MKind}
    {t y url : String}
    (hold : tget c.tasks i = some ⟨row, .oSave mk t y url⟩) :
    cacheKey mk t y ∈ c.inProg ∧ cntOwner c (cacheKey mk t y) = 1 ∧
      cntTimer c (cacheKey mk t y) = 0 := by
  have hown : 0 < cntOwner c (cacheKey mk t y) :=
    countP_pos_of_mem (tget_mem hold) (by simp [ownerKey])
  have hbit := hw.ownerTimer (cacheKey mk t y)
  by_cases hin : cacheKey mk t y ∈ c.inProg
  · rw [if_pos hin] at hbit
    exact ⟨hin, by omega, by omega⟩
  · rw [if_neg hin] at hbit
    omega

/-- Preservation: an OMDB save PUT settles (either way): the fetcher
displays the poster, stores the resolved promise in the queue, returns,
and `finally` schedules the eviction. -/
theorem wf_osave_done {c : Config} (hw : WF c) {i row : Nat} {mk : MKind}
    {t y url : String}
    (hold : tget c.tasks i = some ⟨row, .oSave mk t y url⟩) :
    WF { c with
      tasks := upd c.tasks i ⟨row, .done⟩
      promises := (c.nextP, .sres (some url)) :: c.promises
      queue := aset c.queue (cacheKey mk t y) c.nextP
      timers := c.timers ++ [(1000, cacheKey mk t y)]
      nextP := c.nextP + 1
      log := c.log ++ [.display row url] } := by
  set key := cacheKey mk t y with hkey
  obtain ⟨hin, hown1, htim0⟩ := osave_pre hw hold
  rw [← hkey] at hin hown1 htim0
  have hmkg : mk ≠ .game := by
    have := hw.omdbKind ⟨row, .oSave mk t y url⟩ (tget_mem hold)
    simpa [oKind] using this
  have dTim : ∀ k', cntTimer { c with
      tasks := upd c.tasks i ⟨row, .done⟩
      promises := (c.nextP, .sres (some url)) :: c.promises
      queue := aset c.queue key c.nextP
      timers := c.timers ++ [(1000, key)]
      nextP := c.nextP + 1
      log := c.log ++ [.display row url] } k' =
      cntTimer c k' + (if key = k' then 1 else 0) := by
    intro k'
    simp only [cntTimer, List.countP_append, List.countP_cons, List.countP_nil]
    by_cases hk : key = k'
    · simp [hk]
    · simp [hk]
  constructor
  case timers1000 =>
    intro e he
    rcases List.mem_append.mp he with he | he
    · exact hw.timers1000 e he
    · rw [List.mem_singleton.mp he]
  case ownerTimer =>
    intro k'
    have hdO := countTask_upd ownerKey (TState.done) hold k'
    rw [show ownerKey (TState.oSave mk t y url) = some key from rfl,
      show ownerKey TState.done = none from rfl] at hdO
    simp only [show (none = some k') = False from by simp, ite_False_nat,
      Option.some.injEq] at hdO
    rw [dTim k']
    have := hw.ownerTimer k'
    simp only [cntOwner] at hdO this ⊢
    omega
  case netLe =>
    intro k'
    have hdN := countTask_upd netKey (TState.done) hold k'
    rw [show netKey (TState.oSave mk t y url) = none from rfl,
      show netKey TState.done = none from rfl] at hdN
    simp only [show (none = some k') = False from by simp, ite_False_nat]
      at hdN
    have := hw.netLe k'
    simp only [cntNet] at hdN this ⊢
    omega
  case queueInProg =>
    intro k' p hl
    by_cases hk : k' = key
    · exact hk ▸ hin
    · rw [alook_aset_ne c.queue c.nextP hk] at hl
      exact hw.queueInProg k' p hl
  case queueOnce =>
    intro k'
    by_cases hk : k' = key
    · subst hk
      simp only [aset, List.countP_cons]
      rw [countP_key_filter_self]
      simp
    · simp only [aset, List.countP_cons]
      rw [countP_key_filter_ne c.queue (fun hh => hk hh)]
      have hd : (decide (key = k')) = false := by
        simp only [decide_eq_false_iff_not]
        exact fun hh => hk hh.symm
      have := hw.queueOnce k'
      simp only [hd, ite_false_nat]
      omega
  case gOwnQueue =>
    intro tk hm tt p hst
    rcases mem_upd hm with rfl | hm'
    · exact absurd (show TState.done = .gOwn tt p from hst) (by simp)
    · have hq := hw.gOwnQueue tk hm' tt p hst
      have hne : cacheKey .game tt "" ≠ key := by
        rw [hkey]
        exact fun hh => cacheKey_ne_game hmkg t y tt "" hh.symm
      rw [alook_aset_ne c.queue c.nextP hne]
      exact hq
  case jobLink =>
    intro tk hm tt p hj
    rcases mem_upd hm with rfl | hm'
    · rcases hj with hj | ⟨r, hj⟩ <;>
        exact absurd (show TState.done = _ from hj) (by simp)
    · obtain ⟨hpend, tj, hmj, hstj⟩ := hw.jobLink tk hm' tt p hj
      have hplt : p < c.nextP := by
        refine hw.taskFresh tk hm' p ?_
        rcases hj with hj | ⟨r, hj⟩ <;> rw [hj] <;> simp [statePids]
      refine ⟨?_, tj, ?_, hstj⟩
      · simp only [alook]
        rw [if_neg (by omega)]
        exact hpend
      · refine mem_upd_of_ne hmj hold ?_
        intro hh
        rw [hh] at hstj
        exact absurd (show TState.oSave mk t y url = .gOwn tt p from hstj)
          (by simp)
  case jobOnce =>
    intro p
    have h := countTask_upd jobPid (TState.done) hold p
    rw [show jobPid (TState.oSave mk t y url) = none from rfl,
      show jobPid TState.done = none from rfl] at h
    simp only [show (none = some p) = False from by simp, ite_False_nat] at h
    have := hw.jobOnce p
    simp only [cntJob] at h this ⊢
    omega
  case gOwnJob =>
    intro tk hm tt p hst
    rcases mem_upd hm with rfl | hm'
    · exact absurd (show TState.done = .gOwn tt p from hst) (by simp)
    · have hplt : p < c.nextP := by
        refine hw.taskFresh tk hm' p ?_
        rw [hst]
        simp [statePids]
      rcases hw.gOwnJob tk hm' tt p hst with ⟨v, hv⟩ | ⟨hpend, tj, hmj, hstj⟩
      · refine .inl ⟨v, ?_⟩
        simp only [alook]
        rw [if_neg (by omega)]
        exact hv
      · refine .inr ⟨?_, tj, ?_, hstj⟩
        · simp only [alook]
          rw [if_neg (by omega)]
          exact hpend
        · refine mem_upd_of_ne hmj hold ?_
          intro hh
          rw [hh] at hstj
          rcases hstj with hj | ⟨r, hj⟩ <;>
            exact absurd (show TState.oSave mk t y url = _ from hj) (by simp)
  case promFresh =>
    intro e he
    show e.1 < c.nextP + 1
    rcases List.mem_cons.mp he with rfl | he
    · simp
    · have := hw.promFresh e he
      omega
  case queueFresh =>
    intro e he
    show e.2 < c.nextP + 1
    rcases mem_aset he with rfl | he
    · simp
    · have := hw.queueFresh e he
      omega
  case taskFresh =>
    intro tk hm p hp
    show p < c.nextP + 1
    rcases mem_upd hm with rfl | hm'
    · simp [statePids] at hp
    · have := hw.taskFresh tk hm' p hp
      omega
  case callCount =>
    intro k'
    have := hw.callCount k'
    simp only [countCall, countEvict, List.countP_append, List.countP_cons,
      List.countP_nil, isCall, isEvict, ite_true_nat, ite_false_nat] at this ⊢
    omega
  case respCount =>
    intro k'
    have hdN := countTask_upd netKey (TState.done) hold k'
    rw [show netKey (TState.oSave mk t y url) = none from rfl,
      show netKey TState.done = none from rfl] at hdN
    simp only [show (none = some k') = False from by simp, ite_False_nat]
      at hdN
    have := hw.respCount k'
    simp only [countCall, countResp, cntNet, List.countP_append,
      List.countP_cons, List.countP_nil, isCall, isResp, ite_true_nat,
      ite_false_nat] at this hdN ⊢
    omega
  case persistCount =>
    intro k'
    have := hw.persistCount k'
    simp only [countPersist, countRespFound, countJoinSucc,
      List.countP_append, List.countP_cons, List.countP_nil,
      isPersist, isJoinSucc, isRespFound,
      ite_true_nat, ite_false_nat] at this ⊢
    omega
  case joinSuccGame =>
    intro k' hk
    refine hw.joinSuccGame k' ?_
    simpa [countJoinSucc, List.countP_append, List.countP_cons,
      isJoinSucc] using hk
  case omdbKind =>
    intro tk hm
    rcases mem_upd hm with rfl | hm'
    · show oKind TState.done ≠ some .game
      simp [oKind]
    · exact hw.omdbKind tk hm'

/-- Pre-state facts available whenever a game originator waits at task
`i`. -/
theorem gown_pre {c : Config} (hw : WF c) {i row pid : Nat} {t : String}
    (hold : tget c.tasks i = some ⟨row, .gOwn t pid⟩) :
    cacheKey .game t "" ∈ c.inProg ∧
      cntOwner c (cacheKey .game t "") = 1 ∧
      cntTimer c (cacheKey .game t "") = 0 := by
  have hown : 0 < cntOwner c (cacheKey .game t "") :=
    countP_pos_of_mem (tget_mem hold) (by simp [ownerKey])
  have hbit := hw.ownerTimer (cacheKey .game t "")
  by_cases hin : cacheKey .game t "" ∈ c.inProg
  · rw [if_pos hin] at hbit
    exact ⟨hin, by omega, by omega⟩
  · rw [if_neg hin] at hbit
    omega

/-- Preservation: the game originator resumes after its shared promise is
resolved: its `finally` schedules the eviction. -/
theorem wf_gown_run {c : Config} (hw : WF c) {i row pid : Nat} {t : String}
    {v : Option GameRes}
    (hold : tget c.tasks i = some ⟨row, .gOwn t pid⟩)
    (hres : alook c.promises pid = some (.gres v)) :
    WF { c with
      tasks := upd c.tasks i ⟨row, .done⟩
      timers := c.timers ++ [(1000, cacheKey .game t "")] } := by
  set key := cacheKey .game t "" with hkey
  obtain ⟨hin, hown1, htim0⟩ := gown_pre hw hold
  rw [← hkey] at hin hown1 htim0
  have dTim : ∀ k', cntTimer { c with
      tasks := upd c.tasks i ⟨row, .done⟩
      timers := c.timers ++ [(1000, key)] } k' =
      cntTimer c k' + (if key = k' then 1 else 0) := by
    intro k'
    simp only [cntTimer, List.countP_append, List.countP_cons, List.countP_nil]
    by_cases hk : key = k'
    · simp [hk]
    · simp [hk]
  constructor
  case timers1000 =>
    intro e he
    rcases List.mem_append.mp he with he | he
    · exact hw.timers1000 e he
    · rw [List.mem_singleton.mp he]
  case ownerTimer =>
    intro k'
    have hdO := countTask_upd ownerKey (TState.done) hold k'
    rw [show ownerKey (TState.gOwn t pid) = some key from rfl,
      show ownerKey TState.done = none from rfl] at hdO
    simp only [show (none = some k') = False from by simp, ite_False_nat,
      Option.some.injEq] at hdO
    rw [dTim k']
    have := hw.ownerTimer k'
    simp only [cntOwner] at hdO this ⊢
    omega
  case netLe =>
    intro k'
    have hdN := countTask_upd netKey (TState.done) hold k'
    rw [show netKey (TState.gOwn t pid) = none from rfl,
      show netKey TState.done = none from rfl] at hdN
    simp only [show (none = some k') = False from by simp, ite_False_nat]
      at hdN
    have := hw.netLe k'
    simp only [cntNet] at hdN this ⊢
    omega
  case queueInProg => exact hw.queueInProg
  case queueOnce => exact hw.queueOnce
  case gOwnQueue =>
    intro tk hm tt p hst
    rcases mem_upd hm with rfl | hm'
    · exact absurd (show TState.done = .gOwn tt p from hst) (by simp)
    · exact hw.gOwnQueue tk hm' tt p hst
  case jobLink =>
    intro tk hm tt p hj
    rcases mem_upd hm with rfl | hm'
    · rcases hj with hj | ⟨r, hj⟩ <;>
        exact absurd (show TState.done = _ from hj) (by simp)
    · obtain ⟨hpend, tj, hmj, hstj⟩ := hw.jobLink tk hm' tt p hj
      have hpne : p ≠ pid := by
        intro hh
        rw [hh] at hpend
        rw [hpend] at hres
        simp at hres
      refine ⟨hpend, tj, mem_upd_of_ne hmj hold ?_, hstj⟩
      intro hh
      rw [hh] at hstj
      have h2 : TState.gOwn t pid = .gOwn tt p := hstj
      injection h2 with h2a h2b
      exact hpne h2b.symm
  case jobOnce =>
    intro p
    have h := countTask_upd jobPid (TState.done) hold p
    rw [show jobPid (TState.gOwn t pid) = none from rfl,
      show jobPid TState.done = none from rfl] at h
    simp only [show (none = some p) = False from by simp, ite_False_nat] at h
    have := hw.jobOnce p
    simp only [cntJob] at h this ⊢
    omega
  case gOwnJob =>
    intro tk hm tt p hst
    rcases mem_upd hm with rfl | hm'
    · exact absurd (show TState.done = .gOwn tt p from hst) (by simp)
    · rcases hw.gOwnJob tk hm' tt p hst with h | ⟨hpend, tj, hmj, hstj⟩
      · exact .inl h
      · have hpne : p ≠ pid := by
          intro hh
          rw [hh] at hpend
          rw [hpend] at hres
          simp at hres
        refine .inr ⟨hpend, tj, mem_upd_of_ne hmj hold ?_, hstj⟩
        intro hh
        rw [hh] at hstj
        have := isJob_jobPid hstj
        simp only [jobPid] at this
        exact Option.noConfusion this
  case promFresh => exact hw.promFresh
  case queueFresh => exact hw.queueFresh
  case taskFresh =>
    intro tk hm p hp
    rcases mem_upd hm with rfl | hm'
    · simp [statePids] at hp
    · exact hw.taskFresh tk hm' p hp
  case callCount =>
    intro k'
    exact hw.callCount k'
  case respCount =>
    intro k'
    have hdN := countTask_upd netKey (TState.done) hold k'
    rw [show netKey (TState.gOwn t pid) = none from rfl,
      show netKey TState.done = none from rfl] at hdN
    simp only [show (none = some k') = False from by simp, ite_False_nat]
      at hdN
    have := hw.respCount k'
    simp only [countCall, countResp, cntNet] at this hdN ⊢
    omega
  case persistCount =>
    intro k'
    exact hw.persistCount k'
  case joinSuccGame => exact hw.joinSuccGame
  case omdbKind =>
    intro tk hm
    rcases mem_upd hm with rfl | hm'
    · show oKind TState.done ≠ some .game
      simp [oKind]
    · exact hw.omdbKind tk hm'

theorem countP_val_filter_self (q : List (Nat × String)) (k : String) :
    (q.filter (fun e => e.2 ≠ k)).countP (fun e => decide (e.2 = k)) = 0 := by
  rw [List.countP_eq_zero]
  intro e he
  have := (List.mem_filter.mp he).2
  simpa using this

theorem countP_val_filter_ne (q : List (Nat × String)) {k k' : String}
    (h : k' ≠ k) :
    (q.filter (fun e => e.2 ≠ k)).countP (fun e => decide (e.2 = k')) =
      q.countP (fun e => decide (e.2 = k')) := by
  simp only [decide_not]
  induction q with
  | nil => simp
  | cons e q ih =>
    by_cases he : e.2 = k
    · have hek : ¬ e.2 = k' := fun hh => h (hh.symm.trans he)
      have hkk : ¬ k = k' := fun hh => h hh.symm
      simp [List.filter_cons, List.countP_cons, he, hek, hkk, ih]
    · simp [List.filter_cons, List.countP_cons, he, ih]

/-- Preservation: a pending eviction timer fires, deleting the key from
both `posterFetchInProgress` and `posterFetchQueue`. -/
theorem wf_fire {c : Config} (hw : WF c) {k : String}
    (hf : c.timers.any (fun e => e.2 = k) = true) :
    WF { c with
      timers := c.timers.filter (fun e => e.2 ≠ k)
      inProg := sDel c.inProg k
      queue := adel c.queue k
      log := c.log ++ [.evict k] } := by
  have htim : 0 < cntTimer c k := by
    rw [List.any_eq_true] at hf
    obtain ⟨e, he, hpe⟩ := hf
    exact countP_pos_of_mem he hpe
  have hbit := hw.ownerTimer k
  have hin : k ∈ c.inProg := by
    by_cases hin : k ∈ c.inProg
    · exact hin
    · rw [if_neg hin] at hbit
      omega
  rw [if_pos hin] at hbit
  have hown0 : cntOwner c k = 0 := by omega
  constructor
  case timers1000 =>
    intro e he
    exact hw.timers1000 e (List.mem_filter.mp he).1
  case ownerTimer =>
    intro k'
    have hct : cntOwner { c with
        timers := c.timers.filter (fun e => e.2 ≠ k)
        inProg := sDel c.inProg k
        queue := adel c.queue k
        log := c.log ++ [.evict k] } k' = cntOwner c k' := rfl
    rw [hct]
    have := hw.ownerTimer k'
    by_cases hk : k' = k
    · subst hk
      have h1 : cntTimer { c with
          timers := c.timers.filter (fun e => e.2 ≠ k')
          inProg := sDel c.inProg k'
          queue := adel c.queue k'
          log := c.log ++ [.evict k'] } k' = 0 := by
        simp only [cntTimer]
        exact countP_val_filter_self c.timers k'
      rw [h1]
      rw [if_neg (fun hx => (mem_sDel.mp hx).2 rfl)]
      omega
    · have h1 : cntTimer { c with
          timers := c.timers.filter (fun e => e.2 ≠ k)
          inProg := sDel c.inProg k
          queue := adel c.queue k
          log := c.log ++ [.evict k] } k' = cntTimer c k' := by
        simp only [cntTimer]
        exact countP_val_filter_ne c.timers hk
      rw [h1]
      by_cases hink : k' ∈ c.inProg
      · rw [if_pos (mem_sDel.mpr ⟨hink, hk⟩)]
        rw [if_pos hink] at this
        omega
      · rw [if_neg (fun hx => hink (mem_sDel.mp hx).1)]
        rw [if_neg hink] at this
        omega
  case netLe => exact hw.netLe
  case queueInProg =>
    intro k' p hl
    by_cases hk : k' = k
    · subst hk
      rw [alook_adel_self] at hl
      exact Option.noConfusion hl
    · rw [alook_adel_ne c.queue hk] at hl
      exact mem_sDel.mpr ⟨hw.queueInProg k' p hl, hk⟩
  case queueOnce =>
    intro k'
    by_cases hk : k' = k
    · subst hk
      simp only [adel]
      rw [countP_key_filter_self]
      omega
    · simp only [adel]
      rw [countP_key_filter_ne c.queue hk]
      exact hw.queueOnce k'
  case gOwnQueue =>
    intro tk hm tt p hst
    have hq := hw.gOwnQueue tk hm tt p hst
    have hne : cacheKey .game tt "" ≠ k := by
      intro hh
      have : 0 < cntOwner c k := by
        refine countP_pos_of_mem hm ?_
        simp [ownerKey, hst, hh]
      omega
    rw [alook_adel_ne c.queue hne]
    exact hq
  case jobLink =>
    intro tk hm tt p hj
    exact hw.jobLink tk hm tt p hj
  case jobOnce => exact hw.jobOnce
  case gOwnJob =>
    intro tk hm tt p hst
    exact hw.gOwnJob tk hm tt p hst
  case promFresh => exact hw.promFresh
  case queueFresh =>
    intro e he
    exact hw.queueFresh e (mem_adel he)
  case taskFresh => exact hw.taskFresh
  case callCount =>
    intro k'
    have := hw.callCount k'
    simp only [countCall, countEvict, List.countP_append, List.countP_cons,
      List.countP_nil, isCall, isEvict, ite_true_nat, ite_false_nat] at this ⊢
    by_cases hk : k' = k
    · subst hk
      rw [if_neg (fun hx => (mem_sDel.mp hx).2 rfl)]
      rw [if_pos hin] at this
      simp only [beq_self_eq_true, ite_true_nat, ite_True_nat]
      omega
    · have hb : (k == k') = false := by
        simp only [beq_eq_false_iff_ne, ne_eq]
        exact fun hh => hk hh.symm
      simp only [hb, ite_false_nat]
      by_cases hink : k' ∈ c.inProg
      · rw [if_pos (mem_sDel.mpr ⟨hink, hk⟩)]
        rw [if_pos hink] at this
        omega
      · rw [if_neg (fun hx => hink (mem_sDel.mp hx).1)]
        rw [if_neg hink] at this
        omega
  case respCount =>
    intro k'
    have := hw.respCount k'
    simp only [countCall, countResp, cntNet, List.countP_append,
      List.countP_cons, List.countP_nil, isCall, isResp, ite_true_nat,
      ite_false_nat] at this ⊢
    omega
  case persistCount =>
    intro k'
    have := hw.persistCount k'
    simp only [countPersist, countRespFound, countJoinSucc,
      List.countP_append, List.countP_cons, List.countP_nil,
      isPersist, isJoinSucc, isRespFound,
      ite_true_nat, ite_false_nat] at this ⊢
    omega
  case joinSuccGame =>
    intro k' hk
    refine hw.joinSuccGame k' ?_
    simpa [countJoinSucc, List.countP_append, List.countP_cons,
      isJoinSucc] using hk
  case omdbKind => exact hw.omdbKind

/-- Every step preserves the invariant. -/
theorem wf_step {c c' : Config} {a : Act} (hw : WF c)
    (h : step c a = some c') : WF c' := by
  cases a with
  | run i =>
    simp only [step] at h
    cases htk : tget c.tasks i with
    | none =>
      rw [htk] at h
      simp at h
    | some tk =>
      rw [htk] at h
      obtain ⟨row, st⟩ := tk
      cases st with
      | oStart mk t y =>
        simp only [] at h
        by_cases hin : cacheKey mk t y ∈ c.inProg
        · rw [if_pos hin] at h
          cases hq : alook c.queue (cacheKey mk t y) with
          | some pid =>
            rw [hq] at h
            injection h with h
            subst h
            have h2 := wf_taskswap hw (.oJoin pid) [] htk rfl rfl rfl rfl
              rfl rfl rfl
              (by
                intro p hp
                simp only [statePids, List.mem_singleton] at hp
                subst hp
                exact hw.queueFresh _ (alook_mem hq))
              (fun k => rfl) (fun k => rfl) (fun k => rfl) (fun k => rfl)
              (fun k => rfl) (fun k hk => absurd rfl hk)
            rw [List.append_nil] at h2
            exact h2
          | none =>
            rw [hq] at h
            injection h with h
            subst h
            have h2 := wf_taskswap hw .done [] htk rfl rfl rfl rfl
              rfl rfl rfl (by intro p hp; simp [statePids] at hp)
              (fun k => rfl) (fun k => rfl) (fun k => rfl) (fun k => rfl)
              (fun k => rfl) (fun k hk => absurd rfl hk)
            rw [List.append_nil] at h2
            exact h2
        · rw [if_neg hin] at h
          injection h with h
          subst h
          exact wf_ostart_fresh hw htk hin
      | oJoin pid =>
        simp only [] at h
        cases hp : alook c.promises pid with
        | none =>
          rw [hp] at h
          simp at h
        | some pv =>
          rw [hp] at h
          cases pv with
          | pending => exact Option.noConfusion h
          | gres v => exact Option.noConfusion h
          | sres v =>
            simp only [] at h
            cases hv : strTruthy v with
            | some url =>
              rw [hv] at h
              injection h with h
              subst h
              exact wf_taskswap hw .done [.display row url] htk rfl rfl rfl
                rfl rfl rfl rfl (by intro p hp2; simp [statePids] at hp2)
                (fun k => rfl) (fun k => rfl) (fun k => rfl) (fun k => rfl)
                (fun k => rfl) (fun k hk => absurd rfl hk)
            | none =>
              rw [hv] at h
              injection h with h
              subst h
              have h2 := wf_taskswap hw .done [] htk rfl rfl rfl rfl
                rfl rfl rfl (by intro p hp2; simp [statePids] at hp2)
                (fun k => rfl) (fun k => rfl) (fun k => rfl) (fun k => rfl)
                (fun k => rfl) (fun k hk => absurd rfl hk)
              rw [List.append_nil] at h2
              exact h2
      | gStart t =>
        simp only [] at h
        by_cases hin : cacheKey .game t "" ∈ c.inProg
        · rw [if_pos hin] at h
          cases hq : alook c.queue (cacheKey .game t "") with
          | some pid =>
            rw [hq] at h
            injection h with h
            subst h
            have h2 := wf_taskswap hw (.gJoin t pid) [] htk rfl rfl rfl rfl
              rfl rfl rfl
              (by
                intro p hp
                simp only [statePids, List.mem_singleton] at hp
                subst hp
                exact hw.queueFresh _ (alook_mem hq))
              (fun k => rfl) (fun k => rfl) (fun k => rfl) (fun k => rfl)
              (fun k => rfl) (fun k hk => absurd rfl hk)
            rw [List.append_nil] at h2
            exact h2
          | none =>
            rw [hq] at h
            injection h with h
            subst h
            have h2 := wf_taskswap hw .done [] htk rfl rfl rfl rfl
              rfl rfl rfl (by intro p hp; simp [statePids] at hp)
              (fun k => rfl) (fun k => rfl) (fun k => rfl) (fun k => rfl)
              (fun k => rfl) (fun k hk => absurd rfl hk)
            rw [List.append_nil] at h2
            exact h2
        · rw [if_neg hin] at h
          cases hq : alook c.queue (cacheKey .game t "") with
          | some pid' => exact absurd (hw.queueInProg _ _ hq) hin
          | none =>
            rw [hq] at h
            injection h with h
            subst h
            exact wf_gstart_fresh hw htk hin
      | gJoin t pid =>
        simp only [] at h
        cases hp : alook c.promises pid with
        | none =>
          rw [hp] at h
          simp at h
        | some pv =>
          rw [hp] at h
          cases pv with
          | pending => exact Option.noConfusion h
          | sres v => exact Option.noConfusion h
          | gres v =>
            cases v with
            | none =>
              injection h with h
              subst h
              have h2 := wf_taskswap hw .done [] htk rfl rfl rfl rfl
                rfl rfl rfl (by intro p hp2; simp [statePids] at hp2)
                (fun k => rfl) (fun k => rfl) (fun k => rfl) (fun k => rfl)
                (fun k => rfl) (fun k hk => absurd rfl hk)
              rw [List.append_nil] at h2
              exact h2
            | some r =>
              simp only [] at h
              by_cases hcov : r.cover_art_url = ""
              · rw [if_pos hcov] at h
                injection h with h
                subst h
                have h2 := wf_taskswap hw .done [] htk rfl rfl rfl rfl
                  rfl rfl rfl (by intro p hp2; simp [statePids] at hp2)
                  (fun k => rfl) (fun k => rfl) (fun k => rfl) (fun k => rfl)
                  (fun k => rfl) (fun k hk => absurd rfl hk)
                rw [List.append_nil] at h2
                exact h2
              · rw [if_neg hcov] at h
                injection h with h
                subst h
                refine wf_taskswap hw (.gJoinSave t r)
                  [.display row r.cover_art_url,
                   .persist (cacheKey .game t "") row r.cover_art_url,
                   .joinSucc (cacheKey .game t "")] htk rfl rfl rfl rfl
                  rfl rfl rfl (by intro p hp2; simp [statePids] at hp2)
                  (fun k => rfl) (fun k => rfl) (fun k => rfl) (fun k => rfl)
                  ?_ ?_
                · intro k
                  simp [List.countP_cons, isPersist, isJoinSucc, isDisplay]
                · intro k hk
                  by_cases hkk : cacheKey .game t "" = k
                  · exact ⟨t, hkk.symm⟩
                  · exfalso
                    apply hk
                    have hb : (cacheKey .game t "" == k) = false :=
                      beq_eq_false_iff_ne.mpr hkk
                    simp [List.countP_cons, isJoinSucc, hb]
      | gOwn t pid =>
        simp only [] at h
        cases hp : alook c.promises pid with
        | none =>
          rw [hp] at h
          simp at h
        | some pv =>
          rw [hp] at h
          cases pv with
          | pending => exact Option.noConfusion h
          | sres v => exact Option.noConfusion h
          | gres v =>
            injection h with h
            subst h
            exact wf_gown_run hw htk hp
      | oFetch mk t y => exact Option.noConfusion h
      | oSave mk t y url => exact Option.noConfusion h
      | gJoinSave t r => exact Option.noConfusion h
      | jFetch t pid => exact Option.noConfusion h
      | jSave t pid r => exact Option.noConfusion h
      | done => exact Option.noConfusion h
  | respO i r =>
    simp only [step] at h
    cases htk : tget c.tasks i with
    | none =>
      rw [htk] at h
      simp at h
    | some tk =>
      rw [htk] at h
      obtain ⟨row, st⟩ := tk
      cases st with
      | oFetch mk t y =>
        simp only [] at h
        cases r with
        | notOk s =>
          injection h with h
          subst h
          exact wf_osettle hw htk (by intro u; simp)
        | okData err poster =>
          simp only [] at h
          by_cases he : (strTruthy err).isSome = true
          · rw [if_pos he] at h
            injection h with h
            subst h
            exact wf_osettle hw htk (by intro u; simp)
          · rw [if_neg he] at h
            cases hfu : omdbFoundUrl poster with
            | some url =>
              rw [hfu] at h
              injection h with h
              subst h
              exact wf_ofound hw htk
            | none =>
              rw [hfu] at h
              injection h with h
              subst h
              exact wf_osettle hw htk (by intro u; simp)
        | netThrow =>
          injection h with h
          subst h
          exact wf_onetthrow hw htk
      | oStart mk t y => exact Option.noConfusion h
      | oJoin pid => exact Option.noConfusion h
      | oSave mk t y url => exact Option.noConfusion h
      | gStart t => exact Option.noConfusion h
      | gJoin t pid => exact Option.noConfusion h
      | gJoinSave t r => exact Option.noConfusion h
      | gOwn t pid => exact Option.noConfusion h
      | jFetch t pid => exact Option.noConfusion h
      | jSave t pid r => exact Option.noConfusion h
      | done => exact Option.noConfusion h
  | respG i r =>
    simp only [step] at h
    cases htk : tget c.tasks i with
    | none =>
      rw [htk] at h
      simp at h
    | some tk =>
      rw [htk] at h
      obtain ⟨row, st⟩ := tk
      cases st with
      | jFetch t pid =>
        simp only [] at h
        cases r with
        | notOk s =>
          injection h with h
          subst h
          exact wf_jsettle hw htk (by intro u; simp)
        | okData err results =>
          simp only [] at h
          by_cases he : (strTruthy err).isSome = true
          · rw [if_pos he] at h
            injection h with h
            subst h
            exact wf_jsettle hw htk (by intro u; simp)
          · rw [if_neg he] at h
            cases hh : results.head? with
            | none =>
              rw [hh] at h
              injection h with h
              subst h
              exact wf_jsettle hw htk (by intro u; simp)
            | some g =>
              rw [hh] at h
              simp only [] at h
              cases hb : strTruthy g.background_image with
              | some cover =>
                rw [hb] at h
                injection h with h
                subst h
                exact wf_jfound hw (mkGameRes g cover) htk
              | none =>
                rw [hb] at h
                injection h with h
                subst h
                exact wf_jsettle hw htk (by intro u; simp)
        | netThrow =>
          injection h with h
          subst h
          exact wf_jsettle hw htk (by intro u; simp)
      | oStart mk t y => exact Option.noConfusion h
      | oJoin pid => exact Option.noConfusion h
      | oFetch mk t y => exact Option.noConfusion h
      | oSave mk t y url => exact Option.noConfusion h
      | gStart t => exact Option.noConfusion h
      | gJoin t pid => exact Option.noConfusion h
      | gJoinSave t r => exact Option.noConfusion h
      | gOwn t pid => exact Option.noConfusion h
      | jSave t pid r => exact Option.noConfusion h
      | done => exact Option.noConfusion h
  | saveDone i ok =>
    simp only [step] at h
    cases htk : tget c.tasks i with
    | none =>
      rw [htk] at h
      simp at h
    | some tk =>
      rw [htk] at h
      obtain ⟨row, st⟩ := tk
      cases st with
      | oSave mk t y url =>
        injection h with h
        subst h
        exact wf_osave_done hw htk
      | jSave t pid r =>
        injection h with h
        subst h
        exact wf_jsave_done hw htk
      | gJoinSave t r =>
        injection h with h
        subst h
        exact wf_taskswap hw .done [.updateRow row] htk rfl rfl rfl rfl
          rfl rfl rfl (by intro p hp; simp [statePids] at hp)
          (fun k => rfl) (fun k => rfl) (fun k => rfl) (fun k => rfl)
          (fun k => rfl) (fun k hk => absurd rfl hk)
      | oStart mk t y => exact Option.noConfusion h
      | oJoin pid => exact Option.noConfusion h
      | oFetch mk t y => exact Option.noConfusion h
      | gStart t => exact Option.noConfusion h
      | gJoin t pid => exact Option.noConfusion h
      | gOwn t pid => exact Option.noConfusion h
      | jFetch t pid => exact Option.noConfusion h
      | done => exact Option.noConfusion h
  | fire k =>
    simp only [step] at h
    by_cases hf : c.timers.any (fun e => e.2 = k) = true
    · rw [if_pos hf] at h
      injection h with h
      subst h
      exact wf_fire hw hf
    · rw [if_neg hf] at h
      exact Option.noConfusion h

/-- The invariant holds in every reachable configuration. -/
theorem wf_exec {acts : List Act} {c c' : Config} (hw : WF c)
    (h : exec c acts = some c') : WF c' := by
  induction acts generalizing c with
  | nil =>
    unfold exec at h
    injection h with h
    subst h
    exact hw
  | cons a as ih =>
    unfold exec at h
    cases hs : step c a with
    | none =>
      rw [hs] at h
      simp at h
    | some c1 =>
      rw [hs] at h
      exact ih (wf_step hw hs) h

/-! ### Reachability and counting helpers for the claims -/

/-- Any configuration produced by running scheduler actions from a fresh
page satisfies the invariant. -/
theorem wf_reach {reqs : List Req} {acts : List Act} {c : Config}
    (h : exec (init reqs) acts = some c) : WF c :=
  wf_exec (wf_init reqs) h

theorem countP_le_countP {α : Type} (p q : α → Bool) (l : List α)
    (h : ∀ a, p a = true → q a = true) : l.countP p ≤ l.countP q := by
  induction l with
  | nil => exact Nat.le_refl 0
  | cons a l ih =>
    rw [List.countP_cons, List.countP_cons]
    by_cases hp : p a = true
    · rw [if_pos hp, if_pos (h a hp)]
      omega
    · rw [if_neg hp]
      omega

theorem isRespFound_imp_isResp (k : String) (e : Ev)
    (h : isRespFound k e = true) : isResp k e = true := by
  cases e with
  | resp k2 out => cases out <;> simp_all [isRespFound, isResp]
  | call k2 => simp [isRespFound] at h
  | persist k2 r u => simp [isRespFound] at h
  | display r u => simp [isRespFound] at h
  | updateRow r => simp [isRespFound] at h
  | evict k2 => simp [isRespFound] at h
  | joinSucc k2 => simp [isRespFound] at h

/-- Per key, provider calls are bounded by one per coalescing window. -/
theorem call_le_window {c : Config} (hw : WF c) (k : String) :
    countCall c.log k ≤ countEvict c.log k + 1 := by
  have h3 := hw.callCount k
  by_cases hk : k ∈ c.inProg
  · rw [if_pos hk] at h3
    omega
  · rw [if_neg hk] at h3
    omega

/-- Per key, found responses are bounded by one per coalescing window. -/
theorem respFound_le_window {c : Config} (hw : WF c) (k : String) :
    countRespFound c.log k ≤ countEvict c.log k + 1 := by
  have h1 : countRespFound c.log k ≤ countResp c.log k :=
    countP_le_countP _ _ _ (isRespFound_imp_isResp k)
  have h2 := hw.respCount k
  have h3 := call_le_window hw k
  omega

theorem mem_tget {α : Type} {l : List α} {x : α} (h : x ∈ l) :
    ∃ i, tget l i = some x := by
  induction l with
  | nil => cases h
  | cons a l ih =>
    cases h with
    | head => exact ⟨0, rfl⟩
    | tail _ h2 =>
      obtain ⟨i, hi⟩ := ih h2
      exact ⟨i + 1, hi⟩

/-- C1: at most one provider call is in flight per cache key at any
instant of any schedule, and per key the number of calls never exceeds the
number of completed grace evictions plus one, so N concurrent same-key
requests issued inside one window produce exactly one provider call — as
the concrete two-identical-requests scenario shows. -/
theorem claim1_single_flight :
    (∀ (reqs : List Req) (acts : List Act) (c : Config),
      exec (init reqs) acts = some c →
      ∀ k : String, cntNet c k ≤ 1 ∧
        countCall c.log k ≤ countEvict c.log k + 1) ∧
    countCall cfgTwin.log mvKey = 1 ∧ cntNet cfgTwin mvKey = 1 := by
  refine ⟨fun reqs acts c h k => ?_, ?_, ?_⟩
  · have hw := wf_reach h
    exact ⟨hw.netLe k, call_le_window hw k⟩
  · decide
  · decide

/-- C1 witness: the general bound applied to the concrete twin-request
schedule at the shared movie key. -/
theorem claim1_single_flight_witness :
    cntNet cfgTwin mvKey ≤ 1 ∧
      countCall cfgTwin.log mvKey ≤ countEvict cfgTwin.log mvKey + 1 :=
  claim1_single_flight.1 twinReqs [.run 0, .run 1] cfgTwin rfl mvKey

/-- C2: the claim fails on the code.  In the OMDB-style fetchers a second
caller arriving during the flight finds `posterFetchInProgress` set but
`posterFetchQueue` still empty (the promise is only stored after
resolution), so it returns immediately with no outcome: in the concrete
twin schedule the provider is called once and answers with a poster, row 1
is displayed, but row 2 — whose invocation has already returned — never
observes any FetchResult. -/
theorem claim2_waiter_no_outcome :
    exec (init twinReqs)
        [.run 0, .run 1, .respO 0 (.okData none (some "u.jpg")),
         .saveDone 0 true] = some cfgLost ∧
    List.countP (isDisplay 1) cfgLost.log = 1 ∧
    List.countP (isDisplay 2) cfgLost.log = 0 ∧
    tget cfgLost.tasks 1 = some ⟨2, .done⟩ ∧
    countCall cfgLost.log mvKey = 1 := by
  refine ⟨rfl, ?_, ?_, ?_, ?_⟩ <;> decide

/-- C6 (amended): cache keys separate requests whose kinds, titles or
hyphen-free years differ (the game key ignores the year entirely), and the
concrete Scenario E — same title and year under `tv` and `movie` — yields
two separate provider calls and two separate persistence PUTs. -/
theorem claim6_keys_independent :
    (∀ (k1 k2 : MKind) (t1 t2 y1 y2 : String),
      ('-' ∈ y1.data → False) → ('-' ∈ y2.data → False) →
      cacheKey k1 t1 y1 = cacheKey k2 t2 y2 →
      k1 = k2 ∧ t1 = t2 ∧ (k1 = MKind.game ∨ y1 = y2)) ∧
    countCall cfgDune.log tvDuneKey = 1 ∧
    countCall cfgDune.log mvDuneKey = 1 ∧
    countPersist cfgDune.log tvDuneKey = 1 ∧
    countPersist cfgDune.log mvDuneKey = 1 := by
  refine ⟨fun k1 k2 t1 t2 y1 y2 h1 h2 h => cacheKey_inj h1 h2 h, ?_, ?_, ?_, ?_⟩
    <;> decide

/-- C6 witness: the key-separation property applied at a concrete tuple. -/
theorem claim6_keys_independent_witness :
    MKind.movie = MKind.movie ∧ ("Dune" : String) = "Dune" ∧
      (MKind.movie = MKind.game ∨ ("2021" : String) = "2021") :=
  claim6_keys_independent.1 .movie .movie "Dune" "Dune" "2021" "2021"
    (by decide) (by decide) rfl

/-- C6 counterexample: distinct (kind, title, year) tuples whose keys
collide — `movie, "A-", "5"` and `movie, "A", "-5"` both key to
`movie-A--5`, so the two requests coalesce onto a single provider call and
the second caller's invocation just returns. -/
theorem claim6_counterexample :
    cacheKey .movie "A-" "5" = cacheKey .movie "A" "-5" ∧
    ((("A-" : String) = "A" ∧ ("5" : String) = "-5") → False) ∧
    countCall cfgHyph.log (cacheKey .movie "A-" "5") = 1 ∧
    tget cfgHyph.tasks 1 = some ⟨2, .done⟩ := by
  refine ⟨rfl, ?_, ?_, ?_⟩ <;> decide

/-- C3 (amended): persistence PUTs for a key happen exactly at found
provider responses plus successful game-joiner resumptions — found
responses themselves are at most one per window, no PUT happens on a miss
or failure, but each game late joiner that observes a successful shared
result re-persists it, so one successful game window with a joiner issues
two PUTs, as the concrete schedule shows. -/
theorem claim3_persistence_accounting :
    (∀ (reqs : List Req) (acts : List Act) (c : Config),
      exec (init reqs) acts = some c →
      ∀ k : String,
        countPersist c.log k =
          countRespFound c.log k + countJoinSucc c.log k ∧
        countRespFound c.log k ≤ countEvict c.log k + 1 ∧
        (countJoinSucc c.log k ≠ 0 → ∃ t, k = cacheKey .game t "")) ∧
    countPersist cfgHalo.log gmKey = 2 ∧
    countEvict cfgHalo.log gmKey = 0 := by
  refine ⟨fun reqs acts c h k => ?_, ?_, ?_⟩
  · have hw := wf_reach h
    exact ⟨hw.persistCount k, respFound_le_window hw k, hw.joinSuccGame k⟩
  · decide
  · decide

/-- C3 witness: the persistence accounting applied to the completed
concrete game window at its key. -/
theorem claim3_persistence_accounting_witness :
    countPersist cfgHalo.log gmKey =
        countRespFound cfgHalo.log gmKey + countJoinSucc cfgHalo.log gmKey ∧
      countRespFound cfgHalo.log gmKey ≤ countEvict cfgHalo.log gmKey + 1 ∧
      (countJoinSucc cfgHalo.log gmKey ≠ 0 →
        ∃ t, gmKey = cacheKey .game t "") :=
  claim3_persistence_accounting.1 haloReqs haloActs cfgHalo rfl gmKey

/-- C3 counterexample: one coalescing window of the game fetcher with one
successful resolution and one late joiner issues two persistence PUTs (the
fetch job's and the joiner's re-persist), with no eviction in between. -/
theorem claim3_counterexample :
    exec (init haloReqs) haloActs = some cfgHalo ∧
    countPersist cfgHalo.log gmKey = 2 ∧
    countRespFound cfgHalo.log gmKey = 1 ∧
    countJoinSucc cfgHalo.log gmKey = 1 ∧
    countEvict cfgHalo.log gmKey = 0 :=
  ⟨rfl, by decide, by decide, by decide, by decide⟩

/-- C4 (amended): the game fetcher really does publish its shared promise
(and the in-progress mark) before suspending — every live game fetch job's
promise is in the shared queue, still pending, with the key marked — while
the OMDB-style fetchers only set the in-progress flag before calling the
provider: an in-flight OMDB fetch always has its key marked (so no
duplicate call can start) but publishes no promise until resolution. -/
theorem claim4_publish_before_fetch :
    ∀ (reqs : List Req) (acts : List Act) (c : Config),
      exec (init reqs) acts = some c →
      (∀ tk : Task, tk ∈ c.tasks → ∀ (t : String) (p : Nat),
        tk.st = .jFetch t p →
        alook c.queue (cacheKey .game t "") = some p ∧
        cacheKey .game t "" ∈ c.inProg ∧
        alook c.promises p = some .pending) ∧
      (∀ tk : Task, tk ∈ c.tasks → ∀ (mk : MKind) (t y : String),
        tk.st = .oFetch mk t y →
        cacheKey mk t y ∈ c.inProg ∧ cntNet c (cacheKey mk t y) = 1) := by
  intro reqs acts c h
  have hw := wf_reach h
  constructor
  · intro tk htk t p hst
    obtain ⟨hpend, tj, htj, hgown⟩ := hw.jobLink tk htk t p (Or.inl hst)
    have hq := hw.gOwnQueue tj htj t p hgown
    exact ⟨hq, hw.queueInProg _ p hq, hpend⟩
  · intro tk htk mk t y hst
    have howner : 0 < cntOwner c (cacheKey mk t y) := by
      unfold cntOwner
      refine countP_pos_of_mem htk ?_
      show decide (ownerKey tk.st = some (cacheKey mk t y)) = true
      rw [hst]
      simp [ownerKey]
    have hot := hw.ownerTimer (cacheKey mk t y)
    have hin : cacheKey mk t y ∈ c.inProg := by
      by_cases hk : cacheKey mk t y ∈ c.inProg
      · exact hk
      · rw [if_neg hk] at hot
        omega
    have hnet : 0 < cntNet c (cacheKey mk t y) := by
      unfold cntNet
      refine countP_pos_of_mem htk ?_
      show decide (netKey tk.st = some (cacheKey mk t y)) = true
      rw [hst]
      simp [netKey]
    have hle := hw.netLe (cacheKey mk t y)
    exact ⟨hin, by omega⟩

/-- C4 witness: the publication discipline applied to the mixed concrete
scenario, at its live game fetch job and its in-flight OMDB fetch. -/
theorem claim4_publish_before_fetch_witness :
    (alook cfgMix.queue (cacheKey .game "Halo" "") = some 0 ∧
      cacheKey .game "Halo" "" ∈ cfgMix.inProg ∧
      alook cfgMix.promises 0 = some .pending) ∧
    (cacheKey .movie "Inception" "2010" ∈ cfgMix.inProg ∧
      cntNet cfgMix (cacheKey .movie "Inception" "2010") = 1) := by
  have h := claim4_publish_before_fetch mixReqs [.run 0, .run 1] cfgMix rfl
  exact ⟨h.1 ⟨2, .jFetch "Halo" 0⟩ (by decide) "Halo" 0 rfl,
    h.2 ⟨1, .oFetch .movie "Inception" "2010"⟩ (by decide) .movie
      "Inception" "2010" rfl⟩

/-- C4 counterexample: with an OMDB fetch in flight, the shared queue
holds no promise for the key — a second caller arriving mid-flight finds
the in-progress mark but nothing to subscribe to and just returns. -/
theorem claim4_counterexample :
    mvKey ∈ cfgTwin.inProg ∧
    tget cfgTwin.tasks 0 = some ⟨1, .oFetch .movie "Inception" "2010"⟩ ∧
    alook cfgTwin.queue mvKey = none ∧
    tget cfgTwin.tasks 1 = some ⟨2, .done⟩ := by
  refine ⟨?_, ?_, ?_, ?_⟩ <;> decide

theorem countPersist_append_resp (l : List Ev) (k k2 : String) (o : ROut) :
    countPersist (l ++ [.resp k2 o]) k = countPersist l k := by
  simp [countPersist, List.countP_append, List.countP_cons, isPersist]

theorem alook_cons_self {κ β : Type} [DecidableEq κ] (q : List (κ × β))
    (k : κ) (v : β) : alook ((k, v) :: q) k = some v := by
  simp [alook]

/-- C7 (amended): every non-found provider outcome is absorbed inside the
fetcher — the invocation completes normally (so nothing propagates to the
caller), no persistence PUT is issued, and no retry is started.  On an
OMDB transport exception a `null`-resolved promise is stored for the key;
on OMDB HTTP errors and misses nothing is stored at all, so waiters never
receive the discriminated outcome.  A RAWG non-found outcome resolves the
shared promise with `null`, which joiners do observe. -/
theorem claim7_failure_absorbed :
    (∀ (c : Config) (i row : Nat) (mk : MKind) (t y : String)
      (r : OmdbResp),
      tget c.tasks i = some ⟨row, .oFetch mk t y⟩ →
      (∀ u, omdbClass r ≠ .found u) →
      ∃ c2, step c (.respO i r) = some c2 ∧
        tget c2.tasks i = some ⟨row, .done⟩ ∧
        c2.log = c.log ++ [.resp (cacheKey mk t y) (omdbClass r)] ∧
        countPersist c2.log (cacheKey mk t y) =
          countPersist c.log (cacheKey mk t y) ∧
        c2.timers = c.timers ++ [(1000, cacheKey mk t y)] ∧
        (r = .netThrow →
          alook c2.queue (cacheKey mk t y) = some c.nextP ∧
          alook c2.promises c.nextP = some (.sres none)) ∧
        (r ≠ .netThrow →
          c2.queue = c.queue ∧ c2.promises = c.promises)) ∧
    (∀ (c : Config) (i row pid : Nat) (t : String) (r : RawgResp),
      tget c.tasks i = some ⟨row, .jFetch t pid⟩ →
      (∀ u, rawgClass r ≠ .found u) →
      ∃ c2, step c (.respG i r) = some c2 ∧
        tget c2.tasks i = some ⟨row, .done⟩ ∧
        alook c2.promises pid = some (.gres none) ∧
        c2.log = c.log ++ [.resp (cacheKey .game t "") (rawgClass r)] ∧
        countPersist c2.log (cacheKey .game t "") =
          countPersist c.log (cacheKey .game t "") ∧
        c2.queue = c.queue ∧ c2.timers = c.timers) := by
  constructor
  · intro c i row mk t y r htk hnf
    cases r with
    | notOk s =>
      have hstep : step c (.respO i (.notOk s)) = some { c with
          tasks := upd c.tasks i ⟨row, .done⟩
          timers := c.timers ++ [(1000, cacheKey mk t y)]
          log := c.log ++ [.resp (cacheKey mk t y) .fail] } := by
        simp [step, htk]
      refine ⟨_, hstep, tget_upd_self _ htk, rfl,
        countPersist_append_resp _ _ _ _, rfl, ?_, fun _ => ⟨rfl, rfl⟩⟩
      intro habs
      simp at habs
    | okData err poster =>
      by_cases herr : (strTruthy err).isSome = true
      · have hcls : omdbClass (.okData err poster) = .miss := by
          simp [omdbClass, herr]
        rw [hcls]
        have hstep : step c (.respO i (.okData err poster)) = some { c with
            tasks := upd c.tasks i ⟨row, .done⟩
            timers := c.timers ++ [(1000, cacheKey mk t y)]
            log := c.log ++ [.resp (cacheKey mk t y) .miss] } := by
          simp [step, htk, herr]
        refine ⟨_, hstep, tget_upd_self _ htk, rfl,
          countPersist_append_resp _ _ _ _, rfl, ?_, fun _ => ⟨rfl, rfl⟩⟩
        intro habs
        simp at habs
      · simp only [Bool.not_eq_true] at herr
        cases hfu : omdbFoundUrl poster with
        | some u =>
          have : omdbClass (.okData err poster) = .found u := by
            simp [omdbClass, herr, hfu]
          exact absurd this (hnf u)
        | none =>
          have hcls : omdbClass (.okData err poster) = .miss := by
            simp [omdbClass, herr, hfu]
          rw [hcls]
          have hstep : step c (.respO i (.okData err poster)) =
              some { c with
                tasks := upd c.tasks i ⟨row, .done⟩
                timers := c.timers ++ [(1000, cacheKey mk t y)]
                log := c.log ++ [.resp (cacheKey mk t y) .miss] } := by
            simp [step, htk, herr, hfu]
          refine ⟨_, hstep, tget_upd_self _ htk, rfl,
            countPersist_append_resp _ _ _ _, rfl, ?_, fun _ => ⟨rfl, rfl⟩⟩
          intro habs
          simp at habs
    | netThrow =>
      have hstep : step c (.respO i .netThrow) = some { c with
          tasks := upd c.tasks i ⟨row, .done⟩
          promises := (c.nextP, .sres none) :: c.promises
          queue := aset c.queue (cacheKey mk t y) c.nextP
          timers := c.timers ++ [(1000, cacheKey mk t y)]
          nextP := c.nextP + 1
          log := c.log ++ [.resp (cacheKey mk t y) .fail] } := by
        simp [step, htk]
      exact ⟨_, hstep, tget_upd_self _ htk, rfl,
        countPersist_append_resp _ _ _ _, rfl,
        fun _ => ⟨alook_aset_self _ _ _, alook_cons_self _ _ _⟩,
        fun habs => absurd rfl habs⟩
  · intro c i row pid t r htk hnf
    cases r with
    | notOk s =>
      have hstep : step c (.respG i (.notOk s)) = some { c with
          tasks := upd c.tasks i ⟨row, .done⟩
          promises := aset c.promises pid (.gres none)
          log := c.log ++ [.resp (cacheKey .game t "") .fail] } := by
        simp [step, htk]
      exact ⟨_, hstep, tget_upd_self _ htk, alook_aset_self _ _ _, rfl,
        countPersist_append_resp _ _ _ _, rfl, rfl⟩
    | okData err results =>
      by_cases herr : (strTruthy err).isSome = true
      · have hcls : rawgClass (.okData err results) = .miss := by
          simp [rawgClass, herr]
        rw [hcls]
        have hstep : step c (.respG i (.okData err results)) =
            some { c with
              tasks := upd c.tasks i ⟨row, .done⟩
              promises := aset c.promises pid (.gres none)
              log := c.log ++ [.resp (cacheKey .game t "") .miss] } := by
          simp [step, htk, herr]
        exact ⟨_, hstep, tget_upd_self _ htk, alook_aset_self _ _ _, rfl,
          countPersist_append_resp _ _ _ _, rfl, rfl⟩
      · simp only [Bool.not_eq_true] at herr
        cases hres : results.head? with
        | none =>
          have hcls : rawgClass (.okData err results) = .miss := by
            simp [rawgClass, herr, hres]
          rw [hcls]
          have hstep : step c (.respG i (.okData err results)) =
              some { c with
                tasks := upd c.tasks i ⟨row, .done⟩
                promises := aset c.promises pid (.gres none)
                log := c.log ++
                  [.resp (cacheKey .game t "") .miss] } := by
            simp [step, htk, herr, hres]
          exact ⟨_, hstep, tget_upd_self _ htk, alook_aset_self _ _ _,
            rfl, countPersist_append_resp _ _ _ _, rfl, rfl⟩
        | some g =>
          cases hbg : strTruthy g.background_image with
          | some u =>
            have : rawgClass (.okData err results) = .found u := by
              simp [rawgClass, herr, hres, hbg]
            exact absurd this (hnf u)
          | none =>
            have hcls : rawgClass (.okData err results) = .miss := by
              simp [rawgClass, herr, hres, hbg]
            rw [hcls]
            have hstep : step c (.respG i (.okData err results)) =
                some { c with
                  tasks := upd c.tasks i ⟨row, .done⟩
                  promises := aset c.promises pid (.gres none)
                  log := c.log ++
                    [.resp (cacheKey .game t "") .miss] } := by
              simp [step, htk, herr, hres, hbg]
            exact ⟨_, hstep, tget_upd_self _ htk, alook_aset_self _ _ _,
              rfl, countPersist_append_resp _ _ _ _, rfl, rfl⟩
    | netThrow =>
      have hstep : step c (.respG i .netThrow) = some { c with
          tasks := upd c.tasks i ⟨row, .done⟩
          promises := aset c.promises pid (.gres none)
          log := c.log ++ [.resp (cacheKey .game t "") .fail] } := by
        simp [step, htk]
      exact ⟨_, hstep, tget_upd_self _ htk, alook_aset_self _ _ _, rfl,
        countPersist_append_resp _ _ _ _, rfl, rfl⟩

/-- C7 witness: the failure paths applied to the mixed concrete scenario —
a 429 delivered to the in-flight movie fetch and a transport exception
delivered to the live game fetch job. -/
theorem claim7_failure_absorbed_witness :
    (∃ c2, step cfgMix (.respO 0 (.notOk 429)) = some c2 ∧
      tget c2.tasks 0 = some ⟨1, .done⟩ ∧
      c2.log = cfgMix.log ++
        [.resp (cacheKey .movie "Inception" "2010")
          (omdbClass (.notOk 429))] ∧
      countPersist c2.log (cacheKey .movie "Inception" "2010") =
        countPersist cfgMix.log (cacheKey .movie "Inception" "2010") ∧
      c2.timers = cfgMix.timers ++
        [(1000, cacheKey .movie "Inception" "2010")] ∧
      (OmdbResp.notOk 429 = .netThrow →
        alook c2.queue (cacheKey .movie "Inception" "2010") =
          some cfgMix.nextP ∧
        alook c2.promises cfgMix.nextP = some (.sres none)) ∧
      (OmdbResp.notOk 429 ≠ .netThrow →
        c2.queue = cfgMix.queue ∧ c2.promises = cfgMix.promises)) ∧
    (∃ c2, step cfgMix (.respG 2 .netThrow) = some c2 ∧
      tget c2.tasks 2 = some ⟨2, .done⟩ ∧
      alook c2.promises 0 = some (.gres none) ∧
      c2.log = cfgMix.log ++
        [.resp (cacheKey .game "Halo" "") (rawgClass .netThrow)] ∧
      countPersist c2.log (cacheKey .game "Halo" "") =
        countPersist cfgMix.log (cacheKey .game "Halo" "") ∧
      c2.queue = cfgMix.queue ∧ c2.timers = cfgMix.timers) :=
  ⟨claim7_failure_absorbed.1 cfgMix 0 1 .movie "Inception" "2010"
      (.notOk 429) (by decide) (by intro u h; simp [omdbClass] at h),
    claim7_failure_absorbed.2 cfgMix 2 2 0 "Halo" .netThrow (by decide)
      (by intro u h; simp [rawgClass] at h)⟩

/-- C7 counterexample: after an OMDB rate-limit failure there is no shared
future at all — the promise heap is empty and the queue holds nothing for
the key — so the waiter (already returned) never receives the
discriminated Failed outcome the spec promises. -/
theorem claim7_counterexample :
    exec (init twinReqs) [.run 0, .run 1, .respO 0 (.notOk 429)] =
      some cfgFail ∧
    alook cfgFail.queue mvKey = none ∧
    cfgFail.promises = [] ∧
    tget cfgFail.tasks 1 = some ⟨2, .done⟩ ∧
    List.countP (isDisplay 2) cfgFail.log = 0 ∧
    countResp cfgFail.log mvKey = 1 :=
  ⟨rfl, by decide, by decide, by decide, by decide, by decide⟩

/-- C8: the save settlement ignores the success flag — `saveMoviePosterUrl`
catches and logs its own failure — so the resumption after a Found lookup
is identical whether the PUT succeeded or failed: the row is displayed
with the found url, the queue receives the url-resolved promise, and the
invocation completes normally. -/
theorem claim8_save_failure_tolerated :
    ∀ (c : Config) (i row : Nat) (mk : MKind) (t y url : String),
      tget c.tasks i = some ⟨row, .oSave mk t y url⟩ →
      (∀ b1 b2 : Bool,
        step c (.saveDone i b1) = step c (.saveDone i b2)) ∧
      ∀ ok : Bool, ∃ c2, step c (.saveDone i ok) = some c2 ∧
        c2.log = c.log ++ [.display row url] ∧
        alook c2.queue (cacheKey mk t y) = some c.nextP ∧
        alook c2.promises c.nextP = some (.sres (some url)) ∧
        tget c2.tasks i = some ⟨row, .done⟩ ∧
        c2.timers = c.timers ++ [(1000, cacheKey mk t y)] := by
  intro c i row mk t y url htk
  constructor
  · intro b1 b2
    rfl
  · intro ok
    have hstep : step c (.saveDone i ok) = some { c with
        tasks := upd c.tasks i ⟨row, .done⟩
        promises := (c.nextP, .sres (some url)) :: c.promises
        queue := aset c.queue (cacheKey mk t y) c.nextP
        timers := c.timers ++ [(1000, cacheKey mk t y)]
        nextP := c.nextP + 1
        log := c.log ++ [.display row url] } := by
      simp [step, htk]
    exact ⟨_, hstep, rfl, alook_aset_self _ _ _, alook_cons_self _ _ _,
      tget_upd_self _ htk, rfl⟩

/-- C8 witness: the save-settlement facts applied to the concrete window
suspended on its PUT. -/
theorem claim8_save_failure_tolerated_witness :
    (∀ b1 b2 : Bool,
      step cfgSave (.saveDone 0 b1) = step cfgSave (.saveDone 0 b2)) ∧
    ∀ ok : Bool, ∃ c2, step cfgSave (.saveDone 0 ok) = some c2 ∧
      c2.log = cfgSave.log ++ [.display 1 "u.jpg"] ∧
      alook c2.queue (cacheKey .movie "Inception" "2010") =
        some cfgSave.nextP ∧
      alook c2.promises cfgSave.nextP = some (.sres (some "u.jpg")) ∧
      tget c2.tasks 0 = some ⟨1, .done⟩ ∧
      c2.timers = cfgSave.timers ++
        [(1000, cacheKey .movie "Inception" "2010")] :=
  claim8_save_failure_tolerated cfgSave 0 1 .movie "Inception" "2010"
    "u.jpg" (by decide)

/-- C10: the double-check branch of `fetchVideoGameMetadata` is
unreachable from any reachable state — whenever the key is not marked
in-progress the queue holds nothing for it (so the re-read after creating
the fetch promise finds no existing promise and the owner branch is
taken, as the third conjunct states operationally), and the queue never
holds more than one promise per key. -/
theorem claim10_doublecheck_unreachable :
    ∀ (reqs : List Req) (acts : List Act) (c : Config),
      exec (init reqs) acts = some c →
      (∀ t : String, cacheKey .game t "" ∉ c.inProg →
        alook c.queue (cacheKey .game t "") = none) ∧
      (∀ k : String, c.queue.countP (fun e => decide (e.1 = k)) ≤ 1) ∧
      (∀ (i row : Nat) (t : String),
        tget c.tasks i = some ⟨row, .gStart t⟩ →
        cacheKey .game t "" ∉ c.inProg →
        step c (.run i) = some { c with
          tasks := upd c.tasks i ⟨row, .gOwn t c.nextP⟩ ++
            [⟨row, .jFetch t c.nextP⟩]
          promises := (c.nextP, .pending) :: c.promises
          queue := aset c.queue (cacheKey .game t "") c.nextP
          inProg := sAdd c.inProg (cacheKey .game t "")
          nextP := c.nextP + 1
          log := c.log ++ [.call (cacheKey .game t "")] }) := by
  intro reqs acts c h
  have hw := wf_reach h
  have hnone : ∀ t : String, cacheKey .game t "" ∉ c.inProg →
      alook c.queue (cacheKey .game t "") = none := by
    intro t hnot
    cases hq : alook c.queue (cacheKey .game t "") with
    | none => rfl
    | some pid => exact absurd (hw.queueInProg _ pid hq) hnot
  refine ⟨hnone, hw.queueOnce, ?_⟩
  intro i row t htk hnot
  simp [step, htk, hnot, hnone t hnot]

/-- C10 witness: the owner branch taken from the fresh single-game-request
state. -/
theorem claim10_doublecheck_unreachable_witness :
    step (init soloGame) (.run 0) = some { (init soloGame) with
      tasks := upd (init soloGame).tasks 0
          ⟨1, .gOwn "Halo" (init soloGame).nextP⟩ ++
        [⟨1, .jFetch "Halo" (init soloGame).nextP⟩]
      promises := ((init soloGame).nextP, .pending) ::
        (init soloGame).promises
      queue := aset (init soloGame).queue (cacheKey .game "Halo" "")
        (init soloGame).nextP
      inProg := sAdd (init soloGame).inProg (cacheKey .game "Halo" "")
      nextP := (init soloGame).nextP + 1
      log := (init soloGame).log ++ [.call (cacheKey .game "Halo" "")] } :=
  (claim10_doublecheck_unreachable soloGame [] (init soloGame) rfl).2.2
    0 1 "Halo" (by decide) (by decide)

theorem phaseOk_refl (p : KPhase) : phaseOk p p = true := by
  cases p <;> rfl

theorem phase_absent {c : Config} {k : String} (h : k ∉ c.inProg) :
    phase c k = .absent := by
  unfold phase
  rw [if_neg h]

theorem phase_inflight {c : Config} {k : String} (h1 : k ∈ c.inProg)
    (h2 : cntTimer c k = 0) : phase c k = .inFlight := by
  unfold phase
  rw [if_pos h1, h2]
  simp

theorem phase_resolved {c : Config} {k : String} (h1 : k ∈ c.inProg)
    (h2 : 0 < cntTimer c k) : phase c k = .resolvedP := by
  unfold phase
  rw [if_pos h1, if_pos h2]

theorem phase_inflight_inv {c : Config} {k : String}
    (h : phase c k = .inFlight) : k ∈ c.inProg ∧ cntTimer c k = 0 := by
  unfold phase at h
  by_cases h1 : k ∈ c.inProg
  · rw [if_pos h1] at h
    by_cases h2 : 0 < cntTimer c k
    · rw [if_pos h2] at h
      exact absurd h (by simp)
    · exact ⟨h1, by omega⟩
  · rw [if_neg h1] at h
    exact absurd h (by simp)

theorem phase_resolved_inv {c : Config} {k : String}
    (h : phase c k = .resolvedP) : k ∈ c.inProg ∧ 0 < cntTimer c k := by
  unfold phase at h
  by_cases h1 : k ∈ c.inProg
  · rw [if_pos h1] at h
    by_cases h2 : 0 < cntTimer c k
    · exact ⟨h1, h2⟩
    · rw [if_neg h2] at h
      exact absurd h (by simp)
  · rw [if_neg h1] at h
    exact absurd h (by simp)

theorem phase_congr {c c2 : Config} (k : String)
    (h1 : (k ∈ c2.inProg) ↔ (k ∈ c.inProg))
    (h2 : cntTimer c2 k = cntTimer c k) : phase c2 k = phase c k := by
  unfold phase
  by_cases hm : k ∈ c.inProg
  · rw [if_pos hm, if_pos (h1.mpr hm), h2]
  · rw [if_neg hm, if_neg (fun hmm => hm (h1.mp hmm))]

/-- Classification of one step's effect on the two shared per-key
structures: either in-progress set and timer list are both untouched, or a
fresh window opens for one absent key, or an eviction timer is scheduled
for one open, timer-free key (a settle), or a timer fires. -/
theorem step_window {c c2 : Config} (hw : WF c) {a : Act}
    (h : step c a = some c2) :
    (c2.inProg = c.inProg ∧ c2.timers = c.timers) ∨
    (∃ key, key ∉ c.inProg ∧ cntTimer c key = 0 ∧
      c2.inProg = sAdd c.inProg key ∧ c2.timers = c.timers) ∨
    (∃ key, key ∈ c.inProg ∧ cntTimer c key = 0 ∧
      c2.inProg = c.inProg ∧ c2.timers = c.timers ++ [(1000, key)]) ∨
    (∃ key, a = .fire key ∧ key ∈ c.inProg ∧ 0 < cntTimer c key ∧
      c2.inProg = sDel c.inProg key ∧
      c2.timers = c.timers.filter (fun e => e.2 ≠ key)) := by
  cases a with
  | run i =>
    simp only [step] at h
    cases htk : tget c.tasks i with
    | none =>
      rw [htk] at h
      simp at h
    | some tk =>
      rw [htk] at h
      obtain ⟨row, st⟩ := tk
      cases st with
      | oStart mk t y =>
        simp only [] at h
        by_cases hin : cacheKey mk t y ∈ c.inProg
        · rw [if_pos hin] at h
          cases hq : alook c.queue (cacheKey mk t y) with
          | some pid =>
            rw [hq] at h
            injection h with h
            subst h
            exact Or.inl ⟨rfl, rfl⟩
          | none =>
            rw [hq] at h
            injection h with h
            subst h
            exact Or.inl ⟨rfl, rfl⟩
        · rw [if_neg hin] at h
          injection h with h
          subst h
          have hbit := hw.ownerTimer (cacheKey mk t y)
          rw [if_neg hin] at hbit
          exact Or.inr (Or.inl ⟨cacheKey mk t y, hin, by omega, rfl, rfl⟩)
      | oJoin pid =>
        simp only [] at h
        cases hp : alook c.promises pid with
        | none =>
          rw [hp] at h
          simp at h
        | some pv =>
          rw [hp] at h
          cases pv with
          | pending => exact Option.noConfusion h
          | gres v => exact Option.noConfusion h
          | sres v =>
            simp only [] at h
            cases hv : strTruthy v with
            | some url =>
              rw [hv] at h
              injection h with h
              subst h
              exact Or.inl ⟨rfl, rfl⟩
            | none =>
              rw [hv] at h
              injection h with h
              subst h
              exact Or.inl ⟨rfl, rfl⟩
      | gStart t =>
        simp only [] at h
        by_cases hin : cacheKey .game t "" ∈ c.inProg
        · rw [if_pos hin] at h
          cases hq : alook c.queue (cacheKey .game t "") with
          | some pid =>
            rw [hq] at h
            injection h with h
            subst h
            exact Or.inl ⟨rfl, rfl⟩
          | none =>
            rw [hq] at h
            injection h with h
            subst h
            exact Or.inl ⟨rfl, rfl⟩
        · rw [if_neg hin] at h
          cases hq : alook c.queue (cacheKey .game t "") with
          | some pid' => exact absurd (hw.queueInProg _ _ hq) hin
          | none =>
            rw [hq] at h
            injection h with h
            subst h
            have hbit := hw.ownerTimer (cacheKey .game t "")
            rw [if_neg hin] at hbit
            exact Or.inr (Or.inl
              ⟨cacheKey .game t "", hin, by omega, rfl, rfl⟩)
      | gJoin t pid =>
        simp only [] at h
        cases hp : alook c.promises pid with
        | none =>
          rw [hp] at h
          simp at h
        | some pv =>
          rw [hp] at h
          cases pv with
          | pending => exact Option.noConfusion h
          | sres v => exact Option.noConfusion h
          | gres v =>
            cases v with
            | none =>
              injection h with h
              subst h
              exact Or.inl ⟨rfl, rfl⟩
            | some r =>
              simp only [] at h
              by_cases hcov : r.cover_art_url = ""
              · rw [if_pos hcov] at h
                injection h with h
                subst h
                exact Or.inl ⟨rfl, rfl⟩
              · rw [if_neg hcov] at h
                injection h with h
                subst h
                exact Or.inl ⟨rfl, rfl⟩
      | gOwn t pid =>
        simp only [] at h
        cases hp : alook c.promises pid with
        | none =>
          rw [hp] at h
          simp at h
        | some pv =>
          rw [hp] at h
          cases pv with
          | pending => exact Option.noConfusion h
          | sres v => exact Option.noConfusion h
          | gres v =>
            injection h with h
            subst h
            obtain ⟨hin2, _, htim2⟩ := gown_pre hw htk
            exact Or.inr (Or.inr (Or.inl
              ⟨cacheKey .game t "", hin2, htim2, rfl, rfl⟩))
      | oFetch mk t y => exact Option.noConfusion h
      | oSave mk t y url => exact Option.noConfusion h
      | gJoinSave t r => exact Option.noConfusion h
      | jFetch t pid => exact Option.noConfusion h
      | jSave t pid r => exact Option.noConfusion h
      | done => exact Option.noConfusion h
  | respO i r =>
    simp only [step] at h
    cases htk : tget c.tasks i with
    | none =>
      rw [htk] at h
      simp at h
    | some tk =>
      rw [htk] at h
      obtain ⟨row, st⟩ := tk
      cases st with
      | oFetch mk t y =>
        simp only [] at h
        have hpre := ofetch_pre hw htk
        cases r with
        | notOk s =>
          injection h with h
          subst h
          exact Or.inr (Or.inr (Or.inl
            ⟨cacheKey mk t y, hpre.1, hpre.2.2.1, rfl, rfl⟩))
        | okData err poster =>
          simp only [] at h
          by_cases he : (strTruthy err).isSome = true
          · rw [if_pos he] at h
            injection h with h
            subst h
            exact Or.inr (Or.inr (Or.inl
              ⟨cacheKey mk t y, hpre.1, hpre.2.2.1, rfl, rfl⟩))
          · rw [if_neg he] at h
            cases hfu : omdbFoundUrl poster with
            | some url =>
              rw [hfu] at h
              injection h with h
              subst h
              exact Or.inl ⟨rfl, rfl⟩
            | none =>
              rw [hfu] at h
              injection h with h
              subst h
              exact Or.inr (Or.inr (Or.inl
                ⟨cacheKey mk t y, hpre.1, hpre.2.2.1, rfl, rfl⟩))
        | netThrow =>
          injection h with h
          subst h
          exact Or.inr (Or.inr (Or.inl
            ⟨cacheKey mk t y, hpre.1, hpre.2.2.1, rfl, rfl⟩))
      | oStart mk t y => exact Option.noConfusion h
      | oJoin pid => exact Option.noConfusion h
      | oSave mk t y url => exact Option.noConfusion h
      | gStart t => exact Option.noConfusion h
      | gJoin t pid => exact Option.noConfusion h
      | gJoinSave t r => exact Option.noConfusion h
      | gOwn t pid => exact Option.noConfusion h
      | jFetch t pid => exact Option.noConfusion h
      | jSave t pid r => exact Option.noConfusion h
      | done => exact Option.noConfusion h
  | respG i r =>
    simp only [step] at h
    cases htk : tget c.tasks i with
    | none =>
      rw [htk] at h
      simp at h
    | some tk =>
      rw [htk] at h
      obtain ⟨row, st⟩ := tk
      cases st with
      | jFetch t pid =>
        simp only [] at h
        cases r with
        | notOk s =>
          injection h with h
          subst h
          exact Or.inl ⟨rfl, rfl⟩
        | okData err results =>
          simp only [] at h
          by_cases he : (strTruthy err).isSome = true
          · rw [if_pos he] at h
            injection h with h
            subst h
            exact Or.inl ⟨rfl, rfl⟩
          · rw [if_neg he] at h
            cases hh : results.head? with
            | none =>
              rw [hh] at h
              injection h with h
              subst h
              exact Or.inl ⟨rfl, rfl⟩
            | some g =>
              rw [hh] at h
              simp only [] at h
              cases hb : strTruthy g.background_image with
              | some cover =>
                rw [hb] at h
                injection h with h
                subst h
                exact Or.inl ⟨rfl, rfl⟩
              | none =>
                rw [hb] at h
                injection h with h
                subst h
                exact Or.inl ⟨rfl, rfl⟩
        | netThrow =>
          injection h with h
          subst h
          exact Or.inl ⟨rfl, rfl⟩
      | oStart mk t y => exact Option.noConfusion h
      | oJoin pid => exact Option.noConfusion h
      | oFetch mk t y => exact Option.noConfusion h
      | oSave mk t y url => exact Option.noConfusion h
      | gStart t => exact Option.noConfusion h
      | gJoin t pid => exact Option.noConfusion h
      | gJoinSave t r => exact Option.noConfusion h
      | gOwn t pid => exact Option.noConfusion h
      | jSave t pid r => exact Option.noConfusion h
      | done => exact Option.noConfusion h
  | saveDone i ok =>
    simp only [step] at h
    cases htk : tget c.tasks i with
    | none =>
      rw [htk] at h
      simp at h
    | some tk =>
      rw [htk] at h
      obtain ⟨row, st⟩ := tk
      cases st with
      | oSave mk t y url =>
        injection h with h
        subst h
        obtain ⟨hin2, _, htim2⟩ := osave_pre hw htk
        exact Or.inr (Or.inr (Or.inl
          ⟨cacheKey mk t y, hin2, htim2, rfl, rfl⟩))
      | jSave t pid r =>
        injection h with h
        subst h
        exact Or.inl ⟨rfl, rfl⟩
      | gJoinSave t r =>
        injection h with h
        subst h
        exact Or.inl ⟨rfl, rfl⟩
      | oStart mk t y => exact Option.noConfusion h
      | oJoin pid => exact Option.noConfusion h
      | oFetch mk t y => exact Option.noConfusion h
      | gStart t => exact Option.noConfusion h
      | gJoin t pid => exact Option.noConfusion h
      | gOwn t pid => exact Option.noConfusion h
      | jFetch t pid => exact Option.noConfusion h
      | done => exact Option.noConfusion h
  | fire k =>
    simp only [step] at h
    by_cases hf : c.timers.any (fun e => e.2 = k) = true
    · rw [if_pos hf] at h
      injection h with h
      subst h
      obtain ⟨e, he, hek⟩ := List.any_eq_true.mp hf
      have htim : 0 < cntTimer c k := countP_pos_of_mem he hek
      have hbit := hw.ownerTimer k
      have hin : k ∈ c.inProg := by
        by_cases hk : k ∈ c.inProg
        · exact hk
        · rw [if_neg hk] at hbit
          omega
      exact Or.inr (Or.inr (Or.inr ⟨k, rfl, hin, htim, rfl, rfl⟩))
    · rw [if_neg hf] at h
      exact Option.noConfusion h

/-- The only step that removes a key from `posterFetchInProgress` is its
eviction timer firing. -/
theorem inProg_only_fire {c c2 : Config} (hw : WF c) {a : Act}
    (h : step c a = some c2) {k : String} (hin : k ∈ c.inProg)
    (hout : k ∉ c2.inProg) : a = .fire k := by
  rcases step_window hw h with ⟨h1, _⟩ | ⟨key, _, _, h1, _⟩ |
    ⟨key, _, _, h1, _⟩ | ⟨key, ha, _, _, h1, _⟩
  · rw [h1] at hout
    exact absurd hin hout
  · rw [h1] at hout
    exact absurd (mem_sAdd.mpr (Or.inr hin)) hout
  · rw [h1] at hout
    exact absurd hin hout
  · rw [h1] at hout
    by_cases hk : k = key
    · subst hk
      exact ha
    · exact absurd (mem_sDel.mpr ⟨hin, hk⟩) hout

/-- Every step moves every key along the spec's per-key state machine. -/
theorem phase_step {c c2 : Config} (hw : WF c) {a : Act}
    (h : step c a = some c2) (k : String) :
    phaseOk (phase c k) (phase c2 k) = true := by
  rcases step_window hw h with ⟨h1, h2⟩ | ⟨key, hk1, hk2, h1, h2⟩ |
    ⟨key, hk1, hk2, h1, h2⟩ | ⟨key, _, hk1, hk2, h1, h2⟩
  · have he : phase c2 k = phase c k :=
      phase_congr k (by rw [h1]) (by unfold cntTimer; rw [h2])
    rw [he]
    exact phaseOk_refl _
  · by_cases hkk : k = key
    · subst hkk
      have hp1 : phase c k = .absent := phase_absent hk1
      have hm2 : k ∈ c2.inProg := by
        rw [h1]
        exact mem_sAdd.mpr (Or.inl rfl)
      have ht2 : cntTimer c2 k = 0 := by
        unfold cntTimer
        rw [h2]
        exact hk2
      rw [hp1, phase_inflight hm2 ht2]
      rfl
    · have he : phase c2 k = phase c k :=
        phase_congr k
          (by
            rw [h1]
            exact ⟨fun hm => (mem_sAdd.mp hm).resolve_left hkk,
              fun hm => mem_sAdd.mpr (Or.inr hm)⟩)
          (by unfold cntTimer; rw [h2])
      rw [he]
      exact phaseOk_refl _
  · by_cases hkk : k = key
    · subst hkk
      have hp1 : phase c k = .inFlight := phase_inflight hk1 hk2
      have hm2 : k ∈ c2.inProg := by
        rw [h1]
        exact hk1
      have ht2 : 0 < cntTimer c2 k := by
        unfold cntTimer
        rw [h2, List.countP_append]
        simp [List.countP_cons]
      rw [hp1, phase_resolved hm2 ht2]
      rfl
    · have hne : ¬ (((1000, key) : Nat × String).2 = k) :=
        fun hh => hkk hh.symm
      have he : phase c2 k = phase c k :=
        phase_congr k (by rw [h1])
          (by
            unfold cntTimer
            rw [h2, List.countP_append]
            simp [List.countP_cons, hne])
      rw [he]
      exact phaseOk_refl _
  · by_cases hkk : k = key
    · subst hkk
      have hp1 : phase c k = .resolvedP := phase_resolved hk1 hk2
      have hm2 : k ∉ c2.inProg := by
        rw [h1]
        intro hmm
        exact (mem_sDel.mp hmm).2 rfl
      rw [hp1, phase_absent hm2]
      rfl
    · have he : phase c2 k = phase c k :=
        phase_congr k
          (by
            rw [h1]
            exact ⟨fun hm => (mem_sDel.mp hm).1,
              fun hm => mem_sDel.mpr ⟨hm, hkk⟩⟩)
          (by
            unfold cntTimer
            rw [h2]
            exact countP_val_filter_ne c.timers hkk)
      rw [he]
      exact phaseOk_refl _

/-- C5: every pending eviction is a 1000 ms timer; the only step removing
a key from the in-progress set is its timer firing (never the settling
itself); firing deletes the key from both tables and logs the eviction;
and a request finding its key absent starts a brand-new provider call —
concretely, failure then eviction then a same-key request yields a second
call. -/
theorem claim5_grace_eviction :
    (∀ (reqs : List Req) (acts : List Act) (c : Config),
      exec (init reqs) acts = some c →
      (∀ e ∈ c.timers, e.1 = 1000) ∧
      (∀ (a : Act) (c2 : Config), step c a = some c2 →
        ∀ k : String, k ∈ c.inProg → k ∉ c2.inProg → a = .fire k) ∧
      (∀ (k : String) (c2 : Config), step c (.fire k) = some c2 →
        k ∉ c2.inProg ∧ alook c2.queue k = none ∧
        countEvict c2.log k = countEvict c.log k + 1) ∧
      (∀ (i row : Nat) (mk : MKind) (t y : String),
        tget c.tasks i = some ⟨row, .oStart mk t y⟩ →
        cacheKey mk t y ∉ c.inProg →
        ∃ c2, step c (.run i) = some c2 ∧
          countCall c2.log (cacheKey mk t y) =
            countCall c.log (cacheKey mk t y) + 1)) ∧
    countCall cfgRefetch.log mvKey = 2 ∧
    countEvict cfgRefetch.log mvKey = 1 := by
  refine ⟨fun reqs acts c h => ?_, by decide, by decide⟩
  have hw := wf_reach h
  refine ⟨hw.timers1000,
    fun a c2 hstep k hin hout => inProg_only_fire hw hstep hin hout,
    ?_, ?_⟩
  · intro k c2 hstep
    simp only [step] at hstep
    by_cases hf : c.timers.any (fun e => e.2 = k) = true
    · rw [if_pos hf] at hstep
      injection hstep with hstep
      subst hstep
      refine ⟨?_, alook_adel_self _ _, ?_⟩
      · intro hmm
        exact (mem_sDel.mp hmm).2 rfl
      · show countEvict (c.log ++ [.evict k]) k = countEvict c.log k + 1
        unfold countEvict
        rw [List.countP_append]
        simp [List.countP_cons, isEvict]
    · rw [if_neg hf] at hstep
      exact Option.noConfusion hstep
  · intro i row mk t y htk hnot
    have hstep : step c (.run i) = some { c with
        inProg := sAdd c.inProg (cacheKey mk t y)
        tasks := upd c.tasks i ⟨row, .oFetch mk t y⟩
        log := c.log ++ [.call (cacheKey mk t y)] } := by
      simp [step, htk, hnot]
    refine ⟨_, hstep, ?_⟩
    show countCall (c.log ++ [.call (cacheKey mk t y)]) _ = _
    unfold countCall
    rw [List.countP_append]
    simp [List.countP_cons, isCall]

/-- C5 witness: firing the concrete settled window's timer evicts the key
from both tables and logs the eviction. -/
theorem claim5_grace_eviction_witness :
    mvKey ∉ cfgEvicted.inProg ∧ alook cfgEvicted.queue mvKey = none ∧
      countEvict cfgEvicted.log mvKey = countEvict cfgSettled.log mvKey + 1 :=
  (claim5_grace_eviction.1 twinReqs [.run 0, .respO 0 (.notOk 503)]
    cfgSettled rfl).2.2.1 mvKey cfgEvicted rfl

/-- C9: every cache key follows the per-key state machine Absent →
InFlight → Resolved → Absent: every step moves every key along an allowed
transition (no phase is skipped), from Resolved the pending timer's firing
is enabled and returns the key to Absent, and from InFlight the scheduler
can always settle the window to Resolved (so no key is retained
indefinitely once its fetch can settle). -/
theorem claim9_state_machine :
    ∀ (reqs : List Req) (acts : List Act) (c : Config),
      exec (init reqs) acts = some c →
      (∀ (a : Act) (c2 : Config), step c a = some c2 →
        ∀ k : String, phaseOk (phase c k) (phase c2 k) = true) ∧
      (∀ k : String, phase c k = .resolvedP →
        ∃ c2, step c (.fire k) = some c2 ∧ phase c2 k = .absent) ∧
      (∀ k : String, phase c k = .inFlight →
        ∃ (as2 : List Act) (c2 : Config), exec c as2 = some c2 ∧
          phase c2 k = .resolvedP) := by
  intro reqs acts c h
  have hw := wf_reach h
  refine ⟨fun a c2 hstep k => phase_step hw hstep k, ?_, ?_⟩
  · intro k hp
    obtain ⟨hin, htim⟩ := phase_resolved_inv hp
    have hany : c.timers.any (fun e => e.2 = k) = true := by
      unfold cntTimer at htim
      obtain ⟨e, he, hek⟩ := List.countP_pos.mp htim
      exact List.any_eq_true.mpr ⟨e, he, hek⟩
    have hstep : step c (.fire k) = some { c with
        timers := c.timers.filter (fun e => e.2 ≠ k)
        inProg := sDel c.inProg k
        queue := adel c.queue k
        log := c.log ++ [.evict k] } := by
      simp [step, hany]
    refine ⟨_, hstep, phase_absent ?_⟩
    intro hmm
    exact (mem_sDel.mp hmm).2 rfl
  · intro k hp
    obtain ⟨hin, htim⟩ := phase_inflight_inv hp
    have hbit := hw.ownerTimer k
    rw [if_pos hin] at hbit
    have hown : 0 < cntOwner c k := by omega
    unfold cntOwner at hown
    obtain ⟨tk, htkmem, htkp⟩ := List.countP_pos.mp hown
    obtain ⟨i, hti⟩ := mem_tget htkmem
    obtain ⟨row, st⟩ := tk
    have hok : ownerKey st = some k := of_decide_eq_true htkp
    cases st with
    | oFetch mk t y =>
      simp only [ownerKey] at hok
      injection hok with hkey
      subst hkey
      refine ⟨[.respO i (.notOk 500)], { c with
          tasks := upd c.tasks i ⟨row, .done⟩
          timers := c.timers ++ [(1000, cacheKey mk t y)]
          log := c.log ++ [.resp (cacheKey mk t y) .fail] }, ?_, ?_⟩
      · simp [exec, step, hti]
      · refine phase_resolved hin ?_
        simp [cntTimer, List.countP_append, List.countP_cons]
    | oSave mk t y url =>
      simp only [ownerKey] at hok
      injection hok with hkey
      subst hkey
      refine ⟨[.saveDone i true], { c with
          tasks := upd c.tasks i ⟨row, .done⟩
          promises := (c.nextP, .sres (some url)) :: c.promises
          queue := aset c.queue (cacheKey mk t y) c.nextP
          timers := c.timers ++ [(1000, cacheKey mk t y)]
          nextP := c.nextP + 1
          log := c.log ++ [.display row url] }, ?_, ?_⟩
      · simp [exec, step, hti]
      · refine phase_resolved hin ?_
        simp [cntTimer, List.countP_append, List.countP_cons]
    | gOwn t pid =>
      simp only [ownerKey] at hok
      injection hok with hkey
      subst hkey
      rcases hw.gOwnJob _ (tget_mem hti) t pid rfl with ⟨v, hpv⟩ |
        ⟨hpend, tj, htj, hjob⟩
      · refine ⟨[.run i], { c with
            tasks := upd c.tasks i ⟨row, .done⟩
            timers := c.timers ++ [(1000, cacheKey .game t "")] }, ?_, ?_⟩
        · simp [exec, step, hti, hpv]
        · refine phase_resolved hin ?_
          simp [cntTimer, List.countP_append, List.countP_cons]
      · rcases hjob with hj | ⟨r, hj⟩
        · obtain ⟨j, htj2⟩ := mem_tget htj
          obtain ⟨rowj, stj⟩ := tj
          have hj2 : stj = .jFetch t pid := hj
          subst hj2
          have hij : i ≠ j := by
            intro he
            rw [he, htj2] at hti
            injection hti with hti2
            injection hti2 with hrow hst
            exact absurd hst (by simp)
          have hti3 : tget (upd c.tasks j ⟨rowj, .done⟩) i =
              some ⟨row, .gOwn t pid⟩ := by
            rw [tget_upd_ne _ _ (fun he => hij he.symm)]
            exact hti
          refine ⟨[.respG j .netThrow, .run i], { c with
              tasks := upd (upd c.tasks j ⟨rowj, .done⟩) i ⟨row, .done⟩
              promises := aset c.promises pid (.gres none)
              timers := c.timers ++ [(1000, cacheKey .game t "")]
              log := c.log ++ [.resp (cacheKey .game t "") .fail] },
            ?_, ?_⟩
          · have hstep1 : step c (.respG j .netThrow) = some { c with
                tasks := upd c.tasks j ⟨rowj, .done⟩
                promises := aset c.promises pid (.gres none)
                log := c.log ++ [.resp (cacheKey .game t "") .fail] } := by
              simp [step, htj2]
            have hstep2 : step { c with
                tasks := upd c.tasks j ⟨rowj, .done⟩
                promises := aset c.promises pid (.gres none)
                log := c.log ++ [.resp (cacheKey .game t "") .fail] }
                (.run i) = some { c with
                tasks := upd (upd c.tasks j ⟨rowj, .done⟩) i ⟨row, .done⟩
                promises := aset c.promises pid (.gres none)
                timers := c.timers ++ [(1000, cacheKey .game t "")]
                log := c.log ++ [.resp (cacheKey .game t "") .fail] } := by
              simp [step, hti3, alook_aset_self]
            simp [exec, hstep1, hstep2]
          · refine phase_resolved hin ?_
            simp [cntTimer, List.countP_append, List.countP_cons]
        · obtain ⟨j, htj2⟩ := mem_tget htj
          obtain ⟨rowj, stj⟩ := tj
          have hj2 : stj = .jSave t pid r := hj
          subst hj2
          have hij : i ≠ j := by
            intro he
            rw [he, htj2] at hti
            injection hti with hti2
            injection hti2 with hrow hst
            exact absurd hst (by simp)
          have hti3 : tget (upd c.tasks j ⟨rowj, .done⟩) i =
              some ⟨row, .gOwn t pid⟩ := by
            rw [tget_upd_ne _ _ (fun he => hij he.symm)]
            exact hti
          refine ⟨[.saveDone j true, .run i], { c with
              tasks := upd (upd c.tasks j ⟨rowj, .done⟩) i ⟨row, .done⟩
              promises := aset c.promises pid (.gres (some r))
              timers := c.timers ++ [(1000, cacheKey .game t "")]
              log := c.log ++
                [.display rowj r.cover_art_url, .updateRow rowj] },
            ?_, ?_⟩
          · have hstep1 : step c (.saveDone j true) = some { c with
                tasks := upd c.tasks j ⟨rowj, .done⟩
                promises := aset c.promises pid (.gres (some r))
                log := c.log ++
                  [.display rowj r.cover_art_url, .updateRow rowj] } := by
              simp [step, htj2]
            have hstep2 : step { c with
                tasks := upd c.tasks j ⟨rowj, .done⟩
                promises := aset c.promises pid (.gres (some r))
                log := c.log ++
                  [.display rowj r.cover_art_url, .updateRow rowj] }
                (.run i) = some { c with
                tasks := upd (upd c.tasks j ⟨rowj, .done⟩) i ⟨row, .done⟩
                promises := aset c.promises pid (.gres (some r))
                timers := c.timers ++ [(1000, cacheKey .game t "")]
                log := c.log ++
                  [.display rowj r.cover_art_url, .updateRow rowj] } := by
              simp [step, hti3, alook_aset_self]
            simp [exec, hstep1, hstep2]
          · refine phase_resolved hin ?_
            simp [cntTimer, List.countP_append, List.countP_cons]
    | oStart mk t y => simp [ownerKey] at hok
    | oJoin pid => simp [ownerKey] at hok
    | gStart t => simp [ownerKey] at hok
    | gJoin t pid => simp [ownerKey] at hok
    | gJoinSave t r => simp [ownerKey] at hok
    | jFetch t pid => simp [ownerKey] at hok
    | jSave t pid r => simp [ownerKey] at hok
    | done => simp [ownerKey] at hok

/-- C9 witness: the transition-safety conjunct applied to the concrete
settling step of the twin-request window. -/
theorem claim9_state_machine_witness :
    phaseOk (phase cfgTwin mvKey) (phase cfgTwinSettled mvKey) = true :=
  (claim9_state_machine twinReqs [.run 0, .run 1] cfgTwin rfl).1
    (.respO 0 (.notOk 503)) cfgTwinSettled rfl mvKey

end OmniTrackr
